import Mathlib

/- Shallow embedding of the GoFibonacciHeap repository: the FibHeap struct and its
   methods from fibonacciHeap.go (the current, index-map based implementation).

   Modelling conventions:
   * Go float64 keys (documented domain (-inf, +inf], NaN outside the contract) are
     modelled as WithBot Int; ⊥ plays the role of math.Inf(-1).
   * Tags (interface{} used as map keys) are modelled as Nat; untyped nil tags are
     outside the model, so the nil-tag guard of the public wrappers is dropped.
   * Pointer identity of *node is represented by the node tag: live nodes have
     pairwise distinct tags (heap.index is a map keyed by tag), which is proved as
     an invariant of every reachable heap below.
   * container/list lists are plain Lean lists; PushBack is list append.
   * The persistent heap.treeDegrees scratch map (map[uint]*list.Element) is an
     association list from degree to the tag of the bucketed root; storing nil into
     the Go map is modelled as removing the entry, which is observationally equal
     because the code never ranges over treeDegrees.
   * Go maps iterate in unspecified order; heap.index is modelled as the list of
     tags in insertion order, and Union iterates it in list order (one fixed
     linearization of the unspecified Go order). -/

abbrev Tag := Nat

abbrev Key := WithBot Int

/-- Payload implementing the Value interface: Tag() and Key() accessors. -/
structure GoValue where
  tag : Tag
  key : Key
deriving DecidableEq

/-- A heap node (struct node): tag, key, value (nil allowed), marked flag, stored
degree, stored position, and the child list. The parent pointer is implicit in the
tree structure; the self pointer into the containing list is not needed. -/
inductive NTree : Type where
  | node (tag : Tag) (key : Key) (value : Option GoValue) (marked : Bool)
      (degree : Nat) (position : Nat) (children : List NTree)

def NTree.tag : NTree → Tag
  | .node t _ _ _ _ _ _ => t

def NTree.key : NTree → Key
  | .node _ k _ _ _ _ _ => k

def NTree.value : NTree → Option GoValue
  | .node _ _ v _ _ _ _ => v

def NTree.marked : NTree → Bool
  | .node _ _ _ m _ _ _ => m

def NTree.degree : NTree → Nat
  | .node _ _ _ _ d _ _ => d

def NTree.position : NTree → Nat
  | .node _ _ _ _ _ p _ => p

def NTree.children : NTree → List NTree
  | .node _ _ _ _ _ _ cs => cs

/-- n.key = key; n.value = value (fibonacciHeap.go lines 649-650 and 671-672). -/
def NTree.withKV (n : NTree) (k : Key) (v : Option GoValue) : NTree :=
  match n with
  | .node t _ _ m d p cs => .node t k v m d p cs

/-- Replace the child list (after a child was cut out of it). -/
def NTree.withChildren (n : NTree) (cs : List NTree) : NTree :=
  match n with
  | .node t k v m d p _ => .node t k v m d p cs

/-- cut(n) clears the mark of the node being moved to the root list. -/
def NTree.unmark : NTree → NTree
  | .node t k v _ d p cs => .node t k v false d p cs

/-- cascadingCut marks an unmarked non-root node that lost a child. -/
def NTree.mark : NTree → NTree
  | .node t k v _ d p cs => .node t k v true d p cs

/-- n.parent.degree-- when a child is cut out of n. -/
def NTree.decDegree : NTree → NTree
  | .node t k v m d p cs => .node t k v m (d - 1) p cs

/-- tree.position = tree.degree bookkeeping done by consolidate. -/
def NTree.setPos (n : NTree) (p : Nat) : NTree :=
  match n with
  | .node t k v m d _ cs => .node t k v m d p cs

/-- link(parent, child): child.marked = false, child appended to parent.children,
parent.degree++ (fibonacciHeap.go lines 628-633). -/
def linkT (parent child : NTree) : NTree :=
  match parent with
  | .node t k v m d p cs => .node t k v m (d + 1) p (cs ++ [child.unmark])

mutual
/-- Number of nodes in a tree. -/
def treeCount : NTree → Nat
  | .node _ _ _ _ _ _ cs => 1 + forestCount cs
/-- Number of nodes in a forest. -/
def forestCount : List NTree → Nat
  | [] => 0
  | t :: ts => treeCount t + forestCount ts
end

mutual
/-- All tags in a tree, preorder. -/
def treeTags : NTree → List Tag
  | .node t _ _ _ _ _ cs => t :: forestTags cs
/-- All tags in a forest. -/
def forestTags : List NTree → List Tag
  | [] => []
  | t :: ts => treeTags t ++ forestTags ts
end

mutual
/-- All keys in a tree, preorder. -/
def treeKeys : NTree → List Key
  | .node _ k _ _ _ _ cs => k :: forestKeys cs
/-- All keys in a forest. -/
def forestKeys : List NTree → List Key
  | [] => []
  | t :: ts => treeKeys t ++ forestKeys ts
end

mutual
/-- Heap order inside one tree: every child key is at least the node key,
recursively (invariant I1). -/
def hoTree : NTree → Bool
  | .node _ k _ _ _ _ cs => hoAbove k cs
/-- Every tree in the list is heap ordered and has root key at least k. -/
def hoAbove (k : Key) : List NTree → Bool
  | [] => true
  | t :: ts => (decide (k ≤ t.key) && hoTree t) && hoAbove k ts
end

/-- Every tree of the forest is heap ordered. -/
def hoForest : List NTree → Bool
  | [] => true
  | t :: ts => hoTree t && hoForest ts

mutual
/-- The stored degree field equals the length of the child list, recursively. -/
def degLenT : NTree → Bool
  | .node _ _ _ _ d _ cs => (decide (d = cs.length)) && degLenF cs
def degLenF : List NTree → Bool
  | [] => true
  | t :: ts => degLenT t && degLenF ts
end

mutual
/-- Dereference the node with the given tag anywhere in a tree: returns its key and
value (the model of following the *node pointer stored in heap.index). -/
def treeFind : NTree → Tag → Option (Key × Option GoValue)
  | .node t k v _ _ _ cs, tg => if t = tg then some (k, v) else forestFind cs tg
def forestFind : List NTree → Tag → Option (Key × Option GoValue)
  | [], _ => none
  | t :: ts, tg =>
    match treeFind t tg with
    | some r => some r
    | none => forestFind ts tg
end

/-- Key of the node with the given tag, if present in the forest. -/
def findKey (roots : List NTree) (tg : Tag) : Option Key :=
  (forestFind roots tg).map (·.1)

/-- Value of the node with the given tag, if present in the forest. -/
def findVal (roots : List NTree) (tg : Tag) : Option (Option GoValue) :=
  (forestFind roots tg).map (·.2)

/-- Is the node with this tag a root (n.parent == nil)? -/
def isRootTag (roots : List NTree) (tg : Tag) : Bool :=
  roots.any (fun r => r.tag = tg)

/-- treeDegrees scratch map (map[uint]*list.Element): degree to tag of the bucketed
root. Storing nil is modelled as erasing the entry. -/
abbrev TD := List (Nat × Tag)

def tdGet (m : TD) (d : Nat) : Option Tag :=
  match m with
  | [] => none
  | p :: ps => if p.1 = d then some p.2 else tdGet ps d

/-- heap.treeDegrees[d] = nil. -/
def tdErase (m : TD) (d : Nat) : TD :=
  match m with
  | [] => []
  | p :: ps => if p.1 = d then tdErase ps d else p :: tdErase ps d

/-- heap.treeDegrees[d] = element. -/
def tdPut (m : TD) (d : Nat) (tg : Tag) : TD :=
  (d, tg) :: tdErase m d

theorem tdErase_length_le (m : TD) (d : Nat) : (tdErase m d).length ≤ m.length := by
  induction m with
  | nil => simp [tdErase]
  | cons p ps ih =>
    unfold tdErase
    by_cases hp : p.1 = d
    · simp only [if_pos hp, List.length_cons]
      omega
    · simp only [if_neg hp, List.length_cons]
      omega

theorem tdErase_length_lt {m : TD} {d : Nat} {tg : Tag} (h : tdGet m d = some tg) :
    (tdErase m d).length < m.length := by
  induction m with
  | nil => simp [tdGet] at h
  | cons p ps ih =>
    unfold tdErase
    unfold tdGet at h
    by_cases hp : p.1 = d
    · simp only [if_pos hp]
      have := tdErase_length_le ps d
      simp only [List.length_cons]
      omega
    · rw [if_neg hp] at h
      simp only [if_neg hp, List.length_cons]
      exact Nat.succ_lt_succ (ih h)

theorem tdPut_length_le (m : TD) (d : Nat) (tg : Tag) :
    (tdPut m d tg).length ≤ m.length + 1 := by
  have := tdErase_length_le m d
  simp [tdPut]
  omega

/-- Locate the list element holding the given tag (the model of a *list.Element
pointer): the prefix before it, the element, and the suffix after it. -/
def splitFirst : List NTree → Tag → Option (List NTree × NTree × List NTree)
  | [], _ => none
  | t :: ts, tg =>
    if t.tag = tg then some ([], t, ts)
    else (splitFirst ts tg).map (fun r => (t :: r.1, r.2.1, r.2.2))

theorem splitFirst_parts {l : List NTree} {tg : Tag} {b : List NTree} {x : NTree}
    {a : List NTree} (h : splitFirst l tg = some (b, x, a)) : l = b ++ x :: a := by
  induction l generalizing b x a with
  | nil => exact absurd h (by simp [splitFirst])
  | cons t ts ih =>
    unfold splitFirst at h
    by_cases ht : t.tag = tg
    · rw [if_pos ht] at h
      cases h
      rfl
    · rw [if_neg ht] at h
      match hs : splitFirst ts tg with
      | none => rw [hs] at h; cases h
      | some (b2, x2, a2) =>
        rw [hs] at h
        simp only [Option.map_some'] at h
        cases h
        simp [ih hs]

/-- The main loop of consolidate (fibonacciHeap.go lines 540-567), with the cursor
walk of the doubly linked root list made explicit: processed is the part of the
root list strictly before the cursor, toVisit is the cursor element followed by the
rest of the list. Jumping the cursor to the element treeDegrees[degree] is realised
by splitting the corresponding side of the list, and an element is identified with
its tag (live tags are pairwise distinct, proved as an invariant below). The final
splitFirst-none fallback can only fire on states whose treeDegrees entries dangle;
reachable heaps never produce it. -/
def consLoop (td : TD) (processed : List NTree) (toVisit : List NTree) : TD × List NTree :=
  match toVisit with
  | [] => (td, processed)
  | t :: rest =>
    match h1 : tdGet td t.degree with
    | none => consLoop (tdPut td t.degree t.tag) (processed ++ [t.setPos t.degree]) rest
    | some tg =>
      if t.tag = tg then consLoop td (processed ++ [t]) rest
      else
        match h2 : splitFirst processed tg with
        | some (b, x, a) =>
          if t.key ≤ x.key then
            consLoop (tdErase td t.degree) (b ++ a) (linkT t x :: rest)
          else
            consLoop (tdErase td t.degree) b (linkT x t :: (a ++ rest))
        | none =>
          match h3 : splitFirst rest tg with
          | some (r1, x, r2) =>
            if t.key ≤ x.key then
              consLoop (tdErase td t.degree) processed (linkT t x :: (r1 ++ r2))
            else
              consLoop (tdErase td t.degree) (processed ++ r1) (linkT x t :: r2)
          | none =>
            consLoop (tdErase td t.degree) processed (t :: rest)
termination_by (processed.length + toVisit.length, toVisit.length, td.length)
decreasing_by
· simp only [Prod.lex_def, List.length_append, List.length_cons, List.length_nil]
  omega
· simp only [Prod.lex_def, List.length_append, List.length_cons, List.length_nil]
  omega
· replace h2 := splitFirst_parts h2
  subst h2
  simp only [Prod.lex_def, List.length_append, List.length_cons, List.length_nil]
  omega
· replace h2 := splitFirst_parts h2
  subst h2
  simp only [Prod.lex_def, List.length_append, List.length_cons, List.length_nil]
  omega
· replace h3 := splitFirst_parts h3
  subst h3
  simp only [Prod.lex_def, List.length_append, List.length_cons, List.length_nil]
  omega
· replace h3 := splitFirst_parts h3
  subst h3
  simp only [Prod.lex_def, List.length_append, List.length_cons, List.length_nil]
  omega
· exact Prod.Lex.right _ (Prod.Lex.right _ (tdErase_length_lt h1))

/-- First loop of consolidate (fibonacciHeap.go lines 536-538): clear the entry at
every current root's stored position. -/
def clearLoop (td : TD) : List NTree → TD
  | [] => td
  | r :: rs => clearLoop (tdErase td r.position) rs

/-- consolidate (fibonacciHeap.go lines 535-570): the clearing loop, then the
degree-merging cursor walk. The final resetMin call of the Go code is performed by
the caller on the returned root list. -/
def consolidateGo (td : TD) (roots : List NTree) : TD × List NTree :=
  consLoop (clearLoop td roots) [] roots

/-- Scan of resetMin (lines 636-641): heap.min starts at the first root and is
replaced whenever a strictly smaller key is found. -/
def resetMinLoop (best : NTree) : List NTree → Tag
  | [] => best.tag
  | t :: ts => if t.key < best.key then resetMinLoop t ts else resetMinLoop best ts

/-- resetMin (lines 635-642). The Go code dereferences heap.roots.Front() and is
only ever called with a non-empty root list; the empty case returns none. -/
def resetMinGo : List NTree → Option Tag
  | [] => none
  | r :: rs => some (resetMinLoop r rs)

/-- Error returns of the public API, one constructor per errors.New site. -/
inductive Err : Type where
  | nilInput
  | reservedKey
  | duplicateTag
  | unionDuplicateTag
  | notFound
  | keyNotSmaller
  | keyNotLarger
deriving DecidableEq

/-- The FibHeap struct: root list, index map (modelled as the list of live tags in
insertion order; the node pointers are recovered by searching the forest by tag),
the persistent treeDegrees scratch map, the min pointer (by tag), and num. -/
structure Heap where
  roots : List NTree
  index : List Tag
  td : TD
  minTag : Option Tag
  num : Nat

/-- NewFibHeap (fibonacciHeap.go lines 230-239). -/
def newFibHeap : Heap :=
  { roots := [], index := [], td := [], minTag := none, num := 0 }

/-- Num (lines 242-244). -/
def NumGo (h : Heap) : Nat := h.num

/-- insert (lines 572-596). -/
def insertGo (h : Heap) (tag : Tag) (key : Key) (value : Option GoValue) :
    Heap × Option Err :=
  if key = ⊥ then (h, some .reservedKey)
  else if h.index.contains tag then (h, some .duplicateTag)
  else
    let n : NTree := .node tag key value false 0 0 []
    let newMin : Option Tag :=
      match h.minTag with
      | none => some tag
      | some mt =>
        match findKey h.roots mt with
        | some mk => if mk > key then some tag else some mt
        | none => some mt
    ({ roots := h.roots ++ [n], index := h.index ++ [tag], td := h.td,
       minTag := newMin, num := h.num + 1 }, none)

/-- Insert (lines 252-258); the nil-tag guard is outside the model. -/
def InsertGo (h : Heap) (tag : Tag) (key : Key) : Heap × Option Err :=
  insertGo h tag key none

/-- InsertValue (lines 267-273). -/
def InsertValueGo (h : Heap) (v : Option GoValue) : Heap × Option Err :=
  match v with
  | none => (h, some .nilInput)
  | some v => insertGo h v.tag v.key (some v)

/-- extractMin (lines 598-621). Returns the new state plus the extracted tag and
key. The none results model the nil dereference states (heap.min not a live root),
which are unreachable from reachable heaps. -/
def extractMinGo (h : Heap) : Heap × Option (Tag × Key) :=
  match h.minTag with
  | none => (h, none)
  | some mt =>
    match splitFirst h.roots mt with
    | none => (h, none)
    | some (b, minN, a) =>
      let roots1 := b ++ a ++ minN.children
      let td1 := tdErase h.td minN.position
      let index1 := h.index.erase mt
      let num1 := h.num - 1
      if num1 = 0 then
        ({ roots := roots1, index := index1, td := td1, minTag := none,
           num := num1 }, some (mt, minN.key))
      else
        let r2 := consolidateGo td1 roots1
        ({ roots := r2.2, index := index1, td := r2.1,
           minTag := resetMinGo r2.2, num := num1 }, some (mt, minN.key))

/-- ExtractMin (lines 299-307): the empty heap returns nil and -inf. -/
def ExtractMinGo (h : Heap) : Heap × Option (Tag × Key) :=
  if h.num = 0 then (h, none) else extractMinGo h

/-- ExtractMinValue (lines 311-319): same state change, returns the value. -/
def ExtractMinValueGo (h : Heap) : Heap × Option (Option GoValue) :=
  if h.num = 0 then (h, none)
  else
    match h.minTag with
    | none => (h, none)
    | some mt =>
      let v := findVal h.roots mt
      ((extractMinGo h).1, v)

/-- Minimum (lines 278-284): tag and key of the cached minimum, nil and -inf if
the heap is empty. -/
def MinimumGo (h : Heap) : Option (Tag × Key) :=
  if h.num = 0 then none
  else h.minTag.bind (fun mt => (findKey h.roots mt).map (fun k => (mt, k)))

/-- MinimumValue (lines 289-295). -/
def MinimumValueGo (h : Heap) : Option GoValue :=
  if h.num = 0 then none
  else h.minTag.bind (fun mt => (findVal h.roots mt).bind id)

/-- GetTag (lines 460-466): key of the tag, -inf when absent. -/
def GetTagGo (h : Heap) (tag : Tag) : Key :=
  if h.index.contains tag then
    match findKey h.roots tag with
    | some k => k
    | none => ⊥
  else ⊥

/-- GetValue (lines 471-477): value of the tag, nil when absent. -/
def GetValueGo (h : Heap) (tag : Tag) : Option GoValue :=
  if h.index.contains tag then
    match findVal h.roots tag with
    | some v => v
    | none => none
  else none

theorem NTree.sizeOf_children_lt (t : NTree) : sizeOf t.children < sizeOf t := by
  cases t with
  | node tg k v m d p cs => simp [NTree.children]

/-- decreaseKey walk (lines 644-657) below one node (the owner) with key pk:
looks for the target among the trees of cs. Returns none when the target is not
there; otherwise the new child list, the subtrees cut to the root list in PushBack
order, and whether the owner just lost a direct child, in which case the caller
applies the owner's degree decrement and cascadingCut (lines 691-709). -/
def dkChildren (tag : Tag) (k : Key) (v : Option GoValue) (pk : Key) :
    List NTree → Option (List NTree × List NTree × Bool)
  | [] => none
  | c :: cs =>
    if c.tag = tag then
      let c1 := c.withKV k v
      if k < pk then some (cs, [c1.unmark], true)
      else some (c1 :: cs, [], false)
    else
      match dkChildren tag k v c.key c.children with
      | some (ccs, cuts, sig) =>
        if sig then
          let c1 := (c.withChildren ccs).decDegree
          if c1.marked then some (cs, cuts ++ [c1.unmark], true)
          else some (c1.mark :: cs, cuts, false)
        else some ((c.withChildren ccs) :: cs, cuts, false)
      | none =>
        match dkChildren tag k v pk cs with
        | some (cs2, cuts, sig) => some (c :: cs2, cuts, sig)
        | none => none
termination_by cs => sizeOf cs
decreasing_by
· have := NTree.sizeOf_children_lt t
  simp
  omega
· simp

/-- decreaseKey walk over the root list: a root target is updated in place (n has
no parent, so no cut); otherwise the root tree containing the target is rebuilt,
and cascadingCut stops silently at a root (only the degree decrement applies). -/
def dkRoots (tag : Tag) (k : Key) (v : Option GoValue) :
    List NTree → Option (List NTree × List NTree)
  | [] => none
  | r :: rs =>
    if r.tag = tag then some ((r.withKV k v) :: rs, [])
    else
      match dkChildren tag k v r.key r.children with
      | some (ccs, cuts, sig) =>
        let r1 := if sig then (r.withChildren ccs).decDegree else r.withChildren ccs
        some (r1 :: rs, cuts)
      | none =>
        match dkRoots tag k v rs with
        | some (rs2, cuts) => some (r :: rs2, cuts)
        | none => none

/-- Forest left by decreaseKey: rebuilt roots with the cut subtrees pushed back. -/
def dkForest (roots : List NTree) (tag : Tag) (k : Key) (v : Option GoValue) :
    List NTree :=
  match dkRoots tag k v roots with
  | some (rs, cuts) => rs ++ cuts
  | none => roots

/-- decreaseKey (lines 644-664). The not-found branch models a dangling index
entry and is unreachable for reachable heaps. -/
def decreaseKeyInternal (h : Heap) (tag : Tag) (v : Option GoValue) (k : Key) :
    Heap × Option Err :=
  match findKey h.roots tag with
  | none => (h, some .notFound)
  | some cur =>
    if k ≥ cur then (h, some .keyNotSmaller)
    else
      let roots1 := dkForest h.roots tag k v
      let minTag1 :=
        if isRootTag roots1 tag then
          match h.minTag with
          | some mt =>
            match findKey roots1 mt with
            | some mk => if k < mk then some tag else h.minTag
            | none => h.minTag
          | none => h.minTag
        else h.minTag
      ({ roots := roots1, index := h.index, td := h.td, minTag := minTag1,
         num := h.num }, none)

/-- DecreaseKey (lines 342-356); the nil-tag guard is outside the model. -/
def DecreaseKeyGo (h : Heap) (tag : Tag) (k : Key) : Heap × Option Err :=
  if k = ⊥ then (h, some .reservedKey)
  else if h.index.contains tag then decreaseKeyInternal h tag none k
  else (h, some .notFound)

/-- DecreaseKeyValue (lines 363-377). -/
def DecreaseKeyValueGo (h : Heap) (v : Option GoValue) : Heap × Option Err :=
  match v with
  | none => (h, some .nilInput)
  | some v =>
    if v.key = ⊥ then (h, some .reservedKey)
    else if h.index.contains v.tag then decreaseKeyInternal h v.tag (some v) v.key
    else (h, some .notFound)

/-- Result of the child scan of increaseKey for the increased node n: kept
children, subtrees pushed to the root list before n itself was cut, subtrees
pushed after that, number of children lost, and the final marked and cut state
of n. -/
structure IkRes where
  kept : List NTree
  pre : List NTree
  post : List NTree
  lost : Nat
  nMarked : Bool
  nCut : Bool

/-- Child loop of increaseKey (lines 674-682): children with key below the new
key are cut in order, and after every cut cascadingCut(n) runs, so n is marked by
its first loss and cut by its second while the scan keeps going; m and c carry
n.marked and whether n was already cut (n.parent == nil makes cascadingCut stop:
hasPar false or c true). -/
def ikFold (k : Key) (hasPar : Bool) (m c : Bool) : List NTree → IkRes
  | [] => ⟨[], [], [], 0, m, c⟩
  | ch :: cs =>
    if ch.key < k then
      if c then
        let r := ikFold k hasPar m c cs
        ⟨r.kept, r.pre, ch.unmark :: r.post, r.lost + 1, r.nMarked, r.nCut⟩
      else if hasPar then
        if m then
          let r := ikFold k hasPar false true cs
          ⟨r.kept, ch.unmark :: r.pre, r.post, r.lost + 1, r.nMarked, r.nCut⟩
        else
          let r := ikFold k hasPar true false cs
          ⟨r.kept, ch.unmark :: r.pre, r.post, r.lost + 1, r.nMarked, r.nCut⟩
      else
        let r := ikFold k hasPar m c cs
        ⟨r.kept, ch.unmark :: r.pre, r.post, r.lost + 1, r.nMarked, r.nCut⟩
    else
      let r := ikFold k hasPar m c cs
      ⟨ch :: r.kept, r.pre, r.post, r.lost, r.nMarked, r.nCut⟩

/-- increaseKey walk below the roots: find the target, rebuild, and propagate the
cascade. Returns the new child list, cut subtrees pushed before and after the
moment the cascade passed this level, and the owner's lost-a-child signal. -/
def ikChildren (tag : Tag) (k : Key) (v : Option GoValue) :
    List NTree → Option (List NTree × List NTree × List NTree × Bool)
  | [] => none
  | c :: cs =>
    if c.tag = tag then
      let r := ikFold k true c.marked false c.children
      let c1 := NTree.node c.tag k v r.nMarked (c.degree - r.lost) c.position r.kept
      if r.nCut then some (cs, r.pre ++ [c1.unmark], r.post, true)
      else some (c1 :: cs, r.pre, r.post, false)
    else
      match ikChildren tag k v c.children with
      | some (ccs, pre, post, sig) =>
        if sig then
          let c1 := (c.withChildren ccs).decDegree
          if c1.marked then some (cs, pre ++ [c1.unmark], post, true)
          else some (c1.mark :: cs, pre, post, false)
        else some ((c.withChildren ccs) :: cs, pre, post, false)
      | none =>
        match ikChildren tag k v cs with
        | some (cs2, pre, post, sig) => some (c :: cs2, pre, post, sig)
        | none => none
termination_by cs => sizeOf cs
decreasing_by
· have := NTree.sizeOf_children_lt t
  simp
  omega
· simp

/-- increaseKey walk over the root list: a root target runs the child loop with
no parent (cascadingCut never marks or cuts a root). -/
def ikRoots (tag : Tag) (k : Key) (v : Option GoValue) :
    List NTree → Option (List NTree × List NTree × List NTree)
  | [] => none
  | r :: rs =>
    if r.tag = tag then
      let f := ikFold k false r.marked false r.children
      let r1 := NTree.node r.tag k v f.nMarked (r.degree - f.lost) r.position f.kept
      some (r1 :: rs, f.pre, f.post)
    else
      match ikChildren tag k v r.children with
      | some (ccs, pre, post, sig) =>
        let r1 := if sig then (r.withChildren ccs).decDegree else r.withChildren ccs
        some (r1 :: rs, pre, post)
      | none =>
        match ikRoots tag k v rs with
        | some (rs2, pre, post) => some (r :: rs2, pre, post)
        | none => none

/-- Forest left by increaseKey. -/
def ikForest (roots : List NTree) (tag : Tag) (k : Key) (v : Option GoValue) :
    List NTree :=
  match ikRoots tag k v roots with
  | some (rs, pre, post) => rs ++ pre ++ post
  | none => roots

/-- increaseKey (lines 666-689). -/
def increaseKeyInternal (h : Heap) (tag : Tag) (v : Option GoValue) (k : Key) :
    Heap × Option Err :=
  match findKey h.roots tag with
  | none => (h, some .notFound)
  | some cur =>
    if k ≤ cur then (h, some .keyNotLarger)
    else
      let roots1 := ikForest h.roots tag k v
      let minTag1 := if h.minTag = some tag then resetMinGo roots1 else h.minTag
      ({ roots := roots1, index := h.index, td := h.td, minTag := minTag1,
         num := h.num }, none)

/-- IncreaseKey (lines 384-398). -/
def IncreaseKeyGo (h : Heap) (tag : Tag) (k : Key) : Heap × Option Err :=
  if k = ⊥ then (h, some .reservedKey)
  else if h.index.contains tag then increaseKeyInternal h tag none k
  else (h, some .notFound)

/-- IncreaseKeyValue (lines 405-419). -/
def IncreaseKeyValueGo (h : Heap) (v : Option GoValue) : Heap × Option Err :=
  match v with
  | none => (h, some .nilInput)
  | some v =>
    if v.key = ⊥ then (h, some .reservedKey)
    else if h.index.contains v.tag then increaseKeyInternal h v.tag (some v) v.key
    else (h, some .notFound)

/-- deleteNode (lines 623-626): decreaseKey to -inf (with the node's own value),
error ignored, then ExtractMinValue. -/
def deleteNodeGo (h : Heap) (tag : Tag) : Heap :=
  let v := match findVal h.roots tag with
    | some v => v
    | none => none
  let h1 := (decreaseKeyInternal h tag v ⊥).1
  (ExtractMinValueGo h1).1

/-- ExtractValue (lines 495-503). -/
def ExtractValueGo (h : Heap) (tag : Tag) : Heap × Option (Option GoValue) :=
  if h.index.contains tag then
    match findVal h.roots tag with
    | some v => (deleteNodeGo h tag, some v)
    | none => (h, none)
  else (h, none)

/-- ExtractTag (lines 482-490): reads the key before deleting. -/
def ExtractTagGo (h : Heap) (tag : Tag) : Heap × Key :=
  if h.index.contains tag then
    match findKey h.roots tag with
    | some k => (deleteNodeGo h tag, k)
    | none => (h, ⊥)
  else (h, ⊥)

/-- Delete (lines 425-437). -/
def DeleteGo (h : Heap) (tag : Tag) : Heap × Option Err :=
  if h.index.contains tag then ((ExtractValueGo h tag).1, none)
  else (h, some .notFound)

/-- DeleteValue (lines 443-455). -/
def DeleteValueGo (h : Heap) (v : Option GoValue) : Heap × Option Err :=
  match v with
  | none => (h, some .nilInput)
  | some v =>
    if h.index.contains v.tag then ((ExtractValueGo h v.tag).1, none)
    else (h, some .notFound)

/-- Union (lines 323-335): a duplicate scan over the source index, then
InsertValue of every source node's value, errors from InsertValue silently
discarded (which drops every source node whose value is nil). The source heap is
returned unchanged as the second component. Go map iteration order is
unspecified; the model iterates the source index list in order. -/
def unionGo (dst src : Heap) : Heap × Heap × Option Err :=
  if src.index.any (fun tg => dst.index.contains tg) then
    (dst, src, some .unionDuplicateTag)
  else
    let d2 := src.index.foldl (fun d tg =>
      match findVal src.roots tg with
      | some v => (InsertValueGo d v).1
      | none => d) dst
    (d2, src, none)

/-- Heaps reachable by the public API from NewFibHeap; the claims about heap
invariants quantify over these. -/
inductive Reachable : Heap → Prop where
  | new : Reachable newFibHeap
  | ins (h : Heap) (tag : Tag) (k : Key) :
      Reachable h → Reachable (InsertGo h tag k).1
  | insVal (h : Heap) (v : Option GoValue) :
      Reachable h → Reachable (InsertValueGo h v).1
  | extMin (h : Heap) : Reachable h → Reachable (ExtractMinGo h).1
  | extMinVal (h : Heap) : Reachable h → Reachable (ExtractMinValueGo h).1
  | decKey (h : Heap) (tag : Tag) (k : Key) :
      Reachable h → Reachable (DecreaseKeyGo h tag k).1
  | decKeyVal (h : Heap) (v : Option GoValue) :
      Reachable h → Reachable (DecreaseKeyValueGo h v).1
  | incKey (h : Heap) (tag : Tag) (k : Key) :
      Reachable h → Reachable (IncreaseKeyGo h tag k).1
  | incKeyVal (h : Heap) (v : Option GoValue) :
      Reachable h → Reachable (IncreaseKeyValueGo h v).1
  | del (h : Heap) (tag : Tag) : Reachable h → Reachable (DeleteGo h tag).1
  | delVal (h : Heap) (v : Option GoValue) :
      Reachable h → Reachable (DeleteValueGo h v).1
  | extTag (h : Heap) (tag : Tag) : Reachable h → Reachable (ExtractTagGo h tag).1
  | extVal (h : Heap) (tag : Tag) :
      Reachable h → Reachable (ExtractValueGo h tag).1
  | union (d s : Heap) : Reachable d → Reachable s → Reachable (unionGo d s).1

mutual
/-- Content of a tree: the (tag, key, value) triples of all its nodes. -/
def treeNodes : NTree → List (Tag × Key × Option GoValue)
  | .node t k v _ _ _ cs => (t, k, v) :: forestNodes cs
/-- Content of a forest. -/
def forestNodes : List NTree → List (Tag × Key × Option GoValue)
  | [] => []
  | t :: ts => treeNodes t ++ forestNodes ts
end

/-- Content of a forest as a multiset, the invariant currency of the proofs:
relinking operations preserve it exactly. -/
def nodesM (l : List NTree) : Multiset (Tag × Key × Option GoValue) :=
  (forestNodes l : Multiset (Tag × Key × Option GoValue))

/-- A root is bucketed: the scratch map maps its degree to it and its stored
position is its degree. -/
def bucketedP (td : TD) (z : NTree) : Prop :=
  tdGet td z.degree = some z.tag ∧ z.position = z.degree

/-- No scratch map entry points at this root. -/
def unref (td : TD) (z : NTree) : Prop :=
  ∀ d tg, tdGet td d = some tg → tg ≠ z.tag

/-- The not-yet-visited part of the root walk: a (possibly empty) block of
re-visited bucketed roots followed by roots no entry points at. -/
def seg (td : TD) (l : List NTree) : Prop :=
  ∃ s f, l = s ++ f ∧ (∀ z ∈ s, bucketedP td z) ∧ (∀ z ∈ f, unref td z)

/-- Shape of the cursor side during the consolidate walk: the cursor itself is
either a re-visited bucketed root or carries no entry, and the rest is seg. -/
def invC (td : TD) : List NTree → Prop
  | [] => True
  | h :: zs => (bucketedP td h ∨ unref td h) ∧ seg td zs

/-- Well formedness of a heap state: the forest is heap ordered, tags are unique,
the index holds exactly the live tags, num counts the nodes, the cached minimum is
a root with minimal key (and is present whenever the heap is), and every entry of
the persistent treeDegrees scratch map points at the stored position of some
root. -/
structure WF (h : Heap) : Prop where
  ho : hoForest h.roots = true
  nd : (forestTags h.roots).Nodup
  idx : ((h.index : List Tag) : Multiset Tag)
    = ((forestTags h.roots : List Tag) : Multiset Tag)
  cnt : h.num = forestCount h.roots
  minOK : ∀ mt, h.minTag = some mt →
    ∃ r ∈ h.roots, r.tag = mt ∧ ∀ q ∈ forestKeys h.roots, r.key ≤ q
  minNone : h.minTag = none → h.roots = []
  tdOK : ∀ p ∈ h.td, ∃ r ∈ h.roots, r.position = p.1

/-- Repeated ExtractMin: the list of keys returned by n successive calls. -/
def extractKeysGo (h : Heap) : Nat → List Key
  | 0 => []
  | n + 1 =>
    match ExtractMinGo h with
    | (h1, some p) => p.2 :: extractKeysGo h1 n
    | (_, none) => []

/-- A sequence of Insert calls on a fresh heap. -/
def insertAllGo (l : List (Tag × Key)) : Heap :=
  l.foldl (fun d p => (InsertGo d p.1 p.2).1) newFibHeap

/-- Fuelled version of the consolidate walk: returns none when the fuel runs out
before the loop exits. -/
def consLoopF : Nat → TD → List NTree → List NTree → Option (TD × List NTree)
  | 0, _, _, _ => none
  | n + 1, td, processed, toVisit =>
    match toVisit with
    | [] => some (td, processed)
    | t :: rest =>
      match tdGet td t.degree with
      | none =>
        consLoopF n (tdPut td t.degree t.tag) (processed ++ [t.setPos t.degree]) rest
      | some tg =>
        if t.tag = tg then consLoopF n td (processed ++ [t]) rest
        else
          match splitFirst processed tg with
          | some (b, x, a) =>
            if t.key ≤ x.key then
              consLoopF n (tdErase td t.degree) (b ++ a) (linkT t x :: rest)
            else
              consLoopF n (tdErase td t.degree) b (linkT x t :: (a ++ rest))
          | none =>
            match splitFirst rest tg with
            | some (r1, x, r2) =>
              if t.key ≤ x.key then
                consLoopF n (tdErase td t.degree) processed (linkT t x :: (r1 ++ r2))
              else
                consLoopF n (tdErase td t.degree) (processed ++ r1) (linkT x t :: r2)
            | none =>
              consLoopF n (tdErase td t.degree) processed (t :: rest)

/-- Fuelled version of the decreaseKey walk (the cut and cascadingCut recursion):
the outer none means the fuel ran out. -/
def dkChildrenF : Nat → Tag → Key → Option GoValue → Key → List NTree →
    Option (Option (List NTree × List NTree × Bool))
  | 0, _, _, _, _, _ => none
  | n + 1, tag, k, v, pk, cs =>
    match cs with
    | [] => some none
    | c :: cs' =>
      if c.tag = tag then
        if k < pk then some (some (cs', [(c.withKV k v).unmark], true))
        else some (some ((c.withKV k v) :: cs', [], false))
      else
        match dkChildrenF n tag k v c.key c.children with
        | none => none
        | some (some (ccs, cuts, sig)) =>
          if sig then
            if ((c.withChildren ccs).decDegree).marked then
              some (some (cs', cuts ++ [((c.withChildren ccs).decDegree).unmark], true))
            else some (some (((c.withChildren ccs).decDegree).mark :: cs', cuts, false))
          else some (some ((c.withChildren ccs) :: cs', cuts, false))
        | some none =>
          match dkChildrenF n tag k v pk cs' with
          | none => none
          | some (some (cs2, cuts, sig)) => some (some (c :: cs2, cuts, sig))
          | some none => some none

theorem forestNodes_append (a b : List NTree) :
    forestNodes (a ++ b) = forestNodes a ++ forestNodes b := by
  induction a with
  | nil => simp [forestNodes]
  | cons t ts ih => simp [forestNodes, ih]

theorem nodesM_append (a b : List NTree) : nodesM (a ++ b) = nodesM a + nodesM b := by
  simp [nodesM, forestNodes_append]

theorem forestTags_append (a b : List NTree) :
    forestTags (a ++ b) = forestTags a ++ forestTags b := by
  induction a with
  | nil => simp [forestTags]
  | cons t ts ih => simp [forestTags, ih]

theorem forestKeys_append (a b : List NTree) :
    forestKeys (a ++ b) = forestKeys a ++ forestKeys b := by
  induction a with
  | nil => simp [forestKeys]
  | cons t ts ih => simp [forestKeys, ih]

theorem forestCount_append (a b : List NTree) :
    forestCount (a ++ b) = forestCount a + forestCount b := by
  induction a with
  | nil => simp [forestCount]
  | cons t ts ih => simp [forestCount, ih]; omega

/-- Mutual structural induction for trees and forests. -/
theorem ntree_mutual_ind (P : NTree → Prop) (Q : List NTree → Prop)
    (h1 : ∀ tg k v m d p cs, Q cs → P (.node tg k v m d p cs))
    (h2 : Q [])
    (h3 : ∀ t ts, P t → Q ts → Q (t :: ts)) :
    (∀ t, P t) ∧ (∀ l, Q l) :=
  ⟨fun t => treeTags.induct P Q h1 h2 h3 t, fun l => forestTags.induct P Q h1 h2 h3 l⟩

theorem tags_eq_map_nodes :
    (∀ t : NTree, treeTags t = (treeNodes t).map (·.1)) ∧
    (∀ l : List NTree, forestTags l = (forestNodes l).map (·.1)) := by
  refine ntree_mutual_ind _ _ ?_ ?_ ?_
  · intro tg k v m d p cs ih; simp [treeTags, treeNodes, ih]
  · simp [forestTags, forestNodes]
  · intro t ts ih1 ih2; simp [forestTags, forestNodes, ih1, ih2]

theorem keys_eq_map_nodes :
    (∀ t : NTree, treeKeys t = (treeNodes t).map (·.2.1)) ∧
    (∀ l : List NTree, forestKeys l = (forestNodes l).map (·.2.1)) := by
  refine ntree_mutual_ind _ _ ?_ ?_ ?_
  · intro tg k v m d p cs ih; simp [treeKeys, treeNodes, ih]
  · simp [forestKeys, forestNodes]
  · intro t ts ih1 ih2; simp [forestKeys, forestNodes, ih1, ih2]

theorem count_eq_length_nodes :
    (∀ t : NTree, treeCount t = (treeNodes t).length) ∧
    (∀ l : List NTree, forestCount l = (forestNodes l).length) := by
  refine ntree_mutual_ind _ _ ?_ ?_ ?_
  · intro tg k v m d p cs ih; simp [treeCount, treeNodes, ih]; omega
  · simp [forestCount, forestNodes]
  · intro t ts ih1 ih2; simp [forestCount, forestNodes, ih1, ih2]

theorem hoAbove_iff (k : Key) (l : List NTree) :
    hoAbove k l = true ↔ ∀ t ∈ l, k ≤ t.key ∧ hoTree t = true := by
  induction l with
  | nil => simp [hoAbove]
  | cons t ts ih => simp [hoAbove, ih, and_assoc]

theorem hoForest_iff (l : List NTree) :
    hoForest l = true ↔ ∀ t ∈ l, hoTree t = true := by
  induction l with
  | nil => simp [hoForest]
  | cons t ts ih => simp [hoForest, ih]

theorem hoTree_node (tg : Tag) (k : Key) (v : Option GoValue) (m : Bool) (d p : Nat)
    (cs : List NTree) : hoTree (.node tg k v m d p cs) = hoAbove k cs := rfl

theorem hoAbove_mono {j k : Key} (h : j ≤ k) {l : List NTree}
    (hl : hoAbove k l = true) : hoAbove j l = true := by
  rw [hoAbove_iff] at hl ⊢
  exact fun t ht => ⟨le_trans h (hl t ht).1, (hl t ht).2⟩

theorem hoForest_append (a b : List NTree) :
    hoForest (a ++ b) = (hoForest a && hoForest b) := by
  induction a with
  | nil => simp [hoForest]
  | cons t ts ih => simp [hoForest, ih, Bool.and_assoc]

theorem degLenF_append (a b : List NTree) :
    degLenF (a ++ b) = (degLenF a && degLenF b) := by
  induction a with
  | nil => simp [degLenF]
  | cons t ts ih => simp [degLenF, ih, Bool.and_assoc]

/-- In a heap ordered tree the root key is a lower bound of all keys. -/
theorem ho_key_le :
    (∀ t : NTree, hoTree t = true → ∀ q ∈ treeKeys t, t.key ≤ q) ∧
    (∀ l : List NTree, ∀ k : Key, hoAbove k l = true → ∀ q ∈ forestKeys l, k ≤ q) := by
  have := ntree_mutual_ind
    (fun t => hoTree t = true → ∀ q ∈ treeKeys t, t.key ≤ q)
    (fun l => ∀ k : Key, hoAbove k l = true → ∀ q ∈ forestKeys l, k ≤ q)
    ?_ ?_ ?_
  · exact ⟨this.1, this.2⟩
  · intro tg k v m d p cs ih hho q hq
    rw [hoTree_node] at hho
    simp [treeKeys, NTree.key] at hq ⊢
    rcases hq with rfl | hq
    · exact le_refl _
    · exact ih k hho q hq
  · intro k _ q hq
    simp [forestKeys] at hq
  · intro t ts iht ihts k hho q hq
    simp [hoAbove] at hho
    obtain ⟨⟨hkt, hht⟩, hts⟩ := hho
    simp [forestKeys] at hq
    rcases hq with hq | hq
    · exact le_trans hkt (iht hht q hq)
    · exact ihts k hts q hq

theorem find_eq_some_mem :
    (∀ t : NTree, ∀ tg r, treeFind t tg = some r → (tg, r.1, r.2) ∈ treeNodes t) ∧
    (∀ l : List NTree, ∀ tg r, forestFind l tg = some r → (tg, r.1, r.2) ∈ forestNodes l) := by
  refine ntree_mutual_ind _ _ ?_ ?_ ?_
  · intro t k v m d p cs ih tg r hf
    unfold treeFind at hf
    by_cases ht : t = tg
    · rw [if_pos ht] at hf
      cases hf
      simp [treeNodes, ht]
    · rw [if_neg ht] at hf
      simp [treeNodes]
      exact Or.inr (ih tg r hf)
  · intro tg r hf
    simp [forestFind] at hf
  · intro t ts iht ihts tg r hf
    unfold forestFind at hf
    simp [forestNodes]
    match hm : treeFind t tg with
    | some q => rw [hm] at hf; cases hf; exact Or.inl (iht tg _ hm)
    | none => rw [hm] at hf; exact Or.inr (ihts tg r hf)

theorem find_eq_none_iff :
    (∀ t : NTree, ∀ tg, treeFind t tg = none ↔ tg ∉ treeTags t) ∧
    (∀ l : List NTree, ∀ tg, forestFind l tg = none ↔ tg ∉ forestTags l) := by
  refine ntree_mutual_ind _ _ ?_ ?_ ?_
  · intro t k v m d p cs ih tg
    unfold treeFind
    by_cases ht : t = tg
    · simp [ht, treeTags]
    · simp [ht, treeTags, ih tg, Ne.symm ht]
  · intro tg; simp [forestFind, forestTags]
  · intro t ts iht ihts tg
    unfold forestFind
    simp [forestTags]
    match hm : treeFind t tg with
    | some q =>
      simp
      intro hc
      rw [(iht tg).2 hc] at hm
      cases hm
    | none => simp [ihts tg, (iht tg).1 hm]

theorem mem_find_eq_some :
    (∀ t : NTree, ∀ tg k v, (treeTags t).Nodup → (tg, k, v) ∈ treeNodes t →
      treeFind t tg = some (k, v)) ∧
    (∀ l : List NTree, ∀ tg k v, (forestTags l).Nodup → (tg, k, v) ∈ forestNodes l →
      forestFind l tg = some (k, v)) := by
  refine ntree_mutual_ind _ _ ?_ ?_ ?_
  · intro t k v m d p cs ih tg k2 v2 hnd hm
    simp [treeTags] at hnd
    simp [treeNodes] at hm
    unfold treeFind
    rcases hm with ⟨rfl, rfl, rfl⟩ | hm
    · simp
    · have htg : t ≠ tg := by
        intro heq
        refine hnd.1 ?_
        rw [(tags_eq_map_nodes).2 cs, heq]
        have hx := List.mem_map_of_mem (fun x => x.1) hm
        simpa using hx
      rw [if_neg htg]
      exact ih tg k2 v2 hnd.2 hm
  · intro tg k v _ hm; simp [forestNodes] at hm
  · intro t ts iht ihts tg k v hnd hm
    rw [forestTags] at hnd
    have hnd1 := hnd.of_append_left
    have hnd2 := hnd.of_append_right
    simp [forestNodes] at hm
    unfold forestFind
    rcases hm with hm | hm
    · rw [iht tg k v hnd1 hm]
    · match hf : treeFind t tg with
      | some q =>
        exfalso
        have hin1 := (find_eq_some_mem).1 t tg q hf
        have : tg ∈ treeTags t := by
          rw [(tags_eq_map_nodes).1 t]
          exact List.mem_map_of_mem _ hin1
        have : tg ∈ forestTags ts := by
          rw [(tags_eq_map_nodes).2 ts]
          exact List.mem_map_of_mem _ hm
        exact (List.disjoint_of_nodup_append hnd) ‹tg ∈ treeTags t› this
      | none => exact ihts tg k v hnd2 hm

theorem tdGet_nil (d : Nat) : tdGet [] d = none := rfl

theorem tdGet_erase_self (m : TD) (d : Nat) : tdGet (tdErase m d) d = none := by
  induction m with
  | nil => simp [tdErase, tdGet]
  | cons p ps ih =>
    unfold tdErase
    by_cases hp : p.1 = d
    · simpa [hp] using ih
    · simpa [tdGet, hp] using ih

theorem tdGet_erase_ne (m : TD) (d e : Nat) (h : e ≠ d) :
    tdGet (tdErase m d) e = tdGet m e := by
  induction m with
  | nil => simp [tdErase]
  | cons p ps ih =>
    unfold tdErase
    by_cases hp : p.1 = d
    · have hpe : p.1 ≠ e := by rw [hp]; exact fun he => h he.symm
      rw [if_pos hp]
      rw [ih]
      simp [tdGet, hpe]
    · rw [if_neg hp]
      by_cases hpe : p.1 = e
      · simp [tdGet, hpe]
      · simp only [tdGet, if_neg hpe]
        exact ih

theorem tdGet_put_self (m : TD) (d : Nat) (tg : Tag) : tdGet (tdPut m d tg) d = some tg := by
  simp [tdGet, tdPut]

theorem tdGet_put_ne (m : TD) (d e : Nat) (tg : Tag) (h : e ≠ d) :
    tdGet (tdPut m d tg) e = tdGet m e := by
  simp only [tdPut, tdGet, if_neg (fun he => h he.symm : ¬d = e)]
  exact tdGet_erase_ne m d e h

theorem tdGet_mem {m : TD} {d : Nat} {tg : Tag} (h : tdGet m d = some tg) : (d, tg) ∈ m := by
  induction m with
  | nil => simp [tdGet] at h
  | cons p ps ih =>
    unfold tdGet at h
    by_cases hp : p.1 = d
    · rw [if_pos hp] at h
      cases h
      cases p with
      | mk a b =>
        simp only at hp
        rw [← hp]
        exact List.mem_cons_self _ _
    · rw [if_neg hp] at h
      exact List.mem_cons_of_mem _ (ih h)

theorem tdErase_subset {m : TD} {d : Nat} {p : Nat × Tag} (h : p ∈ tdErase m d) : p ∈ m := by
  induction m with
  | nil => simp [tdErase] at h
  | cons q qs ih =>
    unfold tdErase at h
    by_cases hq : q.1 = d
    · rw [if_pos hq] at h
      exact List.mem_cons_of_mem _ (ih h)
    · rw [if_neg hq] at h
      rcases List.mem_cons.1 h with rfl | h
      · simp
      · exact List.mem_cons_of_mem _ (ih h)

theorem tdErase_mem_ne {m : TD} {d : Nat} {p : Nat × Tag} (h : p ∈ tdErase m d) :
    p.1 ≠ d := by
  induction m with
  | nil => simp [tdErase] at h
  | cons q qs ih =>
    unfold tdErase at h
    by_cases hq : q.1 = d
    · rw [if_pos hq] at h; exact ih h
    · rw [if_neg hq] at h
      rcases List.mem_cons.1 h with rfl | h
      · exact hq
      · exact ih h

theorem tdPut_mem_cases {m : TD} {d : Nat} {tg : Tag} {p : Nat × Tag}
    (h : p ∈ tdPut m d tg) : p = (d, tg) ∨ p ∈ m := by
  rcases List.mem_cons.1 h with rfl | h
  · exact Or.inl rfl
  · exact Or.inr (tdErase_subset h)

/-- The resetMin scan returns the tag of a root whose key is minimal (the first
root attaining the minimum). -/
theorem resetMinLoop_spec (best : NTree) (l : List NTree) :
    ∃ e, e ∈ best :: l ∧ resetMinLoop best l = e.tag ∧ e.key ≤ best.key ∧
      ∀ z ∈ l, e.key ≤ z.key := by
  induction l generalizing best with
  | nil => exact ⟨best, by simp [resetMinLoop]⟩
  | cons t ts ih =>
    unfold resetMinLoop
    by_cases hlt : t.key < best.key
    · obtain ⟨e, he, h1, h2, h3⟩ := ih t
      rw [if_pos hlt]
      refine ⟨e, ?_, h1, le_of_lt (lt_of_le_of_lt h2 hlt), ?_⟩
      · rcases List.mem_cons.1 he with rfl | he
        · simp
        · simp [List.mem_cons_of_mem, he]
      · intro z hz
        rcases List.mem_cons.1 hz with rfl | hz
        · exact h2
        · exact h3 z hz
    · obtain ⟨e, he, h1, h2, h3⟩ := ih best
      rw [if_neg hlt]
      push_neg at hlt
      refine ⟨e, ?_, h1, h2, ?_⟩
      · rcases List.mem_cons.1 he with rfl | he
        · simp
        · simp [List.mem_cons_of_mem, he]
      · intro z hz
        rcases List.mem_cons.1 hz with rfl | hz
        · exact le_trans h2 hlt
        · exact h3 z hz

/-- After the clearing loop the scratch map has no live entry, provided every
entry points at the stored position of some current root (the treeDegrees
invariant of reachable heaps). -/
theorem clearLoop_get_none (roots : List NTree) (td : TD)
    (h : ∀ p ∈ td, ∃ r ∈ roots, r.position = p.1) (d : Nat) :
    tdGet (clearLoop td roots) d = none := by
  induction roots generalizing td with
  | nil =>
    match td, h with
    | [], _ => simp [clearLoop, tdGet]
    | p :: ps, h => exact absurd (h p (by simp)) (by simp)
  | cons r rs ih =>
    unfold clearLoop
    refine ih (tdErase td r.position) ?_
    intro p hp
    obtain ⟨q, hq, hqp⟩ := h p (tdErase_subset hp)
    rcases List.mem_cons.1 hq with rfl | hq
    · exact absurd hqp.symm (tdErase_mem_ne hp)
    · exact ⟨q, hq, hqp⟩

theorem treeNodes_unmark (t : NTree) : treeNodes t.unmark = treeNodes t := by
  cases t; simp [NTree.unmark, treeNodes]

theorem treeNodes_setPos (t : NTree) (p : Nat) : treeNodes (t.setPos p) = treeNodes t := by
  cases t; simp [NTree.setPos, treeNodes]

theorem treeNodes_linkT (t x : NTree) :
    treeNodes (linkT t x) = treeNodes t ++ treeNodes x := by
  cases t
  simp [linkT, treeNodes, forestNodes_append, forestNodes, treeNodes_unmark]

theorem tag_unmark (t : NTree) : t.unmark.tag = t.tag := by
  cases t; simp [NTree.unmark, NTree.tag]

theorem key_unmark (t : NTree) : t.unmark.key = t.key := by
  cases t; simp [NTree.unmark, NTree.key]

theorem tag_setPos (t : NTree) (p : Nat) : (t.setPos p).tag = t.tag := by
  cases t; simp [NTree.setPos, NTree.tag]

theorem key_setPos (t : NTree) (p : Nat) : (t.setPos p).key = t.key := by
  cases t; simp [NTree.setPos, NTree.key]

theorem degree_setPos (t : NTree) (p : Nat) : (t.setPos p).degree = t.degree := by
  cases t; simp [NTree.setPos, NTree.degree]

theorem position_setPos (t : NTree) (p : Nat) : (t.setPos p).position = p := by
  cases t; simp [NTree.setPos, NTree.position]

theorem tag_linkT (t x : NTree) : (linkT t x).tag = t.tag := by
  cases t; simp [linkT, NTree.tag]

theorem key_linkT (t x : NTree) : (linkT t x).key = t.key := by
  cases t; simp [linkT, NTree.key]

theorem degree_linkT (t x : NTree) : (linkT t x).degree = t.degree + 1 := by
  cases t; simp [linkT, NTree.degree]

theorem position_linkT (t x : NTree) : (linkT t x).position = t.position := by
  cases t; simp [linkT, NTree.position]

theorem hoTree_unmark (t : NTree) : hoTree t.unmark = hoTree t := by
  cases t; simp [NTree.unmark, hoTree]

theorem hoTree_setPos (t : NTree) (p : Nat) : hoTree (t.setPos p) = hoTree t := by
  cases t; simp [NTree.setPos, hoTree]

theorem hoTree_linkT {t x : NTree} (ht : hoTree t = true) (hx : hoTree x = true)
    (hk : t.key ≤ x.key) : hoTree (linkT t x) = true := by
  cases t with
  | node tg k v m d p cs =>
    simp only [linkT, hoTree] at ht ⊢
    rw [hoAbove_iff] at ht ⊢
    intro c hc
    rcases List.mem_append.1 hc with hc | hc
    · exact ht c hc
    · simp at hc
      subst hc
      rw [key_unmark, hoTree_unmark]
      exact ⟨hk, hx⟩

theorem degLenT_unmark (t : NTree) : degLenT t.unmark = degLenT t := by
  cases t; simp [NTree.unmark, degLenT]

theorem degLenT_setPos (t : NTree) (p : Nat) : degLenT (t.setPos p) = degLenT t := by
  cases t; simp [NTree.setPos, degLenT]

theorem degLenT_linkT {t x : NTree} (ht : degLenT t = true) (hx : degLenT x = true) :
    degLenT (linkT t x) = true := by
  cases t with
  | node tg k v m d p cs =>
    simp only [linkT, degLenT, Bool.and_eq_true, decide_eq_true_eq] at ht ⊢
    rw [degLenF_append]
    simp [ht.1, ht.2, degLenF, degLenT_unmark, hx]


theorem consLoop_step_none (td : TD) (p : List NTree) (t : NTree) (ts : List NTree)
    (h : tdGet td t.degree = none) :
    consLoop td p (t :: ts) = consLoop (tdPut td t.degree t.tag) (p ++ [t.setPos t.degree]) ts := by
  rw [consLoop]
  split
  · rfl
  · rename_i tg heq
    rw [h] at heq
    cases heq

theorem consLoop_step_self (td : TD) (p : List NTree) (t : NTree) (ts : List NTree)
    (h : tdGet td t.degree = some t.tag) :
    consLoop td p (t :: ts) = consLoop td (p ++ [t]) ts := by
  rw [consLoop]
  split
  · rename_i heq
    rw [h] at heq
    cases heq
  · rename_i tg heq
    rw [h] at heq
    cases heq
    rw [if_pos rfl]

theorem consLoop_step_b1p (td : TD) (p : List NTree) (t : NTree) (ts : List NTree)
    (tg : Tag) (b : List NTree) (x : NTree) (a : List NTree)
    (h1 : tdGet td t.degree = some tg) (hne : ¬t.tag = tg)
    (h2 : splitFirst p tg = some (b, x, a)) (hk : t.key ≤ x.key) :
    consLoop td p (t :: ts) = consLoop (tdErase td t.degree) (b ++ a) (linkT t x :: ts) := by
  rw [consLoop]
  split
  · rename_i heq
    rw [h1] at heq
    cases heq
  · rename_i tg2 heq
    rw [h1] at heq
    cases heq
    rw [if_neg hne]
    split
    · rename_i b2 x2 a2 heq2
      rw [h2] at heq2
      cases heq2
      rw [if_pos hk]
    · rename_i heq2
      rw [h2] at heq2
      cases heq2

theorem consLoop_step_b2p (td : TD) (p : List NTree) (t : NTree) (ts : List NTree)
    (tg : Tag) (b : List NTree) (x : NTree) (a : List NTree)
    (h1 : tdGet td t.degree = some tg) (hne : ¬t.tag = tg)
    (h2 : splitFirst p tg = some (b, x, a)) (hk : ¬t.key ≤ x.key) :
    consLoop td p (t :: ts) = consLoop (tdErase td t.degree) b (linkT x t :: (a ++ ts)) := by
  rw [consLoop]
  split
  · rename_i heq
    rw [h1] at heq
    cases heq
  · rename_i tg2 heq
    rw [h1] at heq
    cases heq
    rw [if_neg hne]
    split
    · rename_i b2 x2 a2 heq2
      rw [h2] at heq2
      cases heq2
      rw [if_neg hk]
    · rename_i heq2
      rw [h2] at heq2
      cases heq2

theorem consLoop_step_b1r (td : TD) (p : List NTree) (t : NTree) (ts : List NTree)
    (tg : Tag) (r1 : List NTree) (x : NTree) (r2 : List NTree)
    (h1 : tdGet td t.degree = some tg) (hne : ¬t.tag = tg)
    (h2 : splitFirst p tg = none)
    (h3 : splitFirst ts tg = some (r1, x, r2)) (hk : t.key ≤ x.key) :
    consLoop td p (t :: ts) = consLoop (tdErase td t.degree) p (linkT t x :: (r1 ++ r2)) := by
  rw [consLoop]
  split
  · rename_i heq
    rw [h1] at heq
    cases heq
  · rename_i tg2 heq
    rw [h1] at heq
    cases heq
    rw [if_neg hne]
    split
    · rename_i b2 x2 a2 heq2
      rw [h2] at heq2
      cases heq2
    · split
      · rename_i u1 u2 u3 heq3
        rw [h3] at heq3
        cases heq3
        rw [if_pos hk]
      · rename_i heq3
        rw [h3] at heq3
        cases heq3

theorem consLoop_step_b2r (td : TD) (p : List NTree) (t : NTree) (ts : List NTree)
    (tg : Tag) (r1 : List NTree) (x : NTree) (r2 : List NTree)
    (h1 : tdGet td t.degree = some tg) (hne : ¬t.tag = tg)
    (h2 : splitFirst p tg = none)
    (h3 : splitFirst ts tg = some (r1, x, r2)) (hk : ¬t.key ≤ x.key) :
    consLoop td p (t :: ts) = consLoop (tdErase td t.degree) (p ++ r1) (linkT x t :: r2) := by
  rw [consLoop]
  split
  · rename_i heq
    rw [h1] at heq
    cases heq
  · rename_i tg2 heq
    rw [h1] at heq
    cases heq
    rw [if_neg hne]
    split
    · rename_i b2 x2 a2 heq2
      rw [h2] at heq2
      cases heq2
    · split
      · rename_i u1 u2 u3 heq3
        rw [h3] at heq3
        cases heq3
        rw [if_neg hk]
      · rename_i heq3
        rw [h3] at heq3
        cases heq3

theorem consLoop_step_ghost (td : TD) (p : List NTree) (t : NTree) (ts : List NTree)
    (tg : Tag)
    (h1 : tdGet td t.degree = some tg) (hne : ¬t.tag = tg)
    (h2 : splitFirst p tg = none) (h3 : splitFirst ts tg = none) :
    consLoop td p (t :: ts) = consLoop (tdErase td t.degree) p (t :: ts) := by
  rw [consLoop]
  split
  · rename_i heq
    rw [h1] at heq
    cases heq
  · rename_i tg2 heq
    rw [h1] at heq
    cases heq
    rw [if_neg hne]
    split
    · rename_i b2 x2 a2 heq2
      rw [h2] at heq2
      cases heq2
    · split
      · rename_i u1 u2 u3 heq3
        rw [h3] at heq3
        cases heq3
      · rfl

theorem nodesM_nil : nodesM [] = 0 := rfl

theorem nodesM_cons (t : NTree) (ts : List NTree) :
    nodesM (t :: ts) = (treeNodes t : Multiset (Tag × Key × Option GoValue)) + nodesM ts := by
  simp [nodesM, forestNodes]

/-- The consolidate loop only relinks trees: the multiset of (tag, key, value)
triples of the whole forest is preserved. -/
theorem consLoop_content (td : TD) (p v : List NTree) :
    nodesM (consLoop td p v).2 = nodesM p + nodesM v := by
  induction td, p, v using consLoop.induct with
  | case1 td p => simp [consLoop, nodesM_nil]
  | case2 td p t ts h1 ih =>
    rw [consLoop_step_none td p t ts h1]
    rw [ih]
    simp [nodesM_append, nodesM_cons, nodesM_nil, treeNodes_setPos]
    abel
  | case3 td p t ts h1 ih =>
    rw [consLoop_step_self td p t ts h1]
    rw [ih]
    simp [nodesM_append, nodesM_cons, nodesM_nil]
    abel
  | case4 td p t ts tg h1 hne b x a h2 hk ih =>
    rw [consLoop_step_b1p td p t ts tg b x a h1 hne h2 hk]
    rw [ih, splitFirst_parts h2]
    simp [nodesM_append, nodesM_cons, nodesM_nil, treeNodes_linkT, ← Multiset.coe_add]
    abel
  | case5 td p t ts tg h1 hne b x a h2 hk ih =>
    rw [consLoop_step_b2p td p t ts tg b x a h1 hne h2 hk]
    rw [ih, splitFirst_parts h2]
    simp [nodesM_append, nodesM_cons, nodesM_nil, treeNodes_linkT, ← Multiset.coe_add]
    abel
  | case6 td p t ts tg h1 hne h2 r1 x r2 h3 hk ih =>
    rw [consLoop_step_b1r td p t ts tg r1 x r2 h1 hne h2 h3 hk]
    rw [ih, splitFirst_parts h3]
    simp [nodesM_append, nodesM_cons, nodesM_nil, treeNodes_linkT, ← Multiset.coe_add]
    abel
  | case7 td p t ts tg h1 hne h2 r1 x r2 h3 hk ih =>
    rw [consLoop_step_b2r td p t ts tg r1 x r2 h1 hne h2 h3 hk]
    rw [ih, splitFirst_parts h3]
    simp [nodesM_append, nodesM_cons, nodesM_nil, treeNodes_linkT, ← Multiset.coe_add]
    abel
  | case8 td p t ts tg h1 hne h2 h3 ih =>
    rw [consLoop_step_ghost td p t ts tg h1 hne h2 h3]
    exact ih

/-- Every tree of the consolidate loop result is heap ordered with correct stored
degrees, provided the input trees are: linking always makes the root with the
smaller key (ties: the cursor tree) the parent. -/
theorem consLoop_trees (td : TD) (p v : List NTree)
    (h : ∀ t ∈ p ++ v, hoTree t = true ∧ degLenT t = true) :
    ∀ t ∈ (consLoop td p v).2, hoTree t = true ∧ degLenT t = true := by
  induction td, p, v using consLoop.induct with
  | case1 td p =>
    intro t ht
    exact h t (by simpa [consLoop] using ht)
  | case2 td p t ts h1 ih =>
    rw [consLoop_step_none td p t ts h1]
    refine ih ?_
    intro z hz
    simp only [List.mem_append, List.mem_cons, List.not_mem_nil, or_false] at hz h
    rcases hz with (hz | rfl) | hz
    · exact h z (by tauto)
    · rw [hoTree_setPos, degLenT_setPos]
      exact h t (by tauto)
    · exact h z (by tauto)
  | case3 td p t ts h1 ih =>
    rw [consLoop_step_self td p t ts h1]
    refine ih ?_
    intro z hz
    simp only [List.mem_append, List.mem_cons, List.not_mem_nil, or_false] at hz h
    rcases hz with (hz | rfl) | hz
    · exact h z (by tauto)
    · exact h z (by tauto)
    · exact h z (by tauto)
  | case4 td p t ts tg h1 hne b x a h2 hk ih =>
    rw [consLoop_step_b1p td p t ts tg b x a h1 hne h2 hk]
    rw [splitFirst_parts h2] at h
    refine ih ?_
    intro z hz
    simp only [List.mem_append, List.mem_cons, List.not_mem_nil, or_false] at hz h
    have hx := h x (by tauto)
    have ht := h t (by tauto)
    rcases hz with (hz | hz) | rfl | hz
    · exact h z (by tauto)
    · exact h z (by tauto)
    · exact ⟨hoTree_linkT ht.1 hx.1 hk, degLenT_linkT ht.2 hx.2⟩
    · exact h z (by tauto)
  | case5 td p t ts tg h1 hne b x a h2 hk ih =>
    rw [consLoop_step_b2p td p t ts tg b x a h1 hne h2 hk]
    rw [splitFirst_parts h2] at h
    refine ih ?_
    intro z hz
    simp only [List.mem_append, List.mem_cons, List.not_mem_nil, or_false] at hz h
    have hx := h x (by tauto)
    have ht := h t (by tauto)
    rcases hz with hz | rfl | hz | hz
    · exact h z (by tauto)
    · exact ⟨hoTree_linkT hx.1 ht.1 (le_of_not_le hk), degLenT_linkT hx.2 ht.2⟩
    · exact h z (by tauto)
    · exact h z (by tauto)
  | case6 td p t ts tg h1 hne h2 r1 x r2 h3 hk ih =>
    rw [consLoop_step_b1r td p t ts tg r1 x r2 h1 hne h2 h3 hk]
    rw [splitFirst_parts h3] at h
    refine ih ?_
    intro z hz
    simp only [List.mem_append, List.mem_cons, List.not_mem_nil, or_false] at hz h
    have hx := h x (by tauto)
    have ht := h t (by tauto)
    rcases hz with hz | rfl | hz | hz
    · exact h z (by tauto)
    · exact ⟨hoTree_linkT ht.1 hx.1 hk, degLenT_linkT ht.2 hx.2⟩
    · exact h z (by tauto)
    · exact h z (by tauto)
  | case7 td p t ts tg h1 hne h2 r1 x r2 h3 hk ih =>
    rw [consLoop_step_b2r td p t ts tg r1 x r2 h1 hne h2 h3 hk]
    rw [splitFirst_parts h3] at h
    refine ih ?_
    intro z hz
    simp only [List.mem_append, List.mem_cons, List.not_mem_nil, or_false] at hz h
    have hx := h x (by tauto)
    have ht := h t (by tauto)
    rcases hz with (hz | hz) | rfl | hz
    · exact h z (by tauto)
    · exact h z (by tauto)
    · exact ⟨hoTree_linkT hx.1 ht.1 (le_of_not_le hk), degLenT_linkT hx.2 ht.2⟩
    · exact h z (by tauto)
  | case8 td p t ts tg h1 hne h2 h3 ih =>
    rw [consLoop_step_ghost td p t ts tg h1 hne h2 h3]
    exact ih h

theorem splitFirst_tag {l : List NTree} {tg : Tag} {b : List NTree} {x : NTree}
    {a : List NTree} (h : splitFirst l tg = some (b, x, a)) : x.tag = tg := by
  induction l generalizing b x a with
  | nil => simp [splitFirst] at h
  | cons t ts ih =>
    unfold splitFirst at h
    by_cases ht : t.tag = tg
    · rw [if_pos ht] at h
      cases h
      exact ht
    · rw [if_neg ht] at h
      match hs : splitFirst ts tg with
      | none => rw [hs] at h; cases h
      | some (b2, x2, a2) =>
        rw [hs] at h
        simp only [Option.map_some'] at h
        cases h
        exact ih hs

theorem splitFirst_none_iff {l : List NTree} {tg : Tag} :
    splitFirst l tg = none ↔ tg ∉ l.map NTree.tag := by
  induction l with
  | nil => simp [splitFirst]
  | cons t ts ih =>
    unfold splitFirst
    by_cases ht : t.tag = tg
    · simp [ht]
    · simp [ht, ih, Ne.symm ht]

/-- Tags determine elements in a list with no duplicate root tags. -/
theorem ndInj {l : List NTree} (hnd : (l.map NTree.tag).Nodup) {y z : NTree}
    (hy : y ∈ l) (hz : z ∈ l) (h : y.tag = z.tag) : y = z :=
  List.inj_on_of_nodup_map hnd hy hz h

/-- With pairwise distinct root tags, a decomposition around an element with a
given tag is unique. -/
theorem unique_decomp {a c : List NTree} {x y : NTree} {b d : List NTree}
    (hnd : (((a ++ x :: b)).map NTree.tag).Nodup)
    (heq : a ++ x :: b = c ++ y :: d) (htag : x.tag = y.tag) :
    a = c ∧ x = y ∧ b = d := by
  induction a generalizing c with
  | nil =>
    cases c with
    | nil =>
      simp only [List.nil_append] at heq
      cases heq
      exact ⟨rfl, rfl, rfl⟩
    | cons c0 cs =>
      simp only [List.nil_append, List.cons_append, List.cons.injEq] at heq
      obtain ⟨rfl, hb⟩ := heq
      exfalso
      have hxb : x.tag ∉ b.map NTree.tag := by
        have := hnd
        simp only [List.nil_append, List.map_cons, List.nodup_cons] at this
        exact this.1
      refine hxb ?_
      have hyb : y ∈ b := by rw [hb]; simp
      rw [htag]
      exact List.mem_map_of_mem _ hyb
  | cons a0 as ih =>
    cases c with
    | nil =>
      simp only [List.nil_append, List.cons_append, List.cons.injEq] at heq
      obtain ⟨rfl, hd⟩ := heq
      exfalso
      have hxd : a0.tag ∉ (as ++ x :: b).map NTree.tag := by
        have := hnd
        simp only [List.cons_append, List.map_cons, List.nodup_cons] at this
        exact this.1
      refine hxd ?_
      rw [← htag]
      exact List.mem_map_of_mem _ (by simp)
    | cons c0 cs =>
      simp only [List.cons_append, List.cons.injEq] at heq
      obtain ⟨rfl, heq⟩ := heq
      have hnd2 : ((as ++ x :: b).map NTree.tag).Nodup := by
        have := hnd
        simp only [List.cons_append, List.map_cons, List.nodup_cons] at this
        exact this.2
      obtain ⟨ha, hx, hb⟩ := ih hnd2 heq
      exact ⟨by rw [ha], hx, hb⟩

theorem bucketedP_ne_of_none {td : TD} {z : NTree} {d : Nat}
    (hz : bucketedP td z) (hd : tdGet td d = none) : z.degree ≠ d := by
  intro h
  obtain ⟨h1, _⟩ := hz
  rw [h, hd] at h1
  cases h1

theorem bucketedP_put {td : TD} {z : NTree} {d : Nat} {tg : Tag}
    (hz : bucketedP td z) (hd : z.degree ≠ d) : bucketedP (tdPut td d tg) z :=
  ⟨by rw [tdGet_put_ne td d z.degree tg hd]; exact hz.1, hz.2⟩

theorem bucketedP_erase {td : TD} {z : NTree} {d : Nat}
    (hz : bucketedP td z) (hd : z.degree ≠ d) : bucketedP (tdErase td d) z :=
  ⟨by rw [tdGet_erase_ne td d z.degree hd]; exact hz.1, hz.2⟩

theorem unref_put {td : TD} {z : NTree} {d : Nat} {tg : Tag}
    (hz : unref td z) (ht : tg ≠ z.tag) : unref (tdPut td d tg) z := by
  intro e tg2 he
  by_cases hed : e = d
  · rw [hed, tdGet_put_self] at he
    cases he
    exact ht
  · rw [tdGet_put_ne td d e tg hed] at he
    exact hz e tg2 he

theorem unref_erase {td : TD} {z : NTree} {d : Nat}
    (hz : unref td z) : unref (tdErase td d) z := by
  intro e tg2 he
  by_cases hed : e = d
  · rw [hed, tdGet_erase_self] at he
    cases he
  · rw [tdGet_erase_ne td d e hed] at he
    exact hz e tg2 he

theorem treeTags_unmark (t : NTree) : treeTags t.unmark = treeTags t := by
  cases t; simp [NTree.unmark, treeTags]

theorem treeTags_setPos (t : NTree) (p : Nat) : treeTags (t.setPos p) = treeTags t := by
  cases t; simp [NTree.setPos, treeTags]

theorem treeTags_linkT (t x : NTree) :
    treeTags (linkT t x) = treeTags t ++ treeTags x := by
  cases t
  simp [linkT, treeTags, forestTags_append, forestTags, treeTags_unmark]

/-- The list of root tags is a sub-multiset of all forest tags. -/
theorem rootTags_le_forestTags (l : List NTree) :
    (l.map NTree.tag : Multiset Tag) ≤ (forestTags l : Multiset Tag) := by
  induction l with
  | nil => simp [forestTags]
  | cons t ts ih =>
    simp only [List.map_cons, forestTags]
    cases t with
    | node tg k v m d p cs =>
      simp only [treeTags, NTree.tag]
      calc ((tg :: ts.map NTree.tag : List Tag) : Multiset Tag)
          = (tg ::ₘ (ts.map NTree.tag : Multiset Tag)) := by simp
        _ ≤ (tg ::ₘ ((forestTags cs : Multiset Tag) + (forestTags ts : Multiset Tag))) := by
            refine Multiset.cons_le_cons _ ?_
            exact le_trans ih (Multiset.le_add_left _ _)
        _ = ((tg :: (forestTags cs ++ forestTags ts) : List Tag) : Multiset Tag) := by
            rw [Multiset.coe_add, Multiset.cons_coe]
        _ ≤ _ := le_of_eq (by rw [List.cons_append])

theorem unref_tag_eq {td : TD} {z w : NTree} (h : w.tag = z.tag) (hz : unref td z) :
    unref td w := by
  intro d tg hd
  rw [h]
  exact hz d tg hd

theorem ndTop_of_forest {l : List NTree} (h : ((forestTags l : Multiset Tag)).Nodup) :
    (l.map NTree.tag).Nodup := by
  have := Multiset.nodup_of_le (rootTags_le_forestTags l) h
  exact Multiset.coe_nodup.1 this

theorem nodup_append_ne {u w : List NTree} (h : ((u ++ w).map NTree.tag).Nodup)
    {y z : NTree} (hy : y ∈ u) (hz : z ∈ w) : z.tag ≠ y.tag := by
  rw [List.map_append] at h
  have hd := List.disjoint_of_nodup_append h
  intro he
  exact hd (List.mem_map_of_mem _ hy) (he ▸ List.mem_map_of_mem _ hz)

theorem nodup_split_ne {u w : List NTree} {x : NTree}
    (h : ((u ++ x :: w).map NTree.tag).Nodup) :
    ∀ z, z ∈ u ∨ z ∈ w → z.tag ≠ x.tag := by
  intro z hz he
  rw [List.map_append, List.map_cons] at h
  have hd := List.disjoint_of_nodup_append h
  have h2 := List.Nodup.of_append_right h
  rcases hz with hz | hz
  · refine hd (List.mem_map_of_mem _ hz) ?_
    rw [he]
    simp
  · rw [List.nodup_cons] at h2
    exact h2.1 (he ▸ List.mem_map_of_mem _ hz)

theorem seg_nil (td : TD) : seg td [] := ⟨[], [], rfl, by simp, by simp⟩

theorem invC_of_seg {td : TD} {l : List NTree} (h : seg td l) : invC td l := by
  obtain ⟨s, f, rfl, hs, hf⟩ := h
  cases s with
  | nil =>
    cases f with
    | nil => trivial
    | cons f0 fs =>
      exact ⟨Or.inr (hf f0 (by simp)), [], fs, rfl, by simp, fun z hz => hf z (by simp [hz])⟩
  | cons s0 ss =>
    exact ⟨Or.inl (hs s0 (by simp)), ss, f, rfl, fun z hz => hs z (by simp [hz]), hf⟩

theorem seg_put_of_none {td : TD} {l : List NTree} {d : Nat} {tg : Tag}
    (h : seg td l) (hd : tdGet td d = none) (ht : ∀ z ∈ l, tg ≠ z.tag) :
    seg (tdPut td d tg) l := by
  obtain ⟨s, f, rfl, hs, hf⟩ := h
  refine ⟨s, f, rfl, ?_, ?_⟩
  · intro z hz
    exact bucketedP_put (hs z hz) (bucketedP_ne_of_none (hs z hz) hd)
  · intro z hz
    exact unref_put (hf z hz) (ht z (by simp [hz]))

theorem seg_erase {td : TD} {l : List NTree} {d : Nat} {xtag : Tag}
    (h : seg td l) (hd : tdGet td d = some xtag) (ht : ∀ z ∈ l, z.tag ≠ xtag) :
    seg (tdErase td d) l := by
  obtain ⟨s, f, rfl, hs, hf⟩ := h
  refine ⟨s, f, rfl, ?_, ?_⟩
  · intro z hz
    refine bucketedP_erase (hs z hz) ?_
    intro he
    have := (hs z hz).1
    rw [he, hd] at this
    cases this
    exact ht z (by simp [hz]) rfl
  · intro z hz
    exact unref_erase (hf z hz)

theorem seg_append_left {td : TD} {u l : List NTree}
    (hu : ∀ z ∈ u, bucketedP td z) (h : seg td l) : seg td (u ++ l) := by
  obtain ⟨s, f, rfl, hs, hf⟩ := h
  refine ⟨u ++ s, f, by rw [List.append_assoc], ?_, hf⟩
  intro z hz
  rcases List.mem_append.1 hz with hz | hz
  · exact hu z hz
  · exact hs z hz

set_option maxHeartbeats 1000000

/-- Main invariant of the consolidate walk, starting from a cleared scratch map:
at the end every root is bucketed at its degree (so root degrees are pairwise
distinct) and every entry of the scratch map points at a root of that degree. -/
theorem consLoop_inv (td : TD) (p v : List NTree)
    (hA : ∀ r ∈ p, bucketedP td r)
    (hB : ∀ d tg, tdGet td d = some tg → ∃ x, x ∈ p ++ v ∧ x.tag = tg ∧ x.degree = d)
    (hC : invC td v)
    (hND : ((forestTags (p ++ v) : Multiset Tag)).Nodup) :
    (∀ r ∈ (consLoop td p v).2, bucketedP (consLoop td p v).1 r) ∧
    (∀ d tg, tdGet (consLoop td p v).1 d = some tg →
      ∃ x, x ∈ (consLoop td p v).2 ∧ x.tag = tg ∧ x.degree = d) := by
  induction td, p, v using consLoop.induct with
  | case1 td p =>
    have hstep : consLoop td p [] = (td, p) := by rw [consLoop]
    rw [hstep]
    refine ⟨hA, ?_⟩
    · intro d tg h
      obtain ⟨x, hx, h1, h2⟩ := hB d tg h
      exact ⟨x, by simpa using hx, h1, h2⟩
  | case2 td p t ts h1 ih =>
    rw [consLoop_step_none td p t ts h1]
    have hndTop := ndTop_of_forest hND
    have hC2 : (bucketedP td t ∨ unref td t) ∧ seg td ts := hC
    refine ih ?_ ?_ ?_ ?_
    · intro r hr
      rcases List.mem_append.1 hr with hr | hr
      · exact bucketedP_put (hA r hr) (bucketedP_ne_of_none (hA r hr) h1)
      · simp only [List.mem_singleton] at hr
        subst hr
        refine ⟨?_, ?_⟩
        · rw [degree_setPos, tag_setPos]
          exact tdGet_put_self td t.degree t.tag
        · rw [position_setPos, degree_setPos]
    · intro d tg2 hd
      by_cases hdeg : d = t.degree
      · subst hdeg
        rw [tdGet_put_self] at hd
        cases hd
        refine ⟨t.setPos t.degree, ?_, by rw [tag_setPos], by rw [degree_setPos]⟩
        simp
      · rw [tdGet_put_ne td t.degree d t.tag hdeg] at hd
        obtain ⟨y, hy, hytag, hydeg⟩ := hB d tg2 hd
        have hyne : y ≠ t := by
          intro h
          rw [h] at hydeg
          exact hdeg hydeg.symm
        refine ⟨y, ?_, hytag, hydeg⟩
        simp only [List.mem_append, List.mem_cons] at hy ⊢
        rcases hy with hy | hy | hy
        · tauto
        · exact absurd hy hyne
        · tauto
    · refine invC_of_seg (seg_put_of_none hC2.2 h1 ?_)
      intro z hz he
      have hsub : ((t :: ts).map NTree.tag).Nodup := by
        rw [List.map_append] at hndTop
        exact List.Nodup.of_append_right hndTop
      rw [List.map_cons, List.nodup_cons] at hsub
      exact hsub.1 (he ▸ List.mem_map_of_mem _ hz)
    · have heq : (forestTags ((p ++ [t.setPos t.degree]) ++ ts) : Multiset Tag)
          = (forestTags (p ++ t :: ts) : Multiset Tag) := by
        simp [forestTags_append, forestTags, treeTags_setPos, ← Multiset.coe_add]
        all_goals abel
      rw [heq]
      exact hND
  | case3 td p t ts h1 ih =>
    rw [consLoop_step_self td p t ts h1]
    have hC2 : (bucketedP td t ∨ unref td t) ∧ seg td ts := hC
    have htB : bucketedP td t := by
      rcases hC2.1 with h | h
      · exact h
      · exact absurd rfl (h t.degree t.tag h1)
    refine ih ?_ ?_ ?_ ?_
    · intro r hr
      rcases List.mem_append.1 hr with hr | hr
      · exact hA r hr
      · simp only [List.mem_singleton] at hr
        subst hr
        exact htB
    · intro d tg2 hd
      obtain ⟨y, hy, hytag, hydeg⟩ := hB d tg2 hd
      refine ⟨y, ?_, hytag, hydeg⟩
      simp only [List.mem_append, List.mem_cons] at hy ⊢
      tauto
    · exact invC_of_seg hC2.2
    · have heq : (forestTags ((p ++ [t]) ++ ts) : Multiset Tag)
          = (forestTags (p ++ t :: ts) : Multiset Tag) := by
        simp [forestTags_append, forestTags, ← Multiset.coe_add]
        all_goals abel
      rw [heq]
      exact hND
  | case4 td p t ts tg h1 hne b x a h2 hk ih =>
    rw [consLoop_step_b1p td p t ts tg b x a h1 hne h2 hk]
    have hndTop := ndTop_of_forest hND
    have hC2 : (bucketedP td t ∨ unref td t) ∧ seg td ts := hC
    have hpb := splitFirst_parts h2
    have hxg := splitFirst_tag h2
    have hxp : x ∈ p := by rw [hpb]; simp
    have hxpv : x ∈ p ++ t :: ts := List.mem_append.2 (Or.inl hxp)
    have htpv : t ∈ p ++ t :: ts := List.mem_append.2 (Or.inr (by simp))
    have hxdeg : x.degree = t.degree := by
      obtain ⟨y, hy, hytag, hydeg⟩ := hB t.degree tg h1
      have : y = x := ndInj hndTop hy hxpv (by rw [hytag, hxg])
      rw [← this]
      exact hydeg
    have htUn : unref td t := by
      rcases hC2.1 with h | h
      · rw [h.1] at h1
        cases h1
        exact absurd rfl hne
      · exact h
    have hxa_ne : ∀ z, z ∈ b ∨ z ∈ a → z.tag ≠ x.tag := by
      have : ((b ++ x :: (a ++ t :: ts)).map NTree.tag).Nodup := by
        rw [hpb] at hndTop
        simpa using hndTop
      intro z hz
      refine nodup_split_ne this z ?_
      rcases hz with hz | hz
      · exact Or.inl hz
      · exact Or.inr (by simp [hz])
    have hts_ne : ∀ z ∈ ts, z.tag ≠ x.tag := by
      intro z hz
      exact nodup_append_ne hndTop hxp (by simp [hz])
    refine ih ?_ ?_ ?_ ?_
    · intro r hr
      have hrp : r ∈ p := by
        rw [hpb]
        rcases List.mem_append.1 hr with hr | hr
        · simp [hr]
        · simp [hr]
      refine bucketedP_erase (hA r hrp) ?_
      intro he
      have hrB := (hA r hrp).1
      rw [he, h1] at hrB
      cases hrB
      refine hxa_ne r (List.mem_append.1 hr) ?_
      rw [hxg]
    · intro d tg2 hd
      by_cases hdeg : d = t.degree
      · rw [hdeg, tdGet_erase_self] at hd
        cases hd
      · rw [tdGet_erase_ne td t.degree d hdeg] at hd
        obtain ⟨y, hy, hytag, hydeg⟩ := hB d tg2 hd
        have hynx : y ≠ x := by
          intro h
          rw [h] at hydeg
          rw [hxdeg] at hydeg
          exact hdeg hydeg.symm
        have hynt : y ≠ t := by
          intro h
          refine htUn d tg2 hd ?_
          rw [← hytag, h]
        refine ⟨y, ?_, hytag, hydeg⟩
        rw [hpb] at hy
        simp only [List.mem_append, List.mem_cons] at hy ⊢
        rcases hy with (hy | rfl | hy) | hy | hy
        · tauto
        · exact absurd rfl hynx
        · tauto
        · exact absurd hy hynt
        · tauto
    · refine ⟨Or.inr (unref_erase (unref_tag_eq (tag_linkT t x) htUn)), ?_⟩
      refine seg_erase hC2.2 h1 ?_
      intro z hz he
      exact hts_ne z hz (by rw [he, ← hxg])
    · have heq : (forestTags (((b ++ a)) ++ (linkT t x :: ts)) : Multiset Tag)
          = (forestTags (p ++ t :: ts) : Multiset Tag) := by
        rw [hpb]
        simp [forestTags_append, forestTags, treeTags_linkT, ← Multiset.coe_add]
        all_goals abel
      rw [heq]
      exact hND
  | case5 td p t ts tg h1 hne b x a h2 hk ih =>
    rw [consLoop_step_b2p td p t ts tg b x a h1 hne h2 hk]
    have hndTop := ndTop_of_forest hND
    have hC2 : (bucketedP td t ∨ unref td t) ∧ seg td ts := hC
    have hpb := splitFirst_parts h2
    have hxg := splitFirst_tag h2
    have hxp : x ∈ p := by rw [hpb]; simp
    have hxpv : x ∈ p ++ t :: ts := List.mem_append.2 (Or.inl hxp)
    have hxdeg : x.degree = t.degree := by
      obtain ⟨y, hy, hytag, hydeg⟩ := hB t.degree tg h1
      have hyx : y = x := ndInj hndTop hy hxpv (by rw [hytag, hxg])
      rw [← hyx]
      exact hydeg
    have htUn : unref td t := by
      rcases hC2.1 with h | h
      · rw [h.1] at h1
        cases h1
        exact absurd rfl hne
      · exact h
    have hxa_ne : ∀ z, z ∈ b ∨ z ∈ a → z.tag ≠ x.tag := by
      have hnd2 : ((b ++ x :: (a ++ t :: ts)).map NTree.tag).Nodup := by
        rw [hpb] at hndTop
        simpa using hndTop
      intro z hz
      refine nodup_split_ne hnd2 z ?_
      rcases hz with hz | hz
      · exact Or.inl hz
      · exact Or.inr (by simp [hz])
    have hts_ne : ∀ z ∈ ts, z.tag ≠ x.tag := by
      intro z hz
      exact nodup_append_ne hndTop hxp (by simp [hz])
    have hErPres : ∀ r, r ∈ p → (r ∈ b ∨ r ∈ a) → bucketedP (tdErase td t.degree) r := by
      intro r hrp hrba
      refine bucketedP_erase (hA r hrp) ?_
      intro he
      have hrB := (hA r hrp).1
      rw [he, h1] at hrB
      cases hrB
      exact hxa_ne r hrba (by rw [hxg])
    refine ih ?_ ?_ ?_ ?_
    · intro r hr
      exact hErPres r (by rw [hpb]; simp [hr]) (Or.inl hr)
    · intro d tg2 hd
      by_cases hdeg : d = t.degree
      · rw [hdeg, tdGet_erase_self] at hd
        cases hd
      · rw [tdGet_erase_ne td t.degree d hdeg] at hd
        obtain ⟨y, hy, hytag, hydeg⟩ := hB d tg2 hd
        have hynx : y ≠ x := by
          intro h
          rw [h, hxdeg] at hydeg
          exact hdeg hydeg.symm
        have hynt : y ≠ t := by
          intro h
          refine htUn d tg2 hd ?_
          rw [← hytag, h]
        refine ⟨y, ?_, hytag, hydeg⟩
        rw [hpb] at hy
        simp only [List.mem_append, List.mem_cons] at hy ⊢
        rcases hy with (hy | rfl | hy) | hy | hy
        · tauto
        · exact absurd rfl hynx
        · tauto
        · exact absurd hy hynt
        · tauto
    · constructor
      · refine Or.inr ?_
        intro e tg2 he
        rw [tag_linkT]
        by_cases hed : e = t.degree
        · rw [hed, tdGet_erase_self] at he
          cases he
        · rw [tdGet_erase_ne td t.degree e hed] at he
          obtain ⟨y, hy, hytag, hydeg⟩ := hB e tg2 he
          intro hcontra
          have hyx : y = x := ndInj hndTop hy hxpv (by rw [hytag, hcontra])
          rw [hyx, hxdeg] at hydeg
          exact hed hydeg.symm
      · refine seg_append_left ?_ (seg_erase hC2.2 h1 ?_)
        · intro z hz
          exact hErPres z (by rw [hpb]; simp [hz]) (Or.inr hz)
        · intro z hz he
          exact hts_ne z hz (by rw [he, ← hxg])
    · have heq : (forestTags (b ++ (linkT x t :: (a ++ ts))) : Multiset Tag)
          = (forestTags (p ++ t :: ts) : Multiset Tag) := by
        rw [hpb]
        simp [forestTags_append, forestTags, treeTags_linkT, ← Multiset.coe_add]
        all_goals abel
      rw [heq]
      exact hND
  | case6 td p t ts tg h1 hne h2 r1 x r2 h3 hk ih =>
    rw [consLoop_step_b1r td p t ts tg r1 x r2 h1 hne h2 h3 hk]
    have hndTop := ndTop_of_forest hND
    have hC2 : (bucketedP td t ∨ unref td t) ∧ seg td ts := hC
    have hts := splitFirst_parts h3
    have hxg := splitFirst_tag h3
    have hxts : x ∈ ts := by rw [hts]; simp
    have hxpv : x ∈ p ++ t :: ts := List.mem_append.2 (Or.inr (by simp [hxts]))
    have hxdeg : x.degree = t.degree := by
      obtain ⟨y, hy, hytag, hydeg⟩ := hB t.degree tg h1
      have hyx : y = x := ndInj hndTop hy hxpv (by rw [hytag, hxg])
      rw [← hyx]
      exact hydeg
    have htUn : unref td t := by
      rcases hC2.1 with h | h
      · rw [h.1] at h1
        cases h1
        exact absurd rfl hne
      · exact h
    have hndTs : (ts.map NTree.tag).Nodup := by
      rw [List.map_append, List.map_cons] at hndTop
      have := List.Nodup.of_append_right hndTop
      rw [List.nodup_cons] at this
      exact this.2
    obtain ⟨s, f, hsf, hs, hf⟩ := hC2.2
    have hxs : x ∈ s := by
      have hx2 : x ∈ s ∨ x ∈ f := by
        rw [hsf] at hxts
        exact List.mem_append.1 hxts
      rcases hx2 with hx2 | hx2
      · exact hx2
      · exact absurd hxg.symm (hf x hx2 t.degree tg h1)
    obtain ⟨s1, s2, hs12⟩ := List.append_of_mem hxs
    have hdecomp : r1 ++ x :: r2 = s1 ++ x :: (s2 ++ f) := by
      rw [← hts, hsf, hs12, List.append_assoc, List.cons_append]
    have hndts2 : ((r1 ++ x :: r2).map NTree.tag).Nodup := by rw [hts] at hndTs; exact hndTs
    obtain ⟨hr1s1, _, hr2sf⟩ := unique_decomp hndts2 hdecomp rfl
    have hxne_rest : ∀ z, z ∈ r1 ∨ z ∈ r2 → z.tag ≠ x.tag := nodup_split_ne hndts2
    have hpPres : ∀ r ∈ p, bucketedP (tdErase td t.degree) r := by
      intro r hrp
      refine bucketedP_erase (hA r hrp) ?_
      intro he
      have hrB := (hA r hrp).1
      rw [he, h1] at hrB
      cases hrB
      exact nodup_append_ne hndTop hrp (by simp [hxts] : x ∈ t :: ts) (by rw [hxg]) |>.elim
    refine ih ?_ ?_ ?_ ?_
    · exact hpPres
    · intro d tg2 hd
      by_cases hdeg : d = t.degree
      · rw [hdeg, tdGet_erase_self] at hd
        cases hd
      · rw [tdGet_erase_ne td t.degree d hdeg] at hd
        obtain ⟨y, hy, hytag, hydeg⟩ := hB d tg2 hd
        have hynx : y ≠ x := by
          intro h
          rw [h, hxdeg] at hydeg
          exact hdeg hydeg.symm
        have hynt : y ≠ t := by
          intro h
          refine htUn d tg2 hd ?_
          rw [← hytag, h]
        refine ⟨y, ?_, hytag, hydeg⟩
        rw [hts] at hy
        simp only [List.mem_append, List.mem_cons] at hy ⊢
        rcases hy with hy | hy | hy | rfl | hy
        · tauto
        · exact absurd hy hynt
        · tauto
        · exact absurd rfl hynx
        · tauto
    · constructor
      · exact Or.inr (unref_erase (unref_tag_eq (tag_linkT t x) htUn))
      · refine ⟨s1 ++ s2, f, ?_, ?_, ?_⟩
        · rw [hr1s1, hr2sf, List.append_assoc]
        · intro z hz
          have hzs : z ∈ s := by
            rw [hs12]
            rcases List.mem_append.1 hz with hz | hz
            · simp [hz]
            · simp [hz]
          refine bucketedP_erase (hs z hzs) ?_
          intro he
          have hzB := (hs z hzs).1
          rw [he, h1] at hzB
          cases hzB
          refine hxne_rest z ?_ (by rw [hxg])
          rw [hr1s1, hr2sf]
          rcases List.mem_append.1 hz with hz | hz
          · exact Or.inl hz
          · exact Or.inr (by simp [hz])
        · intro z hz
          exact unref_erase (hf z hz)
    · have heq : (forestTags (p ++ (linkT t x :: (r1 ++ r2))) : Multiset Tag)
          = (forestTags (p ++ t :: ts) : Multiset Tag) := by
        rw [hts]
        simp [forestTags_append, forestTags, treeTags_linkT, ← Multiset.coe_add]
        all_goals abel
      rw [heq]
      exact hND
  | case7 td p t ts tg h1 hne h2 r1 x r2 h3 hk ih =>
    rw [consLoop_step_b2r td p t ts tg r1 x r2 h1 hne h2 h3 hk]
    have hndTop := ndTop_of_forest hND
    have hC2 : (bucketedP td t ∨ unref td t) ∧ seg td ts := hC
    have hts := splitFirst_parts h3
    have hxg := splitFirst_tag h3
    have hxts : x ∈ ts := by rw [hts]; simp
    have hxpv : x ∈ p ++ t :: ts := List.mem_append.2 (Or.inr (by simp [hxts]))
    have hxdeg : x.degree = t.degree := by
      obtain ⟨y, hy, hytag, hydeg⟩ := hB t.degree tg h1
      have hyx : y = x := ndInj hndTop hy hxpv (by rw [hytag, hxg])
      rw [← hyx]
      exact hydeg
    have htUn : unref td t := by
      rcases hC2.1 with h | h
      · rw [h.1] at h1
        cases h1
        exact absurd rfl hne
      · exact h
    have hndTs : (ts.map NTree.tag).Nodup := by
      rw [List.map_append, List.map_cons] at hndTop
      have := List.Nodup.of_append_right hndTop
      rw [List.nodup_cons] at this
      exact this.2
    obtain ⟨s, f, hsf, hs, hf⟩ := hC2.2
    have hxs : x ∈ s := by
      have hx2 : x ∈ s ∨ x ∈ f := by
        rw [hsf] at hxts
        exact List.mem_append.1 hxts
      rcases hx2 with hx2 | hx2
      · exact hx2
      · exact absurd hxg.symm (hf x hx2 t.degree tg h1)
    obtain ⟨s1, s2, hs12⟩ := List.append_of_mem hxs
    have hdecomp : r1 ++ x :: r2 = s1 ++ x :: (s2 ++ f) := by
      rw [← hts, hsf, hs12, List.append_assoc, List.cons_append]
    have hndts2 : ((r1 ++ x :: r2).map NTree.tag).Nodup := by rw [hts] at hndTs; exact hndTs
    obtain ⟨hr1s1, _, hr2sf⟩ := unique_decomp hndts2 hdecomp rfl
    have hxne_rest : ∀ z, z ∈ r1 ∨ z ∈ r2 → z.tag ≠ x.tag := nodup_split_ne hndts2
    have hsPres : ∀ z, z ∈ s1 ∨ z ∈ s2 → bucketedP (tdErase td t.degree) z := by
      intro z hz12
      have hzs : z ∈ s := by
        rw [hs12]
        rcases hz12 with h | h
        · simp [h]
        · simp [h]
      refine bucketedP_erase (hs z hzs) ?_
      intro he
      have hzB := (hs z hzs).1
      rw [he, h1] at hzB
      have hzx : z.tag = tg := (Option.some.inj hzB).symm
      refine hxne_rest z ?_ (by rw [hzx]; exact hxg.symm)
      rcases hz12 with h | h
      · exact Or.inl (by rw [hr1s1]; exact h)
      · exact Or.inr (by rw [hr2sf]; simp [h])
    refine ih ?_ ?_ ?_ ?_
    · intro r hr
      rcases List.mem_append.1 hr with hr | hr
      · refine bucketedP_erase (hA r hr) ?_
        intro he
        have hrB := (hA r hr).1
        rw [he, h1] at hrB
        cases hrB
        exact nodup_append_ne hndTop hr (by simp [hxts] : x ∈ t :: ts) (by rw [hxg]) |>.elim
      · refine hsPres r ?_
        rw [hr1s1] at hr
        exact Or.inl hr
    · intro d tg2 hd
      by_cases hdeg : d = t.degree
      · rw [hdeg, tdGet_erase_self] at hd
        cases hd
      · rw [tdGet_erase_ne td t.degree d hdeg] at hd
        obtain ⟨y, hy, hytag, hydeg⟩ := hB d tg2 hd
        have hynx : y ≠ x := by
          intro h
          rw [h, hxdeg] at hydeg
          exact hdeg hydeg.symm
        have hynt : y ≠ t := by
          intro h
          refine htUn d tg2 hd ?_
          rw [← hytag, h]
        refine ⟨y, ?_, hytag, hydeg⟩
        rw [hts] at hy
        simp only [List.mem_append, List.mem_cons] at hy ⊢
        rcases hy with hy | hy | hy | rfl | hy
        · tauto
        · exact absurd hy hynt
        · tauto
        · exact absurd rfl hynx
        · tauto
    · constructor
      · refine Or.inr ?_
        intro e tg2 he
        rw [tag_linkT]
        by_cases hed : e = t.degree
        · rw [hed, tdGet_erase_self] at he
          cases he
        · rw [tdGet_erase_ne td t.degree e hed] at he
          obtain ⟨y, hy, hytag, hydeg⟩ := hB e tg2 he
          intro hcontra
          have hyx : y = x := ndInj hndTop hy hxpv (by rw [hytag, hcontra])
          rw [hyx, hxdeg] at hydeg
          exact hed hydeg.symm
      · refine ⟨s2, f, hr2sf, ?_, ?_⟩
        · intro z hz
          exact hsPres z (Or.inr hz)
        · intro z hz
          exact unref_erase (hf z hz)
    · have heq : (forestTags ((p ++ r1) ++ (linkT x t :: r2)) : Multiset Tag)
          = (forestTags (p ++ t :: ts) : Multiset Tag) := by
        rw [hts]
        simp [forestTags_append, forestTags, treeTags_linkT, ← Multiset.coe_add]
        all_goals abel
      rw [heq]
      exact hND
  | case8 td p t ts tg h1 hne h2 h3 ih =>
    exfalso
    obtain ⟨y, hy, hytag, hydeg⟩ := hB t.degree tg h1
    have hynt : y ≠ t := by
      intro h
      rw [h] at hytag
      exact hne hytag
    rw [splitFirst_none_iff] at h2 h3
    simp only [List.mem_append, List.mem_cons] at hy
    rcases hy with hy | rfl | hy
    · exact h2 (hytag ▸ List.mem_map_of_mem _ hy)
    · exact hynt rfl
    · exact h3 (hytag ▸ List.mem_map_of_mem _ hy)

theorem dkChildren_nil (tag : Tag) (k : Key) (v : Option GoValue) (pk : Key) :
    dkChildren tag k v pk [] = none := by rw [dkChildren]

theorem dkChildren_found_cut {tag : Tag} {k : Key} {v : Option GoValue} {pk : Key}
    {t : NTree} {ts : List NTree} (h : t.tag = tag) (hk : k < pk) :
    dkChildren tag k v pk (t :: ts) = some (ts, [(t.withKV k v).unmark], true) := by
  rw [dkChildren]
  rw [if_pos h, if_pos hk]

theorem dkChildren_found_keep {tag : Tag} {k : Key} {v : Option GoValue} {pk : Key}
    {t : NTree} {ts : List NTree} (h : t.tag = tag) (hk : ¬k < pk) :
    dkChildren tag k v pk (t :: ts) = some ((t.withKV k v) :: ts, [], false) := by
  rw [dkChildren]
  rw [if_pos h, if_neg hk]

theorem dkChildren_casc_cut {tag : Tag} {k : Key} {v : Option GoValue} {pk : Key}
    {t : NTree} {ts : List NTree} {cs2 cuts : List NTree} (h : ¬t.tag = tag)
    (hin : dkChildren tag k v t.key t.children = some (cs2, cuts, true))
    (hm : ((t.withChildren cs2).decDegree).marked = true) :
    dkChildren tag k v pk (t :: ts)
      = some (ts, cuts ++ [((t.withChildren cs2).decDegree).unmark], true) := by
  rw [dkChildren]
  rw [if_neg h]
  split
  · rename_i a b c heq
    rw [hin] at heq
    cases heq
    rw [if_pos rfl, if_pos hm]
  · rename_i heq
    rw [hin] at heq
    cases heq

theorem dkChildren_casc_mark {tag : Tag} {k : Key} {v : Option GoValue} {pk : Key}
    {t : NTree} {ts : List NTree} {cs2 cuts : List NTree} (h : ¬t.tag = tag)
    (hin : dkChildren tag k v t.key t.children = some (cs2, cuts, true))
    (hm : ¬((t.withChildren cs2).decDegree).marked = true) :
    dkChildren tag k v pk (t :: ts)
      = some (((t.withChildren cs2).decDegree).mark :: ts, cuts, false) := by
  rw [dkChildren]
  rw [if_neg h]
  split
  · rename_i a b c heq
    rw [hin] at heq
    cases heq
    rw [if_pos rfl, if_neg hm]
  · rename_i heq
    rw [hin] at heq
    cases heq

theorem dkChildren_nosig {tag : Tag} {k : Key} {v : Option GoValue} {pk : Key}
    {t : NTree} {ts : List NTree} {cs2 cuts : List NTree} (h : ¬t.tag = tag)
    (hin : dkChildren tag k v t.key t.children = some (cs2, cuts, false)) :
    dkChildren tag k v pk (t :: ts) = some ((t.withChildren cs2) :: ts, cuts, false) := by
  rw [dkChildren]
  rw [if_neg h]
  split
  · rename_i a b c heq
    rw [hin] at heq
    cases heq
    simp
  · rename_i heq
    rw [hin] at heq
    cases heq

theorem dkChildren_tail_some {tag : Tag} {k : Key} {v : Option GoValue} {pk : Key}
    {t : NTree} {ts : List NTree} {cs2 cuts : List NTree} {sig : Bool} (h : ¬t.tag = tag)
    (hin : dkChildren tag k v t.key t.children = none)
    (htl : dkChildren tag k v pk ts = some (cs2, cuts, sig)) :
    dkChildren tag k v pk (t :: ts) = some (t :: cs2, cuts, sig) := by
  rw [dkChildren]
  rw [if_neg h]
  split
  · rename_i a b c heq
    rw [hin] at heq
    cases heq
  · split
    · rename_i a b c heq
      rw [htl] at heq
      cases heq
      rfl
    · rename_i heq
      rw [htl] at heq
      cases heq

theorem dkChildren_tail_none {tag : Tag} {k : Key} {v : Option GoValue} {pk : Key}
    {t : NTree} {ts : List NTree} (h : ¬t.tag = tag)
    (hin : dkChildren tag k v t.key t.children = none)
    (htl : dkChildren tag k v pk ts = none) :
    dkChildren tag k v pk (t :: ts) = none := by
  rw [dkChildren]
  rw [if_neg h]
  split
  · rename_i a b c heq
    rw [hin] at heq
    cases heq
  · split
    · rename_i a b c heq
      rw [htl] at heq
      cases heq
    · rfl

theorem tag_withKV (t : NTree) (k : Key) (v : Option GoValue) :
    (t.withKV k v).tag = t.tag := by
  cases t; simp [NTree.withKV, NTree.tag]

theorem key_withKV (t : NTree) (k : Key) (v : Option GoValue) :
    (t.withKV k v).key = k := by
  cases t; simp [NTree.withKV, NTree.key]

theorem children_withKV (t : NTree) (k : Key) (v : Option GoValue) :
    (t.withKV k v).children = t.children := by
  cases t; simp [NTree.withKV, NTree.children]

theorem position_withKV (t : NTree) (k : Key) (v : Option GoValue) :
    (t.withKV k v).position = t.position := by
  cases t; simp [NTree.withKV, NTree.position]

theorem tag_withChildren (t : NTree) (cs : List NTree) :
    (t.withChildren cs).tag = t.tag := by
  cases t; simp [NTree.withChildren, NTree.tag]

theorem key_withChildren (t : NTree) (cs : List NTree) :
    (t.withChildren cs).key = t.key := by
  cases t; simp [NTree.withChildren, NTree.key]

theorem children_withChildren (t : NTree) (cs : List NTree) :
    (t.withChildren cs).children = cs := by
  cases t; simp [NTree.withChildren, NTree.children]

theorem position_withChildren (t : NTree) (cs : List NTree) :
    (t.withChildren cs).position = t.position := by
  cases t; simp [NTree.withChildren, NTree.position]

theorem tag_mark (t : NTree) : t.mark.tag = t.tag := by
  cases t; simp [NTree.mark, NTree.tag]

theorem key_mark (t : NTree) : t.mark.key = t.key := by
  cases t; simp [NTree.mark, NTree.key]

theorem position_mark (t : NTree) : t.mark.position = t.position := by
  cases t; simp [NTree.mark, NTree.position]

theorem tag_decDegree (t : NTree) : t.decDegree.tag = t.tag := by
  cases t; simp [NTree.decDegree, NTree.tag]

theorem key_decDegree (t : NTree) : t.decDegree.key = t.key := by
  cases t; simp [NTree.decDegree, NTree.key]

theorem position_decDegree (t : NTree) : t.decDegree.position = t.position := by
  cases t; simp [NTree.decDegree, NTree.position]

theorem treeNodes_withKV (t : NTree) (k : Key) (v : Option GoValue) :
    treeNodes (t.withKV k v) = (t.tag, k, v) :: forestNodes t.children := by
  cases t; simp [NTree.withKV, treeNodes, NTree.tag, NTree.children]

theorem treeNodes_withChildren (t : NTree) (cs : List NTree) :
    treeNodes (t.withChildren cs) = (t.tag, t.key, t.value) :: forestNodes cs := by
  cases t
  simp [NTree.withChildren, treeNodes, NTree.tag, NTree.key, NTree.value]

theorem treeNodes_mark (t : NTree) : treeNodes t.mark = treeNodes t := by
  cases t; simp [NTree.mark, treeNodes]

theorem treeNodes_decDegree (t : NTree) : treeNodes t.decDegree = treeNodes t := by
  cases t; simp [NTree.decDegree, treeNodes]

theorem treeNodes_self (t : NTree) :
    treeNodes t = (t.tag, t.key, t.value) :: forestNodes t.children := by
  cases t
  simp [treeNodes, NTree.tag, NTree.key, NTree.value, NTree.children]

theorem hoTree_mark (t : NTree) : hoTree t.mark = hoTree t := by
  cases t; simp [NTree.mark, hoTree]

theorem hoTree_decDegree (t : NTree) : hoTree t.decDegree = hoTree t := by
  cases t; simp [NTree.decDegree, hoTree]

theorem hoTree_withChildren (t : NTree) (cs : List NTree) :
    hoTree (t.withChildren cs) = hoAbove t.key cs := by
  cases t; simp [NTree.withChildren, hoTree, NTree.key]

theorem hoTree_withKV (t : NTree) (k : Key) (v : Option GoValue) :
    hoTree (t.withKV k v) = hoAbove k t.children := by
  cases t; simp [NTree.withKV, hoTree, NTree.children]

theorem hoTree_children (t : NTree) : hoTree t = hoAbove t.key t.children := by
  cases t; simp [hoTree, NTree.key, NTree.children]

theorem dkRoots_nil (tag : Tag) (k : Key) (v : Option GoValue) :
    dkRoots tag k v [] = none := by rw [dkRoots]

theorem dkRoots_found {tag : Tag} {k : Key} {v : Option GoValue}
    {r : NTree} {rs : List NTree} (h : r.tag = tag) :
    dkRoots tag k v (r :: rs) = some ((r.withKV k v) :: rs, []) := by
  rw [dkRoots]
  rw [if_pos h]

theorem dkRoots_inChildren {tag : Tag} {k : Key} {v : Option GoValue}
    {r : NTree} {rs : List NTree} {ccs cuts : List NTree} {sig : Bool}
    (h : ¬r.tag = tag)
    (hin : dkChildren tag k v r.key r.children = some (ccs, cuts, sig)) :
    dkRoots tag k v (r :: rs)
      = some ((if sig then (r.withChildren ccs).decDegree else r.withChildren ccs)
          :: rs, cuts) := by
  rw [dkRoots]
  rw [if_neg h]
  split
  · rename_i a b c heq
    rw [hin] at heq
    cases heq
    rfl
  · rename_i heq
    rw [hin] at heq
    cases heq

theorem dkRoots_tail_some {tag : Tag} {k : Key} {v : Option GoValue}
    {r : NTree} {rs : List NTree} {rs2 cuts : List NTree} (h : ¬r.tag = tag)
    (hin : dkChildren tag k v r.key r.children = none)
    (htl : dkRoots tag k v rs = some (rs2, cuts)) :
    dkRoots tag k v (r :: rs) = some (r :: rs2, cuts) := by
  rw [dkRoots]
  rw [if_neg h]
  split
  · rename_i a b c heq
    rw [hin] at heq
    cases heq
  · split
    · rename_i a b heq
      rw [htl] at heq
      cases heq
      rfl
    · rename_i heq
      rw [htl] at heq
      cases heq

theorem dkRoots_tail_none {tag : Tag} {k : Key} {v : Option GoValue}
    {r : NTree} {rs : List NTree} (h : ¬r.tag = tag)
    (hin : dkChildren tag k v r.key r.children = none)
    (htl : dkRoots tag k v rs = none) :
    dkRoots tag k v (r :: rs) = none := by
  rw [dkRoots]
  rw [if_neg h]
  split
  · rename_i a b c heq
    rw [hin] at heq
    cases heq
  · split
    · rename_i a b heq
      rw [htl] at heq
      cases heq
    · rfl

theorem treeFind_self {t : NTree} {tg : Tag} (h : t.tag = tg) :
    treeFind t tg = some (t.key, t.value) := by
  cases t with
  | node a k v m d p cs =>
    simp [NTree.tag] at h
    simp [treeFind, h, NTree.key, NTree.value]

theorem treeFind_not_self {t : NTree} {tg : Tag} (h : ¬t.tag = tg) :
    treeFind t tg = forestFind t.children tg := by
  cases t with
  | node a k v m d p cs =>
    simp [NTree.tag] at h
    simp [treeFind, h, NTree.children]

theorem forestFind_cons_some {t : NTree} {ts : List NTree} {tg : Tag}
    {r : Key × Option GoValue} (h : treeFind t tg = some r) :
    forestFind (t :: ts) tg = some r := by
  rw [forestFind, h]

theorem forestFind_cons_none {t : NTree} {ts : List NTree} {tg : Tag}
    (h : treeFind t tg = none) : forestFind (t :: ts) tg = forestFind ts tg := by
  rw [forestFind, h]

theorem nodesM_single (t : NTree) :
    nodesM [t] = (treeNodes t : Multiset (Tag × Key × Option GoValue)) := by
  simp [nodesM, forestNodes]

theorem value_unmark (t : NTree) : t.unmark.value = t.value := by
  cases t; simp [NTree.unmark, NTree.value]

theorem children_unmark (t : NTree) : t.unmark.children = t.children := by
  cases t; simp [NTree.unmark, NTree.children]

theorem value_withKV (t : NTree) (k : Key) (v : Option GoValue) :
    (t.withKV k v).value = v := by
  cases t; simp [NTree.withKV, NTree.value]

theorem value_mark (t : NTree) : t.mark.value = t.value := by
  cases t; simp [NTree.mark, NTree.value]

theorem children_mark (t : NTree) : t.mark.children = t.children := by
  cases t; simp [NTree.mark, NTree.children]

theorem value_decDegree (t : NTree) : t.decDegree.value = t.value := by
  cases t; simp [NTree.decDegree, NTree.value]

theorem children_decDegree (t : NTree) : t.decDegree.children = t.children := by
  cases t; simp [NTree.decDegree, NTree.children]

theorem value_withChildren (t : NTree) (cs : List NTree) :
    (t.withChildren cs).value = t.value := by
  cases t; simp [NTree.withChildren, NTree.value]

theorem coe_forestNodes (l : List NTree) :
    ((forestNodes l : List (Tag × Key × Option GoValue)) :
      Multiset (Tag × Key × Option GoValue)) = nodesM l := rfl

theorem mcoe_cons (a : Tag × Key × Option GoValue)
    (l : List (Tag × Key × Option GoValue)) :
    ((a :: l : List (Tag × Key × Option GoValue)) :
      Multiset (Tag × Key × Option GoValue)) = {a} + (l : Multiset (Tag × Key × Option GoValue)) := by
  rw [← Multiset.cons_coe]
  exact (Multiset.singleton_add _ _).symm

/-- A failing decreaseKey walk means the target tag is nowhere in the forest. -/
theorem dkChildren_none (tag : Tag) (k : Key) (v : Option GoValue) :
    ∀ (pk : Key) (cs : List NTree), dkChildren tag k v pk cs = none →
      forestFind cs tag = none := by
  intro pk cs
  induction pk, cs using dkChildren.induct tag k v with
  | case1 pk => intro _; rfl
  | case2 pk t ts ht hk =>
    intro h
    rw [dkChildren_found_cut ht hk] at h
    cases h
  | case3 pk t ts ht hk =>
    intro h
    rw [dkChildren_found_keep ht hk] at h
    cases h
  | case4 pk t ts ht cs2 cuts c1 hm hin ih =>
    intro h
    rw [dkChildren_casc_cut ht hin hm] at h
    cases h
  | case5 pk t ts ht cs2 cuts c1 hm hin ih =>
    intro h
    rw [dkChildren_casc_mark ht hin hm] at h
    cases h
  | case6 pk t ts ht cs2 cuts sig hin hs ih =>
    intro h
    have hsf : sig = false := by
      cases sig
      · rfl
      · exact absurd rfl hs
    subst hsf
    rw [dkChildren_nosig ht hin] at h
    cases h
  | case7 pk t ts ht hnone cs2 cuts sig htl ih1 ih2 =>
    intro h
    rw [dkChildren_tail_some ht hnone htl] at h
    cases h
  | case8 pk t ts ht hnone htl ih1 ih2 =>
    intro _
    rw [forestFind_cons_none]
    · exact ih2 htl
    · rw [treeFind_not_self ht]
      exact ih1 hnone

/-- Full specification of the decreaseKey walk below a node of key pk: the target
node (first in dfs order, the unique one on reachable heaps) is found, its triple
is replaced by (tag, k, v) and nothing else changes; when the walk signals a cut
the cut subtrees end with the target; and under heap order with a genuinely
smaller key, the surviving children stay heap ordered above pk, the cut subtrees
are heap ordered, and either the target was cut to the root list or its parent key
is at most k. -/
theorem dkChildren_spec (tag : Tag) (k : Key) (v : Option GoValue) :
    ∀ (pk : Key) (cs : List NTree), ∀ cs2 cuts sig,
    dkChildren tag k v pk cs = some (cs2, cuts, sig) →
    ∃ cur cuv, forestFind cs tag = some (cur, cuv) ∧
      nodesM cs2 + nodesM cuts + {(tag, cur, cuv)} = nodesM cs + {(tag, k, v)} ∧
      (sig = true → ∃ x ∈ cuts, x.tag = tag ∧ x.key = k) ∧
      (hoAbove pk cs = true → k < cur →
        hoAbove pk cs2 = true ∧ (∀ x ∈ cuts, hoTree x = true) ∧
        ((∃ x ∈ cuts, x.tag = tag ∧ x.key = k) ∨ pk ≤ k)) := by
  intro pk cs
  induction pk, cs using dkChildren.induct tag k v with
  | case1 pk =>
    intro cs2 cuts sig h
    rw [dkChildren_nil] at h
    cases h
  | case2 pk t ts ht hk =>
    intro cs2 cuts sig h
    rw [dkChildren_found_cut ht hk] at h
    cases h
    refine ⟨t.key, t.value, forestFind_cons_some (treeFind_self ht), ?_, ?_, ?_⟩
    · simp only [nodesM_single, nodesM_cons, nodesM_nil, treeNodes_self, ht, mcoe_cons,
        coe_forestNodes, tag_unmark, key_unmark, value_unmark, children_unmark,
        tag_withKV, key_withKV, value_withKV, children_withKV]
      abel
    · intro _
      exact ⟨(t.withKV k v).unmark, by simp,
        by rw [tag_unmark, tag_withKV]; exact ht,
        by rw [key_unmark, key_withKV]⟩
    · intro hho hk2
      simp only [hoAbove, Bool.and_eq_true, decide_eq_true_eq] at hho
      refine ⟨hho.2, ?_, ?_⟩
      · intro x hx
        simp at hx
        subst hx
        rw [hoTree_unmark, hoTree_withKV]
        exact hoAbove_mono (le_of_lt hk2) (by rw [← hoTree_children]; exact hho.1.2)
      · exact Or.inl ⟨(t.withKV k v).unmark, by simp,
          by rw [tag_unmark, tag_withKV]; exact ht,
          by rw [key_unmark, key_withKV]⟩
  | case3 pk t ts ht hk =>
    intro cs2 cuts sig h
    rw [dkChildren_found_keep ht hk] at h
    cases h
    refine ⟨t.key, t.value, forestFind_cons_some (treeFind_self ht), ?_, ?_, ?_⟩
    · simp only [nodesM_single, nodesM_cons, nodesM_nil, treeNodes_self, ht, mcoe_cons,
        coe_forestNodes, tag_withKV, key_withKV, value_withKV, children_withKV]
      abel
    · intro h
      simp at h
    · intro hho hk2
      simp only [hoAbove, Bool.and_eq_true, decide_eq_true_eq] at hho
      refine ⟨?_, by simp, Or.inr (le_of_not_lt hk)⟩
      simp only [hoAbove, Bool.and_eq_true, decide_eq_true_eq]
      refine ⟨⟨by rw [key_withKV]; exact le_of_not_lt hk, ?_⟩, hho.2⟩
      rw [hoTree_withKV]
      exact hoAbove_mono (le_of_lt hk2) (by rw [← hoTree_children]; exact hho.1.2)
  | case4 pk t ts ht cs2i cutsi c1 hm hin ih =>
    intro cs2 cuts sig h
    rw [dkChildren_casc_cut ht hin hm] at h
    cases h
    obtain ⟨cur, cuv, hfind, hcont, hsig, hhoi⟩ := ih cs2i cutsi true hin
    refine ⟨cur, cuv,
      forestFind_cons_some (by rw [treeFind_not_self ht]; exact hfind), ?_, ?_, ?_⟩
    · have hstep : nodesM ts + nodesM (cutsi ++ [((t.withChildren cs2i).decDegree).unmark])
          + ({(tag, cur, cuv)} : Multiset (Tag × Key × Option GoValue))
          = nodesM ts + ({(t.tag, t.key, t.value)} : Multiset (Tag × Key × Option GoValue))
            + (nodesM cs2i + nodesM cutsi + {(tag, cur, cuv)}) := by
        simp only [nodesM_append, nodesM_single, treeNodes_unmark, treeNodes_decDegree,
          treeNodes_withChildren, mcoe_cons, coe_forestNodes]
        abel
      rw [hstep, hcont]
      simp only [nodesM_cons, treeNodes_self, mcoe_cons, coe_forestNodes]
      abel
    · intro _
      obtain ⟨x, hx, hxt, hxk⟩ := hsig rfl
      exact ⟨x, by simp [hx], hxt, hxk⟩
    · intro hho hk2
      simp only [hoAbove, Bool.and_eq_true, decide_eq_true_eq] at hho
      obtain ⟨hcs2i, hcutsi, _⟩ :=
        hhoi (by rw [← hoTree_children]; exact hho.1.2) hk2
      refine ⟨hho.2, ?_, ?_⟩
      · intro x hx
        rcases List.mem_append.1 hx with hx | hx
        · exact hcutsi x hx
        · simp at hx
          subst hx
          rw [hoTree_unmark, hoTree_decDegree, hoTree_withChildren]
          exact hcs2i
      · obtain ⟨x, hx, hxt, hxk⟩ := hsig rfl
        exact Or.inl ⟨x, by simp [hx], hxt, hxk⟩
  | case5 pk t ts ht cs2i cutsi c1 hm hin ih =>
    intro cs2 cuts sig h
    rw [dkChildren_casc_mark ht hin hm] at h
    cases h
    obtain ⟨cur, cuv, hfind, hcont, hsig, hhoi⟩ := ih cs2i cutsi true hin
    refine ⟨cur, cuv,
      forestFind_cons_some (by rw [treeFind_not_self ht]; exact hfind), ?_, ?_, ?_⟩
    · have hstep : nodesM (((t.withChildren cs2i).decDegree).mark :: ts) + nodesM cutsi
          + ({(tag, cur, cuv)} : Multiset (Tag × Key × Option GoValue))
          = nodesM ts + ({(t.tag, t.key, t.value)} : Multiset (Tag × Key × Option GoValue))
            + (nodesM cs2i + nodesM cutsi + {(tag, cur, cuv)}) := by
        simp only [nodesM_cons, treeNodes_mark, treeNodes_decDegree,
          treeNodes_withChildren, mcoe_cons, coe_forestNodes]
        abel
      rw [hstep, hcont]
      simp only [nodesM_cons, treeNodes_self, mcoe_cons, coe_forestNodes]
      abel
    · intro h
      simp at h
    · intro hho hk2
      simp only [hoAbove, Bool.and_eq_true, decide_eq_true_eq] at hho
      obtain ⟨hcs2i, hcutsi, _⟩ :=
        hhoi (by rw [← hoTree_children]; exact hho.1.2) hk2
      refine ⟨?_, hcutsi, ?_⟩
      · simp only [hoAbove, Bool.and_eq_true, decide_eq_true_eq]
        refine ⟨⟨?_, ?_⟩, hho.2⟩
        · rw [key_mark, key_decDegree, key_withChildren]
          exact hho.1.1
        · rw [hoTree_mark, hoTree_decDegree, hoTree_withChildren]
          exact hcs2i
      · obtain ⟨x, hx, hxt, hxk⟩ := hsig rfl
        exact Or.inl ⟨x, hx, hxt, hxk⟩
  | case6 pk t ts ht cs2i cutsi sigi hin hs ih =>
    intro cs2 cuts sig h
    have hsf : sigi = false := by
      cases sigi
      · rfl
      · exact absurd rfl hs
    subst hsf
    rw [dkChildren_nosig ht hin] at h
    cases h
    obtain ⟨cur, cuv, hfind, hcont, _, hhoi⟩ := ih cs2i cutsi false hin
    refine ⟨cur, cuv,
      forestFind_cons_some (by rw [treeFind_not_self ht]; exact hfind), ?_, ?_, ?_⟩
    · have hstep : nodesM ((t.withChildren cs2i) :: ts) + nodesM cutsi
          + ({(tag, cur, cuv)} : Multiset (Tag × Key × Option GoValue))
          = nodesM ts + ({(t.tag, t.key, t.value)} : Multiset (Tag × Key × Option GoValue))
            + (nodesM cs2i + nodesM cutsi + {(tag, cur, cuv)}) := by
        simp only [nodesM_cons, treeNodes_withChildren, mcoe_cons, coe_forestNodes]
        abel
      rw [hstep, hcont]
      simp only [nodesM_cons, treeNodes_self, mcoe_cons, coe_forestNodes]
      abel
    · intro h
      simp at h
    · intro hho hk2
      simp only [hoAbove, Bool.and_eq_true, decide_eq_true_eq] at hho
      obtain ⟨hcs2i, hcutsi, hdisj⟩ :=
        hhoi (by rw [← hoTree_children]; exact hho.1.2) hk2
      refine ⟨?_, hcutsi, ?_⟩
      · simp only [hoAbove, Bool.and_eq_true, decide_eq_true_eq]
        refine ⟨⟨by rw [key_withChildren]; exact hho.1.1, ?_⟩, hho.2⟩
        rw [hoTree_withChildren]
        exact hcs2i
      · rcases hdisj with hdisj | hdisj
        · exact Or.inl hdisj
        · exact Or.inr (le_trans hho.1.1 hdisj)
  | case7 pk t ts ht hnone cs2t cutst sigt htl ih1 ih2 =>
    intro cs2 cuts sig h
    rw [dkChildren_tail_some ht hnone htl] at h
    cases h
    obtain ⟨cur, cuv, hfind, hcont, hsig, hhot⟩ := ih2 cs2t cutst sigt htl
    have hcfind : treeFind t tag = none := by
      rw [treeFind_not_self ht]
      exact dkChildren_none tag k v t.key t.children hnone
    refine ⟨cur, cuv, by rw [forestFind_cons_none hcfind]; exact hfind, ?_, hsig, ?_⟩
    · have hstep : nodesM (t :: cs2t) + nodesM cutst
          + ({(tag, cur, cuv)} : Multiset (Tag × Key × Option GoValue))
          = (treeNodes t : Multiset (Tag × Key × Option GoValue))
            + (nodesM cs2t + nodesM cutst + {(tag, cur, cuv)}) := by
        simp only [nodesM_cons]
        abel
      rw [hstep, hcont]
      simp only [nodesM_cons]
      abel
    · intro hho hk2
      simp only [hoAbove, Bool.and_eq_true, decide_eq_true_eq] at hho
      obtain ⟨hcs2t, hcutst, hdisj⟩ := hhot hho.2 hk2
      refine ⟨?_, hcutst, hdisj⟩
      simp only [hoAbove, Bool.and_eq_true, decide_eq_true_eq]
      exact ⟨hho.1, hcs2t⟩
  | case8 pk t ts ht hnone htl ih1 ih2 =>
    intro cs2 cuts sig h
    rw [dkChildren_tail_none ht hnone htl] at h
    cases h

theorem key_mem_treeKeys (t : NTree) : t.key ∈ treeKeys t := by
  cases t; simp [treeKeys, NTree.key]

/-- A failing decreaseKey root walk means the target tag is nowhere. -/
theorem dkRoots_none (tag : Tag) (k : Key) (v : Option GoValue) :
    ∀ (roots : List NTree), dkRoots tag k v roots = none →
      forestFind roots tag = none := by
  intro roots
  induction roots using dkRoots.induct tag k v with
  | case1 => intro _; rfl
  | case2 t ts ht =>
    intro h
    rw [dkRoots_found ht] at h
    cases h
  | case3 t ts ht ccs cuts sig hin =>
    intro h
    rw [dkRoots_inChildren ht hin] at h
    cases h
  | case4 t ts ht hnone rs2 cuts htl ih =>
    intro h
    rw [dkRoots_tail_some ht hnone htl] at h
    cases h
  | case5 t ts ht hnone htl ih =>
    intro _
    rw [forestFind_cons_none]
    · exact ih htl
    · rw [treeFind_not_self ht]
      exact dkChildren_none tag k v t.key t.children hnone

/-- Full specification of decreaseKey over the root list: the target's triple is
replaced and nothing else changes; the surviving root list matches the old one
root for root with tags, positions and (away from the target) keys preserved; and
under heap order with a smaller key the new forest stays heap ordered and the
target either sits in the root list with key k or its old parent key bounds k. -/
theorem dkRoots_spec (tag : Tag) (k : Key) (v : Option GoValue) :
    ∀ (roots : List NTree), ∀ rs cuts,
    dkRoots tag k v roots = some (rs, cuts) →
    ∃ cur cuv, forestFind roots tag = some (cur, cuv) ∧
      nodesM rs + nodesM cuts + {(tag, cur, cuv)} = nodesM roots + {(tag, k, v)} ∧
      List.Forall₂ (fun a b => b.tag = a.tag ∧ b.position = a.position ∧
        (a.tag ≠ tag → b.key = a.key)) roots rs ∧
      (hoForest roots = true → k < cur →
        hoForest rs = true ∧ (∀ x ∈ cuts, hoTree x = true) ∧
        ((∃ x ∈ cuts, x.tag = tag ∧ x.key = k) ∨
         (∃ b ∈ rs, b.tag = tag ∧ b.key = k) ∨
         (∃ q ∈ forestKeys roots, q ≤ k))) := by
  intro roots
  induction roots using dkRoots.induct tag k v with
  | case1 =>
    intro rs cuts h
    rw [dkRoots_nil] at h
    cases h
  | case2 t ts ht =>
    intro rs cuts h
    rw [dkRoots_found ht] at h
    cases h
    refine ⟨t.key, t.value, forestFind_cons_some (treeFind_self ht), ?_, ?_, ?_⟩
    · simp only [nodesM_single, nodesM_cons, nodesM_nil, treeNodes_self, ht, mcoe_cons,
        coe_forestNodes, tag_withKV, key_withKV, value_withKV, children_withKV]
      abel
    · refine List.Forall₂.cons ⟨by rw [tag_withKV], by rw [position_withKV], ?_⟩
        (List.forall₂_same.2 (fun a _ => ⟨rfl, rfl, fun _ => rfl⟩))
      intro hne
      exact absurd ht hne
    · intro hho hk2
      simp only [hoForest, Bool.and_eq_true] at hho
      refine ⟨?_, by simp, Or.inr (Or.inl ⟨t.withKV k v, by simp,
        by rw [tag_withKV]; exact ht, by rw [key_withKV]⟩)⟩
      simp only [hoForest, Bool.and_eq_true]
      refine ⟨?_, hho.2⟩
      rw [hoTree_withKV]
      exact hoAbove_mono (le_of_lt hk2) (by rw [← hoTree_children]; exact hho.1)
  | case3 t ts ht ccs cutsi sig hin =>
    intro rs cuts h
    rw [dkRoots_inChildren ht hin] at h
    cases h
    obtain ⟨cur, cuv, hfind, hcont, hsig, hhoi⟩ := dkChildren_spec tag k v t.key
      t.children ccs cutsi sig hin
    refine ⟨cur, cuv,
      forestFind_cons_some (by rw [treeFind_not_self ht]; exact hfind), ?_, ?_, ?_⟩
    · have hstep : nodesM ((if sig then (t.withChildren ccs).decDegree
            else t.withChildren ccs) :: ts) + nodesM cutsi
          + ({(tag, cur, cuv)} : Multiset (Tag × Key × Option GoValue))
          = nodesM ts + ({(t.tag, t.key, t.value)} : Multiset (Tag × Key × Option GoValue))
            + (nodesM ccs + nodesM cutsi + {(tag, cur, cuv)}) := by
        cases sig <;>
          simp only [if_true, if_false, nodesM_cons, treeNodes_self, mcoe_cons,
            coe_forestNodes, tag_decDegree, key_decDegree, value_decDegree,
            children_decDegree, tag_withChildren, key_withChildren, value_withChildren,
            children_withChildren, Bool.false_eq_true] <;>
          abel
      rw [hstep, hcont]
      simp only [nodesM_cons, treeNodes_self, mcoe_cons, coe_forestNodes]
      abel
    · refine List.Forall₂.cons ?_
        (List.forall₂_same.2 (fun a _ => ⟨rfl, rfl, fun _ => rfl⟩))
      cases sig
      · exact ⟨by simp [tag_withChildren], by simp [position_withChildren],
          fun _ => by simp [key_withChildren]⟩
      · exact ⟨by simp [tag_decDegree, tag_withChildren],
          by simp [position_decDegree, position_withChildren],
          fun _ => by simp [key_decDegree, key_withChildren]⟩
    · intro hho hk2
      simp only [hoForest, Bool.and_eq_true] at hho
      obtain ⟨hccs, hcutsi, hdisj⟩ :=
        hhoi (by rw [← hoTree_children]; exact hho.1) hk2
      refine ⟨?_, hcutsi, ?_⟩
      · simp only [hoForest, Bool.and_eq_true]
        refine ⟨?_, hho.2⟩
        cases sig
        · simp only [if_false, Bool.false_eq_true, hoTree_withChildren]
          exact hccs
        · simp only [if_true, hoTree_decDegree, hoTree_withChildren]
          exact hccs
      · rcases hdisj with hdisj | hdisj
        · exact Or.inl hdisj
        · refine Or.inr (Or.inr ⟨t.key, ?_, hdisj⟩)
          have : t.key ∈ treeKeys t := key_mem_treeKeys t
          rw [show forestKeys (t :: ts) = treeKeys t ++ forestKeys ts from rfl]
          exact List.mem_append_left _ this
  | case4 t ts ht hnone rs2 cutst htl ih =>
    intro rs cuts h
    rw [dkRoots_tail_some ht hnone htl] at h
    cases h
    obtain ⟨cur, cuv, hfind, hcont, hshape, hhot⟩ := ih rs2 cutst htl
    have hcfind : treeFind t tag = none := by
      rw [treeFind_not_self ht]
      exact dkChildren_none tag k v t.key t.children hnone
    refine ⟨cur, cuv, by rw [forestFind_cons_none hcfind]; exact hfind, ?_, ?_, ?_⟩
    · have hstep : nodesM (t :: rs2) + nodesM cutst
          + ({(tag, cur, cuv)} : Multiset (Tag × Key × Option GoValue))
          = (treeNodes t : Multiset (Tag × Key × Option GoValue))
            + (nodesM rs2 + nodesM cutst + {(tag, cur, cuv)}) := by
        simp only [nodesM_cons]
        abel
      rw [hstep, hcont]
      simp only [nodesM_cons]
      abel
    · exact List.Forall₂.cons ⟨rfl, rfl, fun _ => rfl⟩ hshape
    · intro hho hk2
      simp only [hoForest, Bool.and_eq_true] at hho
      obtain ⟨hrs2, hcutst, hdisj⟩ := hhot hho.2 hk2
      refine ⟨?_, hcutst, ?_⟩
      · simp only [hoForest, Bool.and_eq_true]
        exact ⟨hho.1, hrs2⟩
      · rcases hdisj with hdisj | hdisj | hdisj
        · exact Or.inl hdisj
        · obtain ⟨b, hb, hbt, hbk⟩ := hdisj
          exact Or.inr (Or.inl ⟨b, List.mem_cons_of_mem _ hb, hbt, hbk⟩)
        · obtain ⟨q, hq, hqk⟩ := hdisj
          refine Or.inr (Or.inr ⟨q, ?_, hqk⟩)
          rw [show forestKeys (t :: ts) = treeKeys t ++ forestKeys ts from rfl]
          exact List.mem_append_right _ hq
  | case5 t ts ht hnone htl ih =>
    intro rs cuts h
    rw [dkRoots_tail_none ht hnone htl] at h
    cases h

/-- The child scan of increaseKey partitions the children: those below the new
key are cut (in order, routed before or after the moment the owner itself is
cut), the rest are kept; nothing is created or lost and heap order per subtree is
untouched, with every kept child at least at the new key. -/
theorem ikFold_spec (k : Key) (hasPar : Bool) :
    ∀ (m c : Bool) (cs : List NTree),
    nodesM (ikFold k hasPar m c cs).kept + nodesM (ikFold k hasPar m c cs).pre
      + nodesM (ikFold k hasPar m c cs).post = nodesM cs ∧
    ((∀ x ∈ cs, hoTree x = true) →
      (∀ x ∈ (ikFold k hasPar m c cs).kept, k ≤ x.key ∧ hoTree x = true) ∧
      (∀ x ∈ (ikFold k hasPar m c cs).pre, hoTree x = true) ∧
      (∀ x ∈ (ikFold k hasPar m c cs).post, hoTree x = true)) := by
  intro m c cs
  induction m, c, cs using ikFold.induct k hasPar with
  | case1 m c =>
    refine ⟨by simp [ikFold, nodesM_nil], ?_⟩
    intro _
    simp [ikFold]
  | case2 m t ts hk ih =>
    simp only [ikFold, if_pos hk, if_true]
    obtain ⟨ihc, ihh⟩ := ih
    refine ⟨?_, ?_⟩
    · simp only [nodesM_cons, treeNodes_unmark]
      rw [show ∀ a b c d : Multiset (Tag × Key × Option GoValue),
        a + b + (c + d) = c + (a + b + d) from fun a b c d => by abel]
      rw [ihc]
    · intro hho
      obtain ⟨h1, h2, h3⟩ := ihh (fun x hx => hho x (List.mem_cons_of_mem _ hx))
      refine ⟨h1, h2, ?_⟩
      intro x hx
      rcases List.mem_cons.1 hx with rfl | hx
      · rw [hoTree_unmark]
        exact hho t (by simp)
      · exact h3 x hx
  | case3 c t ts hk hc hp ih =>
    simp only [ikFold, if_pos hk, if_neg hc, if_pos hp, if_true]
    obtain ⟨ihc, ihh⟩ := ih
    refine ⟨?_, ?_⟩
    · simp only [nodesM_cons, treeNodes_unmark]
      rw [show ∀ a b c d : Multiset (Tag × Key × Option GoValue),
        a + (c + b) + d = c + (a + b + d) from fun a b c d => by abel]
      rw [ihc]
    · intro hho
      obtain ⟨h1, h2, h3⟩ := ihh (fun x hx => hho x (List.mem_cons_of_mem _ hx))
      refine ⟨h1, ?_, h3⟩
      intro x hx
      rcases List.mem_cons.1 hx with rfl | hx
      · rw [hoTree_unmark]
        exact hho t (by simp)
      · exact h2 x hx
  | case4 m c t ts hk hc hp hm ih =>
    simp only [ikFold, if_pos hk, if_neg hc, if_pos hp, if_neg hm]
    obtain ⟨ihc, ihh⟩ := ih
    refine ⟨?_, ?_⟩
    · simp only [nodesM_cons, treeNodes_unmark]
      rw [show ∀ a b c d : Multiset (Tag × Key × Option GoValue),
        a + (c + b) + d = c + (a + b + d) from fun a b c d => by abel]
      rw [ihc]
    · intro hho
      obtain ⟨h1, h2, h3⟩ := ihh (fun x hx => hho x (List.mem_cons_of_mem _ hx))
      refine ⟨h1, ?_, h3⟩
      intro x hx
      rcases List.mem_cons.1 hx with rfl | hx
      · rw [hoTree_unmark]
        exact hho t (by simp)
      · exact h2 x hx
  | case5 m c t ts hk hc hp ih =>
    simp only [ikFold, if_pos hk, if_neg hc, if_neg hp]
    obtain ⟨ihc, ihh⟩ := ih
    refine ⟨?_, ?_⟩
    · simp only [nodesM_cons, treeNodes_unmark]
      rw [show ∀ a b c d : Multiset (Tag × Key × Option GoValue),
        a + (c + b) + d = c + (a + b + d) from fun a b c d => by abel]
      rw [ihc]
    · intro hho
      obtain ⟨h1, h2, h3⟩ := ihh (fun x hx => hho x (List.mem_cons_of_mem _ hx))
      refine ⟨h1, ?_, h3⟩
      intro x hx
      rcases List.mem_cons.1 hx with rfl | hx
      · rw [hoTree_unmark]
        exact hho t (by simp)
      · exact h2 x hx
  | case6 m c t ts hk ih =>
    simp only [ikFold, if_neg hk]
    obtain ⟨ihc, ihh⟩ := ih
    refine ⟨?_, ?_⟩
    · simp only [nodesM_cons]
      rw [show ∀ a b c d : Multiset (Tag × Key × Option GoValue),
        c + a + b + d = c + (a + b + d) from fun a b c d => by abel]
      rw [ihc]
    · intro hho
      obtain ⟨h1, h2, h3⟩ := ihh (fun x hx => hho x (List.mem_cons_of_mem _ hx))
      refine ⟨?_, h2, h3⟩
      intro x hx
      rcases List.mem_cons.1 hx with rfl | hx
      · exact ⟨le_of_not_lt hk, hho x (by simp)⟩
      · exact h1 x hx

theorem ikChildren_nil (tag : Tag) (k : Key) (v : Option GoValue) :
    ikChildren tag k v [] = none := by rw [ikChildren]

theorem ikChildren_found_cut {tag : Tag} {k : Key} {v : Option GoValue}
    {t : NTree} {ts : List NTree} (ht : t.tag = tag)
    (hc : (ikFold k true t.marked false t.children).nCut = true) :
    ikChildren tag k v (t :: ts) = some (ts,
      (ikFold k true t.marked false t.children).pre ++
        [(NTree.node t.tag k v (ikFold k true t.marked false t.children).nMarked
          (t.degree - (ikFold k true t.marked false t.children).lost) t.position
          (ikFold k true t.marked false t.children).kept).unmark],
      (ikFold k true t.marked false t.children).post, true) := by
  rw [ikChildren]
  rw [if_pos ht]
  simp only [hc, if_true]

theorem ikChildren_found_keep {tag : Tag} {k : Key} {v : Option GoValue}
    {t : NTree} {ts : List NTree} (ht : t.tag = tag)
    (hc : ¬(ikFold k true t.marked false t.children).nCut = true) :
    ikChildren tag k v (t :: ts) = some (
      (NTree.node t.tag k v (ikFold k true t.marked false t.children).nMarked
        (t.degree - (ikFold k true t.marked false t.children).lost) t.position
        (ikFold k true t.marked false t.children).kept) :: ts,
      (ikFold k true t.marked false t.children).pre,
      (ikFold k true t.marked false t.children).post, false) := by
  rw [ikChildren]
  rw [if_pos ht]
  rw [if_neg hc]

theorem ikChildren_casc_cut {tag : Tag} {k : Key} {v : Option GoValue}
    {t : NTree} {ts : List NTree} {cs2 pre post : List NTree} (h : ¬t.tag = tag)
    (hin : ikChildren tag k v t.children = some (cs2, pre, post, true))
    (hm : ((t.withChildren cs2).decDegree).marked = true) :
    ikChildren tag k v (t :: ts)
      = some (ts, pre ++ [((t.withChildren cs2).decDegree).unmark], post, true) := by
  rw [ikChildren]
  rw [if_neg h]
  split
  · rename_i a b c d heq
    rw [hin] at heq
    cases heq
    rw [if_pos rfl, if_pos hm]
  · rename_i heq
    rw [hin] at heq
    cases heq

theorem ikChildren_casc_mark {tag : Tag} {k : Key} {v : Option GoValue}
    {t : NTree} {ts : List NTree} {cs2 pre post : List NTree} (h : ¬t.tag = tag)
    (hin : ikChildren tag k v t.children = some (cs2, pre, post, true))
    (hm : ¬((t.withChildren cs2).decDegree).marked = true) :
    ikChildren tag k v (t :: ts)
      = some (((t.withChildren cs2).decDegree).mark :: ts, pre, post, false) := by
  rw [ikChildren]
  rw [if_neg h]
  split
  · rename_i a b c d heq
    rw [hin] at heq
    cases heq
    rw [if_pos rfl, if_neg hm]
  · rename_i heq
    rw [hin] at heq
    cases heq

theorem ikChildren_nosig {tag : Tag} {k : Key} {v : Option GoValue}
    {t : NTree} {ts : List NTree} {cs2 pre post : List NTree} (h : ¬t.tag = tag)
    (hin : ikChildren tag k v t.children = some (cs2, pre, post, false)) :
    ikChildren tag k v (t :: ts)
      = some ((t.withChildren cs2) :: ts, pre, post, false) := by
  rw [ikChildren]
  rw [if_neg h]
  split
  · rename_i a b c d heq
    rw [hin] at heq
    cases heq
    simp
  · rename_i heq
    rw [hin] at heq
    cases heq

theorem ikChildren_tail_some {tag : Tag} {k : Key} {v : Option GoValue}
    {t : NTree} {ts : List NTree} {cs2 pre post : List NTree} {sig : Bool}
    (h : ¬t.tag = tag) (hin : ikChildren tag k v t.children = none)
    (htl : ikChildren tag k v ts = some (cs2, pre, post, sig)) :
    ikChildren tag k v (t :: ts) = some (t :: cs2, pre, post, sig) := by
  rw [ikChildren]
  rw [if_neg h]
  split
  · rename_i a b c d heq
    rw [hin] at heq
    cases heq
  · split
    · rename_i a b c d heq
      rw [htl] at heq
      cases heq
      rfl
    · rename_i heq
      rw [htl] at heq
      cases heq

theorem ikChildren_tail_none {tag : Tag} {k : Key} {v : Option GoValue}
    {t : NTree} {ts : List NTree} (h : ¬t.tag = tag)
    (hin : ikChildren tag k v t.children = none)
    (htl : ikChildren tag k v ts = none) :
    ikChildren tag k v (t :: ts) = none := by
  rw [ikChildren]
  rw [if_neg h]
  split
  · rename_i a b c d heq
    rw [hin] at heq
    cases heq
  · split
    · rename_i a b c d heq
      rw [htl] at heq
      cases heq
    · rfl

/-- A failing increaseKey walk means the target tag is nowhere in the forest. -/
theorem ikChildren_none (tag : Tag) (k : Key) (v : Option GoValue) :
    ∀ (cs : List NTree), ikChildren tag k v cs = none →
      forestFind cs tag = none := by
  intro cs
  induction cs using ikChildren.induct tag k v with
  | case1 => intro _; rfl
  | case2 t ts ht r hc =>
    intro h
    rw [ikChildren_found_cut ht hc] at h
    cases h
  | case3 t ts ht r hc =>
    intro h
    rw [ikChildren_found_keep ht hc] at h
    cases h
  | case4 t ts ht cs2 pre post c1 hm hin ih =>
    intro h
    rw [ikChildren_casc_cut ht hin hm] at h
    cases h
  | case5 t ts ht cs2 pre post c1 hm hin ih =>
    intro h
    rw [ikChildren_casc_mark ht hin hm] at h
    cases h
  | case6 t ts ht cs2 pre post sig hin hs ih =>
    intro h
    have hsf : sig = false := by
      cases sig
      · rfl
      · exact absurd rfl hs
    subst hsf
    rw [ikChildren_nosig ht hin] at h
    cases h
  | case7 t ts ht hnone cs2 pre post sig htl ih1 ih2 =>
    intro h
    rw [ikChildren_tail_some ht hnone htl] at h
    cases h
  | case8 t ts ht hnone htl ih1 ih2 =>
    intro _
    rw [forestFind_cons_none]
    · exact ih2 htl
    · rw [treeFind_not_self ht]
      exact ih1 hnone

/-- Full specification of the increaseKey walk below a root: the target's triple
is replaced by (tag, k, v), children of the target below the new key move to the
cut lists, and under heap order with a genuinely larger key everything stays heap
ordered. -/
theorem ikChildren_spec (tag : Tag) (k : Key) (v : Option GoValue) :
    ∀ (cs : List NTree), ∀ cs2 pre post sig,
    ikChildren tag k v cs = some (cs2, pre, post, sig) →
    ∃ cur cuv, forestFind cs tag = some (cur, cuv) ∧
      nodesM cs2 + nodesM pre + nodesM post + {(tag, cur, cuv)}
        = nodesM cs + {(tag, k, v)} ∧
      (∀ pk, hoAbove pk cs = true → cur < k →
        hoAbove pk cs2 = true ∧ (∀ x ∈ pre, hoTree x = true) ∧
        (∀ x ∈ post, hoTree x = true)) := by
  intro cs
  induction cs using ikChildren.induct tag k v with
  | case1 =>
    intro cs2 pre post sig h
    rw [ikChildren_nil] at h
    cases h
  | case2 t ts ht r hc =>
    intro cs2 pre post sig h
    rw [ikChildren_found_cut ht hc] at h
    cases h
    obtain ⟨hcF, hhoF⟩ := ikFold_spec k true t.marked false t.children
    refine ⟨t.key, t.value, forestFind_cons_some (treeFind_self ht), ?_, ?_⟩
    · have hstep : nodesM ts +
          nodesM ((ikFold k true t.marked false t.children).pre ++
            [(NTree.node t.tag k v (ikFold k true t.marked false t.children).nMarked
              (t.degree - (ikFold k true t.marked false t.children).lost) t.position
              (ikFold k true t.marked false t.children).kept).unmark]) +
          nodesM (ikFold k true t.marked false t.children).post
          + ({(tag, t.key, t.value)} : Multiset (Tag × Key × Option GoValue))
          = nodesM ts + ({(tag, k, v)} : Multiset (Tag × Key × Option GoValue))
            + {(tag, t.key, t.value)}
            + (nodesM (ikFold k true t.marked false t.children).kept
              + nodesM (ikFold k true t.marked false t.children).pre
              + nodesM (ikFold k true t.marked false t.children).post) := by
        simp only [nodesM_append, nodesM_single, nodesM_cons, nodesM_nil,
          NTree.unmark, treeNodes, ht, mcoe_cons, coe_forestNodes]
        abel
      rw [hstep, hcF]
      simp only [nodesM_cons, treeNodes_self, ht, mcoe_cons, coe_forestNodes]
      abel
    · intro pk hho hk2
      simp only [hoAbove, Bool.and_eq_true, decide_eq_true_eq] at hho
      obtain ⟨h1, h2, h3⟩ := hhoF (fun x hx => ((hoAbove_iff _ _).1 (by rw [← hoTree_children]; exact hho.1.2) x hx).2)
      refine ⟨hho.2, ?_, h3⟩
      intro x hx
      rcases List.mem_append.1 hx with hx | hx
      · exact h2 x hx
      · simp at hx
        subst hx
        rw [hoTree_unmark, hoTree_node]
        rw [hoAbove_iff]
        exact fun y hy => (h1 y hy)
  | case3 t ts ht r hc =>
    intro cs2 pre post sig h
    rw [ikChildren_found_keep ht hc] at h
    cases h
    obtain ⟨hcF, hhoF⟩ := ikFold_spec k true t.marked false t.children
    refine ⟨t.key, t.value, forestFind_cons_some (treeFind_self ht), ?_, ?_⟩
    · have hstep : nodesM ((NTree.node t.tag k v
            (ikFold k true t.marked false t.children).nMarked
            (t.degree - (ikFold k true t.marked false t.children).lost) t.position
            (ikFold k true t.marked false t.children).kept) :: ts) +
          nodesM (ikFold k true t.marked false t.children).pre +
          nodesM (ikFold k true t.marked false t.children).post
          + ({(tag, t.key, t.value)} : Multiset (Tag × Key × Option GoValue))
          = nodesM ts + ({(tag, k, v)} : Multiset (Tag × Key × Option GoValue))
            + {(tag, t.key, t.value)}
            + (nodesM (ikFold k true t.marked false t.children).kept
              + nodesM (ikFold k true t.marked false t.children).pre
              + nodesM (ikFold k true t.marked false t.children).post) := by
        simp only [nodesM_cons, treeNodes, ht, mcoe_cons, coe_forestNodes]
        abel
      rw [hstep, hcF]
      simp only [nodesM_cons, treeNodes_self, ht, mcoe_cons, coe_forestNodes]
      abel
    · intro pk hho hk2
      simp only [hoAbove, Bool.and_eq_true, decide_eq_true_eq] at hho
      obtain ⟨h1, h2, h3⟩ := hhoF (fun x hx => ((hoAbove_iff _ _).1 (by rw [← hoTree_children]; exact hho.1.2) x hx).2)
      refine ⟨?_, h2, h3⟩
      simp only [hoAbove, Bool.and_eq_true, decide_eq_true_eq]
      refine ⟨⟨?_, ?_⟩, hho.2⟩
      · show pk ≤ (NTree.node t.tag k v _ _ _ _).key
        simp only [NTree.key]
        exact le_trans hho.1.1 (le_of_lt hk2)
      · rw [hoTree_node, hoAbove_iff]
        exact fun y hy => h1 y hy
  | case4 t ts ht cs2i prei posti c1 hm hin ih =>
    intro cs2 pre post sig h
    rw [ikChildren_casc_cut ht hin hm] at h
    cases h
    obtain ⟨cur, cuv, hfind, hcont, hhoi⟩ := ih cs2i prei posti true hin
    refine ⟨cur, cuv,
      forestFind_cons_some (by rw [treeFind_not_self ht]; exact hfind), ?_, ?_⟩
    · have hstep : nodesM ts
          + nodesM (prei ++ [((t.withChildren cs2i).decDegree).unmark]) + nodesM posti
          + ({(tag, cur, cuv)} : Multiset (Tag × Key × Option GoValue))
          = nodesM ts + ({(t.tag, t.key, t.value)} : Multiset (Tag × Key × Option GoValue))
            + (nodesM cs2i + nodesM prei + nodesM posti + {(tag, cur, cuv)}) := by
        simp only [nodesM_append, nodesM_single, treeNodes_unmark, treeNodes_decDegree,
          treeNodes_withChildren, mcoe_cons, coe_forestNodes]
        abel
      rw [hstep, hcont]
      simp only [nodesM_cons, treeNodes_self, mcoe_cons, coe_forestNodes]
      abel
    · intro pk hho hk2
      simp only [hoAbove, Bool.and_eq_true, decide_eq_true_eq] at hho
      obtain ⟨hcs2i, hprei, hposti⟩ :=
        hhoi t.key (by rw [← hoTree_children]; exact hho.1.2) hk2
      refine ⟨hho.2, ?_, hposti⟩
      intro x hx
      rcases List.mem_append.1 hx with hx | hx
      · exact hprei x hx
      · simp at hx
        subst hx
        rw [hoTree_unmark, hoTree_decDegree, hoTree_withChildren]
        exact hcs2i
  | case5 t ts ht cs2i prei posti c1 hm hin ih =>
    intro cs2 pre post sig h
    rw [ikChildren_casc_mark ht hin hm] at h
    cases h
    obtain ⟨cur, cuv, hfind, hcont, hhoi⟩ := ih cs2i prei posti true hin
    refine ⟨cur, cuv,
      forestFind_cons_some (by rw [treeFind_not_self ht]; exact hfind), ?_, ?_⟩
    · have hstep : nodesM (((t.withChildren cs2i).decDegree).mark :: ts)
          + nodesM prei + nodesM posti
          + ({(tag, cur, cuv)} : Multiset (Tag × Key × Option GoValue))
          = nodesM ts + ({(t.tag, t.key, t.value)} : Multiset (Tag × Key × Option GoValue))
            + (nodesM cs2i + nodesM prei + nodesM posti + {(tag, cur, cuv)}) := by
        simp only [nodesM_cons, treeNodes_mark, treeNodes_decDegree,
          treeNodes_withChildren, mcoe_cons, coe_forestNodes]
        abel
      rw [hstep, hcont]
      simp only [nodesM_cons, treeNodes_self, mcoe_cons, coe_forestNodes]
      abel
    · intro pk hho hk2
      simp only [hoAbove, Bool.and_eq_true, decide_eq_true_eq] at hho
      obtain ⟨hcs2i, hprei, hposti⟩ :=
        hhoi t.key (by rw [← hoTree_children]; exact hho.1.2) hk2
      refine ⟨?_, hprei, hposti⟩
      simp only [hoAbove, Bool.and_eq_true, decide_eq_true_eq]
      refine ⟨⟨?_, ?_⟩, hho.2⟩
      · rw [key_mark, key_decDegree, key_withChildren]
        exact hho.1.1
      · rw [hoTree_mark, hoTree_decDegree, hoTree_withChildren]
        exact hcs2i
  | case6 t ts ht cs2i prei posti sigi hin hs ih =>
    intro cs2 pre post sig h
    have hsf : sigi = false := by
      cases sigi
      · rfl
      · exact absurd rfl hs
    subst hsf
    rw [ikChildren_nosig ht hin] at h
    cases h
    obtain ⟨cur, cuv, hfind, hcont, hhoi⟩ := ih cs2i prei posti false hin
    refine ⟨cur, cuv,
      forestFind_cons_some (by rw [treeFind_not_self ht]; exact hfind), ?_, ?_⟩
    · have hstep : nodesM ((t.withChildren cs2i) :: ts) + nodesM prei + nodesM posti
          + ({(tag, cur, cuv)} : Multiset (Tag × Key × Option GoValue))
          = nodesM ts + ({(t.tag, t.key, t.value)} : Multiset (Tag × Key × Option GoValue))
            + (nodesM cs2i + nodesM prei + nodesM posti + {(tag, cur, cuv)}) := by
        simp only [nodesM_cons, treeNodes_withChildren, mcoe_cons, coe_forestNodes]
        abel
      rw [hstep, hcont]
      simp only [nodesM_cons, treeNodes_self, mcoe_cons, coe_forestNodes]
      abel
    · intro pk hho hk2
      simp only [hoAbove, Bool.and_eq_true, decide_eq_true_eq] at hho
      obtain ⟨hcs2i, hprei, hposti⟩ :=
        hhoi t.key (by rw [← hoTree_children]; exact hho.1.2) hk2
      refine ⟨?_, hprei, hposti⟩
      simp only [hoAbove, Bool.and_eq_true, decide_eq_true_eq]
      refine ⟨⟨by rw [key_withChildren]; exact hho.1.1, ?_⟩, hho.2⟩
      rw [hoTree_withChildren]
      exact hcs2i
  | case7 t ts ht hnone cs2t pret postt sigt htl ih1 ih2 =>
    intro cs2 pre post sig h
    rw [ikChildren_tail_some ht hnone htl] at h
    cases h
    obtain ⟨cur, cuv, hfind, hcont, hhot⟩ := ih2 cs2t pret postt sigt htl
    have hcfind : treeFind t tag = none := by
      rw [treeFind_not_self ht]
      exact ikChildren_none tag k v t.children hnone
    refine ⟨cur, cuv, by rw [forestFind_cons_none hcfind]; exact hfind, ?_, ?_⟩
    · have hstep : nodesM (t :: cs2t) + nodesM pret + nodesM postt
          + ({(tag, cur, cuv)} : Multiset (Tag × Key × Option GoValue))
          = (treeNodes t : Multiset (Tag × Key × Option GoValue))
            + (nodesM cs2t + nodesM pret + nodesM postt + {(tag, cur, cuv)}) := by
        simp only [nodesM_cons]
        abel
      rw [hstep, hcont]
      simp only [nodesM_cons]
      abel
    · intro pk hho hk2
      simp only [hoAbove, Bool.and_eq_true, decide_eq_true_eq] at hho
      obtain ⟨hcs2t, hpret, hpostt⟩ := hhot pk hho.2 hk2
      refine ⟨?_, hpret, hpostt⟩
      simp only [hoAbove, Bool.and_eq_true, decide_eq_true_eq]
      exact ⟨hho.1, hcs2t⟩
  | case8 t ts ht hnone htl ih1 ih2 =>
    intro cs2 pre post sig h
    rw [ikChildren_tail_none ht hnone htl] at h
    cases h

theorem ikRoots_nil (tag : Tag) (k : Key) (v : Option GoValue) :
    ikRoots tag k v [] = none := by rw [ikRoots]

theorem ikRoots_found {tag : Tag} {k : Key} {v : Option GoValue}
    {r : NTree} {rs : List NTree} (h : r.tag = tag) :
    ikRoots tag k v (r :: rs) = some (
      (NTree.node r.tag k v (ikFold k false r.marked false r.children).nMarked
        (r.degree - (ikFold k false r.marked false r.children).lost) r.position
        (ikFold k false r.marked false r.children).kept) :: rs,
      (ikFold k false r.marked false r.children).pre,
      (ikFold k false r.marked false r.children).post) := by
  rw [ikRoots]
  rw [if_pos h]

theorem ikRoots_inChildren {tag : Tag} {k : Key} {v : Option GoValue}
    {r : NTree} {rs : List NTree} {ccs pre post : List NTree} {sig : Bool}
    (h : ¬r.tag = tag)
    (hin : ikChildren tag k v r.children = some (ccs, pre, post, sig)) :
    ikRoots tag k v (r :: rs)
      = some ((if sig then (r.withChildren ccs).decDegree else r.withChildren ccs)
          :: rs, pre, post) := by
  rw [ikRoots]
  rw [if_neg h]
  split
  · rename_i a b c d heq
    rw [hin] at heq
    cases heq
    rfl
  · rename_i heq
    rw [hin] at heq
    cases heq

theorem ikRoots_tail_some {tag : Tag} {k : Key} {v : Option GoValue}
    {r : NTree} {rs : List NTree} {rs2 pre post : List NTree} (h : ¬r.tag = tag)
    (hin : ikChildren tag k v r.children = none)
    (htl : ikRoots tag k v rs = some (rs2, pre, post)) :
    ikRoots tag k v (r :: rs) = some (r :: rs2, pre, post) := by
  rw [ikRoots]
  rw [if_neg h]
  split
  · rename_i a b c d heq
    rw [hin] at heq
    cases heq
  · split
    · rename_i a b c heq
      rw [htl] at heq
      cases heq
      rfl
    · rename_i heq
      rw [htl] at heq
      cases heq

theorem ikRoots_tail_none {tag : Tag} {k : Key} {v : Option GoValue}
    {r : NTree} {rs : List NTree} (h : ¬r.tag = tag)
    (hin : ikChildren tag k v r.children = none)
    (htl : ikRoots tag k v rs = none) :
    ikRoots tag k v (r :: rs) = none := by
  rw [ikRoots]
  rw [if_neg h]
  split
  · rename_i a b c d heq
    rw [hin] at heq
    cases heq
  · split
    · rename_i a b c heq
      rw [htl] at heq
      cases heq
    · rfl

/-- A failing increaseKey root walk means the target tag is nowhere. -/
theorem ikRoots_none (tag : Tag) (k : Key) (v : Option GoValue) :
    ∀ (roots : List NTree), ikRoots tag k v roots = none →
      forestFind roots tag = none := by
  intro roots
  induction roots using ikRoots.induct tag k v with
  | case1 => intro _; rfl
  | case2 t ts ht =>
    intro h
    rw [ikRoots_found ht] at h
    cases h
  | case3 t ts ht ccs pre post sig hin =>
    intro h
    rw [ikRoots_inChildren ht hin] at h
    cases h
  | case4 t ts ht hnone rs2 pre post htl ih =>
    intro h
    rw [ikRoots_tail_some ht hnone htl] at h
    cases h
  | case5 t ts ht hnone htl ih =>
    intro _
    rw [forestFind_cons_none]
    · exact ih htl
    · rw [treeFind_not_self ht]
      exact ikChildren_none tag k v t.children hnone

/-- Full specification of increaseKey over the root list: the target's triple is
replaced, children of the target below the new key become roots, the surviving
root list matches the old one root for root (tags, positions, and keys away from
the target preserved), and heap order is preserved when the new key is larger. -/
theorem ikRoots_spec (tag : Tag) (k : Key) (v : Option GoValue) :
    ∀ (roots : List NTree), ∀ rs pre post,
    ikRoots tag k v roots = some (rs, pre, post) →
    ∃ cur cuv, forestFind roots tag = some (cur, cuv) ∧
      nodesM rs + nodesM pre + nodesM post + {(tag, cur, cuv)}
        = nodesM roots + {(tag, k, v)} ∧
      List.Forall₂ (fun a b => b.tag = a.tag ∧ b.position = a.position ∧
        (a.tag ≠ tag → b.key = a.key)) roots rs ∧
      (hoForest roots = true → cur < k →
        hoForest rs = true ∧ (∀ x ∈ pre, hoTree x = true) ∧
        (∀ x ∈ post, hoTree x = true)) := by
  intro roots
  induction roots using ikRoots.induct tag k v with
  | case1 =>
    intro rs pre post h
    rw [ikRoots_nil] at h
    cases h
  | case2 t ts ht =>
    intro rs pre post h
    rw [ikRoots_found ht] at h
    cases h
    obtain ⟨hcF, hhoF⟩ := ikFold_spec k false t.marked false t.children
    refine ⟨t.key, t.value, forestFind_cons_some (treeFind_self ht), ?_, ?_, ?_⟩
    · have hstep : nodesM ((NTree.node t.tag k v
            (ikFold k false t.marked false t.children).nMarked
            (t.degree - (ikFold k false t.marked false t.children).lost) t.position
            (ikFold k false t.marked false t.children).kept) :: ts) +
          nodesM (ikFold k false t.marked false t.children).pre +
          nodesM (ikFold k false t.marked false t.children).post
          + ({(tag, t.key, t.value)} : Multiset (Tag × Key × Option GoValue))
          = nodesM ts + ({(tag, k, v)} : Multiset (Tag × Key × Option GoValue))
            + {(tag, t.key, t.value)}
            + (nodesM (ikFold k false t.marked false t.children).kept
              + nodesM (ikFold k false t.marked false t.children).pre
              + nodesM (ikFold k false t.marked false t.children).post) := by
        simp only [nodesM_cons, treeNodes, ht, mcoe_cons, coe_forestNodes]
        abel
      rw [hstep, hcF]
      simp only [nodesM_cons, treeNodes_self, ht, mcoe_cons, coe_forestNodes]
      abel
    · refine List.Forall₂.cons ⟨?_, ?_, ?_⟩
        (List.forall₂_same.2 (fun a _ => ⟨rfl, rfl, fun _ => rfl⟩))
      · simp [NTree.tag]
      · simp [NTree.position]
      · intro hne
        exact absurd ht hne
    · intro hho hk2
      simp only [hoForest, Bool.and_eq_true] at hho
      obtain ⟨h1, h2, h3⟩ := hhoF
        (fun x hx => ((hoAbove_iff _ _).1 (by rw [← hoTree_children]; exact hho.1) x hx).2)
      refine ⟨?_, h2, h3⟩
      simp only [hoForest, Bool.and_eq_true]
      refine ⟨?_, hho.2⟩
      rw [hoTree_node, hoAbove_iff]
      exact fun y hy => h1 y hy
  | case3 t ts ht ccs prei posti sig hin =>
    intro rs pre post h
    rw [ikRoots_inChildren ht hin] at h
    cases h
    obtain ⟨cur, cuv, hfind, hcont, hhoi⟩ := ikChildren_spec tag k v
      t.children ccs prei posti sig hin
    refine ⟨cur, cuv,
      forestFind_cons_some (by rw [treeFind_not_self ht]; exact hfind), ?_, ?_, ?_⟩
    · have hstep : nodesM ((if sig then (t.withChildren ccs).decDegree
            else t.withChildren ccs) :: ts) + nodesM prei + nodesM posti
          + ({(tag, cur, cuv)} : Multiset (Tag × Key × Option GoValue))
          = nodesM ts + ({(t.tag, t.key, t.value)} : Multiset (Tag × Key × Option GoValue))
            + (nodesM ccs + nodesM prei + nodesM posti + {(tag, cur, cuv)}) := by
        cases sig <;>
          simp only [if_true, if_false, nodesM_cons, treeNodes_self, mcoe_cons,
            coe_forestNodes, tag_decDegree, key_decDegree, value_decDegree,
            children_decDegree, tag_withChildren, key_withChildren, value_withChildren,
            children_withChildren, Bool.false_eq_true] <;>
          abel
      rw [hstep, hcont]
      simp only [nodesM_cons, treeNodes_self, mcoe_cons, coe_forestNodes]
      abel
    · refine List.Forall₂.cons ?_
        (List.forall₂_same.2 (fun a _ => ⟨rfl, rfl, fun _ => rfl⟩))
      cases sig
      · exact ⟨by simp [tag_withChildren], by simp [position_withChildren],
          fun _ => by simp [key_withChildren]⟩
      · exact ⟨by simp [tag_decDegree, tag_withChildren],
          by simp [position_decDegree, position_withChildren],
          fun _ => by simp [key_decDegree, key_withChildren]⟩
    · intro hho hk2
      simp only [hoForest, Bool.and_eq_true] at hho
      obtain ⟨hccs, hprei, hposti⟩ :=
        hhoi t.key (by rw [← hoTree_children]; exact hho.1) hk2
      refine ⟨?_, hprei, hposti⟩
      simp only [hoForest, Bool.and_eq_true]
      refine ⟨?_, hho.2⟩
      cases sig
      · simp only [if_false, Bool.false_eq_true, hoTree_withChildren]
        exact hccs
      · simp only [if_true, hoTree_decDegree, hoTree_withChildren]
        exact hccs
  | case4 t ts ht hnone rs2 pret postt htl ih =>
    intro rs pre post h
    rw [ikRoots_tail_some ht hnone htl] at h
    cases h
    obtain ⟨cur, cuv, hfind, hcont, hshape, hhot⟩ := ih rs2 pret postt htl
    have hcfind : treeFind t tag = none := by
      rw [treeFind_not_self ht]
      exact ikChildren_none tag k v t.children hnone
    refine ⟨cur, cuv, by rw [forestFind_cons_none hcfind]; exact hfind, ?_, ?_, ?_⟩
    · have hstep : nodesM (t :: rs2) + nodesM pret + nodesM postt
          + ({(tag, cur, cuv)} : Multiset (Tag × Key × Option GoValue))
          = (treeNodes t : Multiset (Tag × Key × Option GoValue))
            + (nodesM rs2 + nodesM pret + nodesM postt + {(tag, cur, cuv)}) := by
        simp only [nodesM_cons]
        abel
      rw [hstep, hcont]
      simp only [nodesM_cons]
      abel
    · exact List.Forall₂.cons ⟨rfl, rfl, fun _ => rfl⟩ hshape
    · intro hho hk2
      simp only [hoForest, Bool.and_eq_true] at hho
      obtain ⟨hrs2, hpret, hpostt⟩ := hhot hho.2 hk2
      refine ⟨?_, hpret, hpostt⟩
      simp only [hoForest, Bool.and_eq_true]
      exact ⟨hho.1, hrs2⟩
  | case5 t ts ht hnone htl ih =>
    intro rs pre post h
    rw [ikRoots_tail_none ht hnone htl] at h
    cases h

/-- Heap order alone is preserved by the consolidate walk. -/
theorem consLoop_ho (td : TD) (p v : List NTree)
    (h : ∀ t ∈ p ++ v, hoTree t = true) :
    ∀ t ∈ (consLoop td p v).2, hoTree t = true := by
  induction td, p, v using consLoop.induct with
  | case1 td p =>
    intro t ht
    exact h t (by simpa [consLoop] using ht)
  | case2 td p t ts h1 ih =>
    rw [consLoop_step_none td p t ts h1]
    refine ih ?_
    intro z hz
    simp only [List.mem_append, List.mem_cons, List.not_mem_nil, or_false] at hz h
    rcases hz with (hz | rfl) | hz
    · exact h z (by tauto)
    · rw [hoTree_setPos]
      exact h t (by tauto)
    · exact h z (by tauto)
  | case3 td p t ts h1 ih =>
    rw [consLoop_step_self td p t ts h1]
    refine ih ?_
    intro z hz
    simp only [List.mem_append, List.mem_cons, List.not_mem_nil, or_false] at hz h
    rcases hz with (hz | rfl) | hz
    · exact h z (by tauto)
    · exact h z (by tauto)
    · exact h z (by tauto)
  | case4 td p t ts tg h1 hne b x a h2 hk ih =>
    rw [consLoop_step_b1p td p t ts tg b x a h1 hne h2 hk]
    rw [splitFirst_parts h2] at h
    refine ih ?_
    intro z hz
    simp only [List.mem_append, List.mem_cons, List.not_mem_nil, or_false] at hz h
    have hx := h x (by tauto)
    have ht := h t (by tauto)
    rcases hz with (hz | hz) | rfl | hz
    · exact h z (by tauto)
    · exact h z (by tauto)
    · exact hoTree_linkT ht hx hk
    · exact h z (by tauto)
  | case5 td p t ts tg h1 hne b x a h2 hk ih =>
    rw [consLoop_step_b2p td p t ts tg b x a h1 hne h2 hk]
    rw [splitFirst_parts h2] at h
    refine ih ?_
    intro z hz
    simp only [List.mem_append, List.mem_cons, List.not_mem_nil, or_false] at hz h
    have hx := h x (by tauto)
    have ht := h t (by tauto)
    rcases hz with hz | rfl | hz | hz
    · exact h z (by tauto)
    · exact hoTree_linkT hx ht (le_of_not_le hk)
    · exact h z (by tauto)
    · exact h z (by tauto)
  | case6 td p t ts tg h1 hne h2 r1 x r2 h3 hk ih =>
    rw [consLoop_step_b1r td p t ts tg r1 x r2 h1 hne h2 h3 hk]
    rw [splitFirst_parts h3] at h
    refine ih ?_
    intro z hz
    simp only [List.mem_append, List.mem_cons, List.not_mem_nil, or_false] at hz h
    have hx := h x (by tauto)
    have ht := h t (by tauto)
    rcases hz with hz | rfl | hz | hz
    · exact h z (by tauto)
    · exact hoTree_linkT ht hx hk
    · exact h z (by tauto)
    · exact h z (by tauto)
  | case7 td p t ts tg h1 hne h2 r1 x r2 h3 hk ih =>
    rw [consLoop_step_b2r td p t ts tg r1 x r2 h1 hne h2 h3 hk]
    rw [splitFirst_parts h3] at h
    refine ih ?_
    intro z hz
    simp only [List.mem_append, List.mem_cons, List.not_mem_nil, or_false] at hz h
    have hx := h x (by tauto)
    have ht := h t (by tauto)
    rcases hz with (hz | hz) | rfl | hz
    · exact h z (by tauto)
    · exact h z (by tauto)
    · exact hoTree_linkT hx ht (le_of_not_le hk)
    · exact h z (by tauto)
  | case8 td p t ts tg h1 hne h2 h3 ih =>
    rw [consLoop_step_ghost td p t ts tg h1 hne h2 h3]
    exact ih h

theorem td_empty_of_get_none {m : TD} (h : ∀ d, tdGet m d = none) : m = [] := by
  match m with
  | [] => rfl
  | p :: ps =>
    have hp := h p.1
    rw [tdGet] at hp
    simp at hp

theorem forestCount_eq_zero {l : List NTree} (h : forestCount l = 0) : l = [] := by
  match l with
  | [] => rfl
  | t :: ts =>
    rw [forestCount] at h
    cases t with
    | node a b c d e f cs =>
      rw [treeCount] at h
      omega

theorem triple_mem_treeNodes (t : NTree) : (t.tag, t.key, t.value) ∈ treeNodes t := by
  rw [treeNodes_self]
  simp

theorem mem_forestNodes_of_root {l : List NTree} {r : NTree} (h : r ∈ l) :
    (r.tag, r.key, r.value) ∈ forestNodes l := by
  induction l with
  | nil => cases h
  | cons t ts ih =>
    rw [show forestNodes (t :: ts) = treeNodes t ++ forestNodes ts from rfl]
    rcases List.mem_cons.1 h with rfl | h
    · exact List.mem_append_left _ (triple_mem_treeNodes _)
    · exact List.mem_append_right _ (ih h)

theorem forall₂_mem_left {R : NTree → NTree → Prop} :
    ∀ {l l' : List NTree}, List.Forall₂ R l l' → ∀ {a : NTree}, a ∈ l →
      ∃ b ∈ l', R a b := by
  intro l l' hf
  induction hf with
  | nil => intro a ha; cases ha
  | cons hr htl ih =>
    intro a ha
    rcases List.mem_cons.1 ha with rfl | ha
    · exact ⟨_, by simp, hr⟩
    · obtain ⟨b, hb, hrb⟩ := ih ha
      exact ⟨b, List.mem_cons_of_mem _ hb, hrb⟩

theorem isRootTag_iff (l : List NTree) (tg : Tag) :
    isRootTag l tg = true ↔ ∃ r ∈ l, r.tag = tg := by
  simp [isRootTag]

theorem forest_key_above {l : List NTree} (h : hoForest l = true) :
    ∀ q ∈ forestKeys l, ∃ r ∈ l, r.key ≤ q := by
  induction l with
  | nil => intro q hq; simp [forestKeys] at hq
  | cons t ts ih =>
    rw [hoForest, Bool.and_eq_true] at h
    intro q hq
    rw [show forestKeys (t :: ts) = treeKeys t ++ forestKeys ts from rfl] at hq
    rcases List.mem_append.1 hq with hq | hq
    · exact ⟨t, by simp, ho_key_le.1 t h.1 q hq⟩
    · obtain ⟨r, hr, hrq⟩ := ih h.2 q hq
      exact ⟨r, List.mem_cons_of_mem _ hr, hrq⟩

/-- resetMin picks a root whose key bounds every key of a heap ordered forest. -/
theorem resetMin_minOK {l : List NTree} (hho : hoForest l = true) (hne : l ≠ []) :
    ∃ mt, resetMinGo l = some mt ∧
      ∃ r ∈ l, r.tag = mt ∧ ∀ q ∈ forestKeys l, r.key ≤ q := by
  match l, hne with
  | r :: rs, _ =>
    obtain ⟨e, he, h1, h2, h3⟩ := resetMinLoop_spec r rs
    refine ⟨resetMinLoop r rs, rfl, e, he, h1.symm, ?_⟩
    intro q hq
    obtain ⟨z, hz, hzq⟩ := forest_key_above hho q hq
    refine le_trans ?_ hzq
    rcases List.mem_cons.1 hz with rfl | hz
    · exact h2
    · exact h3 z hz

theorem tagsM_eq_map (l : List NTree) :
    ((forestTags l : List Tag) : Multiset Tag)
      = Multiset.map (fun x => x.1) (nodesM l) := by
  rw [tags_eq_map_nodes.2 l]
  simp [nodesM]

theorem keysM_eq_map (l : List NTree) :
    ((forestKeys l : List Key) : Multiset Key)
      = Multiset.map (fun x => x.2.1) (nodesM l) := by
  rw [keys_eq_map_nodes.2 l]
  simp [nodesM]

theorem countM_eq_card (l : List NTree) :
    forestCount l = Multiset.card (nodesM l) := by
  rw [count_eq_length_nodes.2 l]
  simp [nodesM]

theorem tdND_put {m : TD} (hm : ∀ p ∈ m, tdGet m p.1 = some p.2) (d : Nat) (tg : Tag) :
    ∀ p ∈ tdPut m d tg, tdGet (tdPut m d tg) p.1 = some p.2 := by
  intro p hp
  rcases List.mem_cons.1 hp with rfl | hpe
  · exact tdGet_put_self m d tg
  · rw [tdGet_put_ne m d p.1 tg (tdErase_mem_ne hpe)]
    exact hm p (tdErase_subset hpe)

theorem tdND_erase {m : TD} (hm : ∀ p ∈ m, tdGet m p.1 = some p.2) (d : Nat) :
    ∀ p ∈ tdErase m d, tdGet (tdErase m d) p.1 = some p.2 := by
  intro p hp
  rw [tdGet_erase_ne m d p.1 (tdErase_mem_ne hp)]
  exact hm p (tdErase_subset hp)

/-- The scratch map entries stay lookup consistent through the consolidate walk. -/
theorem consLoop_tdND (td : TD) (p v : List NTree)
    (h : ∀ q ∈ td, tdGet td q.1 = some q.2) :
    ∀ q ∈ (consLoop td p v).1, tdGet (consLoop td p v).1 q.1 = some q.2 := by
  induction td, p, v using consLoop.induct with
  | case1 td p =>
    have hstep : consLoop td p [] = (td, p) := by rw [consLoop]
    rw [hstep]
    exact h
  | case2 td p t ts h1 ih =>
    rw [consLoop_step_none td p t ts h1]
    exact ih (tdND_put h t.degree t.tag)
  | case3 td p t ts h1 ih =>
    rw [consLoop_step_self td p t ts h1]
    exact ih h
  | case4 td p t ts tg h1 hne b x a h2 hk ih =>
    rw [consLoop_step_b1p td p t ts tg b x a h1 hne h2 hk]
    exact ih (tdND_erase h t.degree)
  | case5 td p t ts tg h1 hne b x a h2 hk ih =>
    rw [consLoop_step_b2p td p t ts tg b x a h1 hne h2 hk]
    exact ih (tdND_erase h t.degree)
  | case6 td p t ts tg h1 hne h2 r1 x r2 h3 hk ih =>
    rw [consLoop_step_b1r td p t ts tg r1 x r2 h1 hne h2 h3 hk]
    exact ih (tdND_erase h t.degree)
  | case7 td p t ts tg h1 hne h2 r1 x r2 h3 hk ih =>
    rw [consLoop_step_b2r td p t ts tg r1 x r2 h1 hne h2 h3 hk]
    exact ih (tdND_erase h t.degree)
  | case8 td p t ts tg h1 hne h2 h3 ih =>
    rw [consLoop_step_ghost td p t ts tg h1 hne h2 h3]
    exact ih (tdND_erase h t.degree)

theorem newFibHeap_wf : WF newFibHeap := by
  refine ⟨rfl, ?_, rfl, rfl, ?_, fun _ => rfl, ?_⟩
  · simp [newFibHeap, forestTags]
  · intro mt hmt
    simp [newFibHeap] at hmt
  · intro p hp
    simp [newFibHeap] at hp

theorem insertGo_wf {h : Heap} (hwf : WF h) (tag : Tag) (key : Key)
    (value : Option GoValue) : WF (insertGo h tag key value).1 := by
  rw [insertGo]
  by_cases hb : key = ⊥
  · rw [if_pos hb]
    exact hwf
  rw [if_neg hb]
  by_cases hc : h.index.contains tag = true
  · rw [if_pos hc]
    exact hwf
  rw [if_neg hc]
  have hfresh : tag ∉ forestTags h.roots := by
    intro hmem
    refine hc ?_
    have h1 : tag ∈ ((h.index : List Tag) : Multiset Tag) := by
      rw [hwf.idx]
      exact Multiset.mem_coe.2 hmem
    exact List.elem_iff.2 (Multiset.mem_coe.1 h1)
  have htags : forestTags (h.roots ++ [NTree.node tag key value false 0 0 []])
      = forestTags h.roots ++ [tag] := by
    rw [forestTags_append]
    simp [forestTags, treeTags]
  have hkeys : forestKeys (h.roots ++ [NTree.node tag key value false 0 0 []])
      = forestKeys h.roots ++ [key] := by
    rw [forestKeys_append]
    simp [forestKeys, treeKeys]
  refine ⟨?_, ?_, ?_, ?_, ?_, ?_, ?_⟩
  · show hoForest (h.roots ++ [NTree.node tag key value false 0 0 []]) = true
    rw [hoForest_append, Bool.and_eq_true]
    exact ⟨hwf.ho, by simp [hoForest, hoTree_node, hoAbove]⟩
  · show (forestTags (h.roots ++ [NTree.node tag key value false 0 0 []])).Nodup
    rw [htags]
    rw [List.nodup_append]
    refine ⟨hwf.nd, by simp, ?_⟩
    intro a ha hb2
    simp at hb2
    subst hb2
    exact hfresh ha
  · show ((h.index ++ [tag] : List Tag) : Multiset Tag) = _
    rw [htags]
    rw [← Multiset.coe_add, ← Multiset.coe_add, hwf.idx]
  · show h.num + 1 = forestCount (h.roots ++ [NTree.node tag key value false 0 0 []])
    rw [forestCount_append, hwf.cnt]
    simp [forestCount, treeCount]
  · intro mt hmt
    simp only at hmt
    rw [hkeys]
    split at hmt
    · rename_i hold
      cases hmt
      have hnil := hwf.minNone hold
      refine ⟨NTree.node tag key value false 0 0 [], by simp, by simp [NTree.tag], ?_⟩
      intro q hq
      rw [hnil] at hq
      simp [forestKeys] at hq
      subst hq
      simp [NTree.key]
    · rename_i mt0 hold
      obtain ⟨r, hr, hrt, hrmin⟩ := hwf.minOK mt0 hold
      have hfkr : findKey h.roots mt0 = some r.key := by
        rw [findKey]
        rw [mem_find_eq_some.2 h.roots mt0 r.key r.value hwf.nd
          (by rw [← hrt]; exact mem_forestNodes_of_root hr)]
        rfl
      split at hmt
      · rename_i mk hfk
        rw [hfkr] at hfk
        cases hfk
        split at hmt
        · rename_i hgt
          cases hmt
          refine ⟨NTree.node tag key value false 0 0 [], by simp, by simp [NTree.tag], ?_⟩
          intro q hq
          simp only [NTree.key]
          rcases List.mem_append.1 hq with hq | hq
          · exact le_trans (le_of_lt hgt) (hrmin q hq)
          · simp at hq
            subst hq
            exact le_refl _
        · rename_i hgt
          cases hmt
          refine ⟨r, List.mem_append_left _ hr, hrt, ?_⟩
          intro q hq
          rcases List.mem_append.1 hq with hq | hq
          · exact hrmin q hq
          · simp at hq
            subst hq
            exact le_of_not_lt hgt
      · rename_i hfk
        rw [hfkr] at hfk
        cases hfk
  · intro hmt
    simp only at hmt
    exfalso
    split at hmt
    · cases hmt
    · split at hmt
      · split at hmt
        · cases hmt
        · cases hmt
      · cases hmt
  · intro p hp
    obtain ⟨r, hr, hrp⟩ := hwf.tdOK p hp
    exact ⟨r, List.mem_append_left _ hr, hrp⟩

theorem InsertGo_wf {h : Heap} (hwf : WF h) (tag : Tag) (key : Key) :
    WF (InsertGo h tag key).1 := insertGo_wf hwf tag key none

theorem InsertValueGo_wf {h : Heap} (hwf : WF h) (v : Option GoValue) :
    WF (InsertValueGo h v).1 := by
  match v with
  | none => exact hwf
  | some v => exact insertGo_wf hwf v.tag v.key (some v)

theorem treeTags_self (t : NTree) : treeTags t = t.tag :: forestTags t.children := by
  cases t
  simp [treeTags, NTree.tag, NTree.children]

theorem treeKeys_self (t : NTree) : treeKeys t = t.key :: forestKeys t.children := by
  cases t
  simp [treeKeys, NTree.key, NTree.children]

theorem rootTags_nodup {l : List NTree} (hnd : (forestTags l).Nodup) :
    (l.map NTree.tag).Nodup := by
  rw [← Multiset.coe_nodup]
  exact Multiset.nodup_of_le (rootTags_le_forestTags l) (Multiset.coe_nodup.2 hnd)

/-- On a well formed non-empty heap the min pointer dereferences to a root of
globally minimal key, and the root list splits around it. -/
theorem minSplit_of_wf {h : Heap} (hwf : WF h) (hne : h.num ≠ 0) :
    ∃ mt b x a, h.minTag = some mt ∧ splitFirst h.roots mt = some (b, x, a) ∧
      h.roots = b ++ x :: a ∧ x.tag = mt ∧
      ∀ q ∈ forestKeys h.roots, x.key ≤ q := by
  match hold : h.minTag with
  | none =>
    exfalso
    have hnil := hwf.minNone hold
    have := hwf.cnt
    rw [hnil] at this
    exact hne (by simpa [forestCount] using this)
  | some mt =>
    obtain ⟨r, hr, hrt, hrmin⟩ := hwf.minOK mt hold
    match hsf : splitFirst h.roots mt with
    | none =>
      exfalso
      refine splitFirst_none_iff.1 hsf ?_
      rw [← hrt]
      exact List.mem_map_of_mem NTree.tag hr
    | some (b, x, a) =>
      have hparts := splitFirst_parts hsf
      have hxt := splitFirst_tag hsf
      have hx_mem : x ∈ h.roots := by
        rw [hparts]
        simp
      have hxr : x = r := ndInj (rootTags_nodup hwf.nd) hx_mem hr (by rw [hxt, hrt])
      refine ⟨mt, b, x, a, rfl, hsf, hparts, hxt, ?_⟩
      rw [hxr]
      exact hrmin

/-- Removing the split root and promoting its children keeps every other node. -/
theorem split_content {roots b a : List NTree} {x : NTree}
    (hparts : roots = b ++ x :: a) :
    nodesM (b ++ a ++ x.children) + {(x.tag, x.key, x.value)} = nodesM roots := by
  rw [hparts]
  have h1 : nodesM (b ++ x :: a) = nodesM b + ((treeNodes x :
      Multiset (Tag × Key × Option GoValue)) + nodesM a) := by
    rw [nodesM_append, nodesM_cons]
  rw [h1, nodesM_append, nodesM_append]
  rw [show (treeNodes x : Multiset (Tag × Key × Option GoValue))
    = {(x.tag, x.key, x.value)} + nodesM x.children from by
      rw [treeNodes_self, mcoe_cons, coe_forestNodes]]
  abel

theorem invC_empty (l : List NTree) : invC [] l := by
  match l with
  | [] => trivial
  | z :: zs =>
    refine ⟨Or.inr ?_, [], zs, by simp, by simp, ?_⟩
    · intro d tg hget
      rw [tdGet_nil] at hget
      cases hget
    · intro w _ d tg hget
      rw [tdGet_nil] at hget
      cases hget

theorem hoForest_of_hoAbove {k : Key} {l : List NTree} (h : hoAbove k l = true) :
    hoForest l = true := by
  rw [hoForest_iff]
  rw [hoAbove_iff] at h
  exact fun t ht => (h t ht).2

theorem split_tags {roots b a : List NTree} {x : NTree}
    (hparts : roots = b ++ x :: a) :
    ((forestTags (b ++ a ++ x.children) : List Tag) : Multiset Tag) + {x.tag}
      = ((forestTags roots : List Tag) : Multiset Tag) := by
  have hmap := congrArg (Multiset.map (fun y : Tag × Key × Option GoValue => y.1))
    (split_content hparts)
  simpa [Multiset.map_add, tagsM_eq_map] using hmap

theorem split_keys {roots b a : List NTree} {x : NTree}
    (hparts : roots = b ++ x :: a) :
    ((forestKeys (b ++ a ++ x.children) : List Key) : Multiset Key) + {x.key}
      = ((forestKeys roots : List Key) : Multiset Key) := by
  have hmap := congrArg (Multiset.map (fun y : Tag × Key × Option GoValue => y.2.1))
    (split_content hparts)
  simpa [Multiset.map_add, keysM_eq_map] using hmap

theorem split_card {roots b a : List NTree} {x : NTree}
    (hparts : roots = b ++ x :: a) :
    forestCount (b ++ a ++ x.children) + 1 = forestCount roots := by
  have hmap := congrArg Multiset.card (split_content hparts)
  simpa [Multiset.card_add, countM_eq_card] using hmap

/-- Specification of extractMin on a well formed non-empty heap: it reports the
cached minimum (a globally minimal key), removes exactly that node, keeps the
heap well formed, and after a consolidation (heap still non-empty) the root
degrees are pairwise distinct. -/
theorem extractMin_spec {h : Heap} (hwf : WF h) (hne : h.num ≠ 0) :
    ∃ mt mk, (extractMinGo h).2 = some (mt, mk) ∧
      WF (extractMinGo h).1 ∧
      (∀ q ∈ forestKeys h.roots, mk ≤ q) ∧
      ((forestKeys (extractMinGo h).1.roots : List Key) : Multiset Key) + {mk}
        = ((forestKeys h.roots : List Key) : Multiset Key) ∧
      (extractMinGo h).1.num = h.num - 1 ∧
      ((extractMinGo h).1.num ≠ 0 →
        ((extractMinGo h).1.roots.map NTree.degree).Nodup) := by
  obtain ⟨mt, b, x, a, hold, hsf, hparts, hxt, hxmin⟩ := minSplit_of_wf hwf hne
  have htags := split_tags hparts
  have hkeys := split_keys hparts
  have hcard := split_card hparts
  have hhos : hoForest b = true ∧ hoTree x = true ∧ hoForest a = true := by
    have := hwf.ho
    rw [hparts] at this
    simpa [hoForest_append, hoForest, Bool.and_eq_true] using this
  have hho1 : hoForest (b ++ a ++ x.children) = true := by
    simp only [hoForest_append, Bool.and_eq_true]
    exact ⟨⟨hhos.1, hhos.2.2⟩,
      hoForest_of_hoAbove (by rw [← hoTree_children]; exact hhos.2.1)⟩
  have hnd1 : (forestTags (b ++ a ++ x.children)).Nodup := by
    rw [← Multiset.coe_nodup]
    refine Multiset.nodup_of_le ?_ (Multiset.coe_nodup.2 hwf.nd)
    rw [← htags]
    exact Multiset.le_add_right _ _
  have hidx1 : ((h.index.erase mt : List Tag) : Multiset Tag)
      = ((forestTags (b ++ a ++ x.children) : List Tag) : Multiset Tag) := by
    rw [← Multiset.coe_erase, hwf.idx, ← htags, ← hxt]
    rw [add_comm, Multiset.singleton_add, Multiset.erase_cons_head]
  have htd1 : ∀ p ∈ tdErase h.td x.position,
      ∃ r ∈ b ++ a ++ x.children, r.position = p.1 := by
    intro p hp
    obtain ⟨r, hr, hrp⟩ := hwf.tdOK p (tdErase_subset hp)
    rw [hparts] at hr
    rcases List.mem_append.1 hr with hrb | hrxa
    · exact ⟨r, by simp [hrb], hrp⟩
    · rcases List.mem_cons.1 hrxa with rfl | hra
      · exact absurd hrp.symm (by simpa using tdErase_mem_ne hp)
      · exact ⟨r, by simp [hra], hrp⟩
  by_cases h0 : h.num - 1 = 0
  · have hE : extractMinGo h
        = ({ roots := b ++ a ++ x.children, index := h.index.erase mt,
             td := tdErase h.td x.position, minTag := none,
             num := h.num - 1 }, some (mt, x.key)) := by
      simp only [extractMinGo, hold, hsf, if_pos h0]
    have hnum1 : h.num = 1 := by omega
    have hcnt0 : forestCount (b ++ a ++ x.children) = 0 := by
      have := hwf.cnt
      rw [hnum1] at this
      omega
    have hnil : b ++ a ++ x.children = [] := forestCount_eq_zero hcnt0
    refine ⟨mt, x.key, by rw [hE], ?_, hxmin, ?_, by rw [hE], ?_⟩
    · rw [hE]
      refine ⟨?_, ?_, ?_, ?_, ?_, ?_, ?_⟩
      · show hoForest (b ++ a ++ x.children) = true
        exact hho1
      · show (forestTags (b ++ a ++ x.children)).Nodup
        exact hnd1
      · exact hidx1
      · show h.num - 1 = forestCount (b ++ a ++ x.children)
        omega
      · intro mt' hmt'
        cases hmt'
      · intro _
        exact hnil
      · exact htd1
    · rw [hE]
      exact hkeys
    · rw [hE]
      intro hcon
      exact absurd h0 (by simpa using hcon)
  · have hE : extractMinGo h
        = ({ roots := (consolidateGo (tdErase h.td x.position) (b ++ a ++ x.children)).2,
             index := h.index.erase mt,
             td := (consolidateGo (tdErase h.td x.position) (b ++ a ++ x.children)).1,
             minTag := resetMinGo
               (consolidateGo (tdErase h.td x.position) (b ++ a ++ x.children)).2,
             num := h.num - 1 }, some (mt, x.key)) := by
      simp only [extractMinGo, hold, hsf, if_neg h0]
    have hclear : clearLoop (tdErase h.td x.position) (b ++ a ++ x.children) = [] :=
      td_empty_of_get_none (clearLoop_get_none _ _ htd1)
    have hcons : consolidateGo (tdErase h.td x.position) (b ++ a ++ x.children)
        = consLoop [] [] (b ++ a ++ x.children) := by
      rw [consolidateGo, hclear]
    have hcont2 : nodesM (consLoop [] [] (b ++ a ++ x.children)).2
        = nodesM (b ++ a ++ x.children) := by
      rw [consLoop_content]
      simp [nodesM_nil]
    have hinv := consLoop_inv [] [] (b ++ a ++ x.children)
      (by intro r hr; cases hr)
      (by intro d tg hget; rw [tdGet_nil] at hget; cases hget)
      (invC_empty _)
      (by simpa using Multiset.coe_nodup.2 hnd1)
    have htdnd := consLoop_tdND [] [] (b ++ a ++ x.children)
      (by intro q hq; cases hq)
    have hho2 : ∀ t ∈ (consLoop [] [] (b ++ a ++ x.children)).2, hoTree t = true := by
      refine consLoop_ho [] [] _ ?_
      intro t ht
      rw [List.nil_append] at ht
      exact (hoForest_iff _).1 hho1 t ht
    have htags2 : ((forestTags (consLoop [] [] (b ++ a ++ x.children)).2 : List Tag) :
        Multiset Tag) = ((forestTags (b ++ a ++ x.children) : List Tag) : Multiset Tag) := by
      rw [tagsM_eq_map, tagsM_eq_map, hcont2]
    have hkeys2 : ((forestKeys (consLoop [] [] (b ++ a ++ x.children)).2 : List Key) :
        Multiset Key) = ((forestKeys (b ++ a ++ x.children) : List Key) : Multiset Key) := by
      rw [keysM_eq_map, keysM_eq_map, hcont2]
    have hcnt2 : forestCount (consLoop [] [] (b ++ a ++ x.children)).2
        = forestCount (b ++ a ++ x.children) := by
      rw [countM_eq_card, countM_eq_card, hcont2]
    have hnd2 : (forestTags (consLoop [] [] (b ++ a ++ x.children)).2).Nodup := by
      rw [← Multiset.coe_nodup, htags2, Multiset.coe_nodup]
      exact hnd1
    have hne2 : (consLoop [] [] (b ++ a ++ x.children)).2 ≠ [] := by
      intro hnil2
      have := hcnt2
      rw [hnil2] at this
      rw [show forestCount ([] : List NTree) = 0 from rfl] at this
      have hc := hwf.cnt
      have := hcard
      omega
    obtain ⟨mt2, hmt2, r2, hr2, hrt2, hrmin2⟩ :=
      resetMin_minOK ((hoForest_iff _).2 hho2) hne2
    refine ⟨mt, x.key, by rw [hE], ?_, hxmin, ?_, by rw [hE], ?_⟩
    · rw [hE]
      refine ⟨?_, ?_, ?_, ?_, ?_, ?_, ?_⟩
      · show hoForest (consolidateGo _ _).2 = true
        rw [hcons]
        exact (hoForest_iff _).2 hho2
      · show (forestTags (consolidateGo _ _).2).Nodup
        rw [hcons]
        exact hnd2
      · show ((h.index.erase mt : List Tag) : Multiset Tag) = _
        rw [hcons, htags2]
        exact hidx1
      · show h.num - 1 = forestCount (consolidateGo _ _).2
        rw [hcons, hcnt2]
        have := hwf.cnt
        omega
      · intro mt' hmt'
        rw [hcons] at hmt' ⊢
        rw [hmt2] at hmt'
        cases hmt'
        exact ⟨r2, hr2, hrt2, hrmin2⟩
      · intro hmt'
        rw [hcons, hmt2] at hmt'
        cases hmt'
      · intro p hp
        rw [hcons] at hp ⊢
        have hget := htdnd p hp
        obtain ⟨z, hz, hzt, hzd⟩ := hinv.2 p.1 p.2 hget
        have hbz := hinv.1 z hz
        exact ⟨z, hz, by rw [hbz.2, hzd]⟩
    · rw [hE]
      show ((forestKeys (consolidateGo _ _).2 : List Key) : Multiset Key) + {x.key} = _
      rw [hcons, hkeys2]
      exact hkeys
    · intro _
      rw [hE]
      show ((consolidateGo _ _).2.map NTree.degree).Nodup
      rw [hcons]
      have hrtnd2 : ((consLoop [] [] (b ++ a ++ x.children)).2.map NTree.tag).Nodup :=
        rootTags_nodup hnd2
      refine List.Nodup.map_on ?_ (hrtnd2.of_map NTree.tag)
      intro y hy z hz hdeq
      have hby := hinv.1 y hy
      have hbz := hinv.1 z hz
      have : some y.tag = some z.tag := by
        rw [← hby.1, ← hbz.1, hdeq]
      exact ndInj hrtnd2 hy hz (Option.some.inj this)

theorem ExtractMinGo_wf {h : Heap} (hwf : WF h) : WF (ExtractMinGo h).1 := by
  rw [ExtractMinGo]
  by_cases h0 : h.num = 0
  · rw [if_pos h0]
    exact hwf
  · rw [if_neg h0]
    obtain ⟨mt, mk, _, hwf1, _⟩ := extractMin_spec hwf h0
    exact hwf1

theorem ExtractMinValueGo_wf {h : Heap} (hwf : WF h) : WF (ExtractMinValueGo h).1 := by
  rw [ExtractMinValueGo]
  by_cases h0 : h.num = 0
  · rw [if_pos h0]
    exact hwf
  · rw [if_neg h0]
    match hold : h.minTag with
    | none => exact hwf
    | some mt =>
      obtain ⟨mt', mk, _, hwf1, _⟩ := extractMin_spec hwf h0
      exact hwf1

/-- With pairwise distinct tags, a node triple is determined by its tag. -/
theorem nodes_inj {l : List NTree} (hnd : (forestTags l).Nodup)
    {p q : Tag × Key × Option GoValue} (hp : p ∈ forestNodes l)
    (hq : q ∈ forestNodes l) (h1 : p.1 = q.1) : p = q := by
  have hmap : ((forestNodes l).map (fun y => y.1)).Nodup := by
    have := tags_eq_map_nodes.2 l
    rw [this] at hnd
    exact hnd
  exact List.inj_on_of_nodup_map hmap hp hq h1

/-- The fast error paths of decreaseKey leave the heap untouched; a successful
call rewrites exactly the target node to (tag, k, v) and keeps the heap well
formed. -/
theorem decreaseKeyInternal_spec {h : Heap} (hwf : WF h) (tag : Tag)
    (v : Option GoValue) (k : Key) :
    WF (decreaseKeyInternal h tag v k).1 ∧
    ((decreaseKeyInternal h tag v k).2 = none →
      forestFind (decreaseKeyInternal h tag v k).1.roots tag = some (k, v) ∧
      (decreaseKeyInternal h tag v k).1.num = h.num) := by
  match hf : findKey h.roots tag with
  | none =>
    have hE : decreaseKeyInternal h tag v k = (h, some Err.notFound) := by
      simp only [decreaseKeyInternal, hf]
    rw [hE]
    exact ⟨hwf, by intro hc; cases hc⟩
  | some cur =>
    by_cases hge : k ≥ cur
    · have hE : decreaseKeyInternal h tag v k = (h, some Err.keyNotSmaller) := by
        simp only [decreaseKeyInternal, hf, if_pos hge]
      rw [hE]
      exact ⟨hwf, by intro hc; cases hc⟩
    · have hklt : k < cur := lt_of_not_ge hge
      obtain ⟨cuv0, hff⟩ : ∃ cuv0, forestFind h.roots tag = some (cur, cuv0) := by
        rw [findKey] at hf
        match hffm : forestFind h.roots tag with
        | none => rw [hffm] at hf; cases hf
        | some (ck, cv) =>
          rw [hffm] at hf
          simp at hf
          exact ⟨cv, by rw [hf]⟩
      match hdk : dkRoots tag k v h.roots with
      | none =>
        exfalso
        have := dkRoots_none tag k v h.roots hdk
        rw [this] at hff
        cases hff
      | some (rs, cuts) =>
        obtain ⟨cur', cuv', hfind', hcont, hshape, hhoimp⟩ :=
          dkRoots_spec tag k v h.roots rs cuts hdk
        rw [hff] at hfind'
        have hcurq := Option.some.inj hfind'
        have hcur : cur' = cur := (congrArg Prod.fst hcurq).symm
        have hcuv : cuv' = cuv0 := (congrArg Prod.snd hcurq).symm
        rw [hcur, hcuv] at hcont
        rw [hcur] at hhoimp
        obtain ⟨hhors, hhocuts, hdisj⟩ := hhoimp hwf.ho hklt
        have hforest : dkForest h.roots tag k v = rs ++ cuts := by
          rw [dkForest, hdk]
        have hE : decreaseKeyInternal h tag v k
            = ({ roots := rs ++ cuts, index := h.index, td := h.td,
                 minTag := if isRootTag (rs ++ cuts) tag then
                     match h.minTag with
                     | some mt =>
                       match findKey (rs ++ cuts) mt with
                       | some mk => if k < mk then some tag else h.minTag
                       | none => h.minTag
                     | none => h.minTag
                   else h.minTag,
                 num := h.num }, none) := by
          simp only [decreaseKeyInternal, hf, if_neg hge, hforest]
        have hcontm : nodesM (rs ++ cuts) + {(tag, cur, cuv0)}
            = nodesM h.roots + {(tag, k, v)} := by
          rw [nodesM_append]
          exact hcont
        have htagsm : ((forestTags (rs ++ cuts) : List Tag) : Multiset Tag)
            = ((forestTags h.roots : List Tag) : Multiset Tag) := by
          have hmap := congrArg (Multiset.map (fun y : Tag × Key × Option GoValue => y.1))
            hcontm
          simp only [Multiset.map_add, Multiset.map_singleton] at hmap
          rw [← tagsM_eq_map, ← tagsM_eq_map] at hmap
          exact add_right_cancel hmap
        have hkeysm : ((forestKeys (rs ++ cuts) : List Key) : Multiset Key) + {cur}
            = ((forestKeys h.roots : List Key) : Multiset Key) + {k} := by
          have hmap := congrArg (Multiset.map (fun y : Tag × Key × Option GoValue => y.2.1))
            hcontm
          simp only [Multiset.map_add, Multiset.map_singleton] at hmap
          rw [← keysM_eq_map, ← keysM_eq_map] at hmap
          exact hmap
        have hcntm : forestCount (rs ++ cuts) = forestCount h.roots := by
          have hmap := congrArg Multiset.card hcontm
          simp only [Multiset.card_add, Multiset.card_singleton] at hmap
          rw [← countM_eq_card, ← countM_eq_card] at hmap
          omega
        have hnd1 : (forestTags (rs ++ cuts)).Nodup := by
          rw [← Multiset.coe_nodup, htagsm, Multiset.coe_nodup]
          exact hwf.nd
        have hho1 : hoForest (rs ++ cuts) = true := by
          rw [hoForest_append, Bool.and_eq_true]
          exact ⟨hhors, (hoForest_iff _).2 hhocuts⟩
        have hmemk : (tag, k, v) ∈ forestNodes (rs ++ cuts) := by
          have h1 : (tag, k, v) ∈ nodesM h.roots + {(tag, k, v)} :=
            Multiset.mem_add.2 (Or.inr (Multiset.mem_singleton.2 rfl))
          rw [← hcontm] at h1
          rcases Multiset.mem_add.1 h1 with h2 | h2
          · exact Multiset.mem_coe.1 h2
          · exfalso
            have := Multiset.mem_singleton.1 h2
            have hkc : k = cur := congrArg (fun y : Tag × Key × Option GoValue => y.2.1) this
            exact absurd hkc (ne_of_lt hklt)
        have hfind1 : forestFind (rs ++ cuts) tag = some (k, v) :=
          mem_find_eq_some.2 _ tag k v hnd1 hmemk
        have hkmem : ∀ q ∈ forestKeys (rs ++ cuts),
            q ∈ forestKeys h.roots ∨ q = k := by
          intro q hq
          have h1 : q ∈ ((forestKeys (rs ++ cuts) : List Key) : Multiset Key) + {cur} :=
            Multiset.mem_add.2 (Or.inl (Multiset.mem_coe.2 hq))
          rw [hkeysm] at h1
          rcases Multiset.mem_add.1 h1 with h2 | h2
          · exact Or.inl (Multiset.mem_coe.1 h2)
          · exact Or.inr (Multiset.mem_singleton.1 h2)
        rw [hE]
        refine ⟨⟨hho1, hnd1, ?_, ?_, ?_, ?_, ?_⟩, ?_⟩
        · show ((h.index : List Tag) : Multiset Tag) = _
          rw [hwf.idx, htagsm]
        · show h.num = forestCount (rs ++ cuts)
          rw [hcntm]
          exact hwf.cnt
        · -- minOK
          intro mt' hmt'
          simp only at hmt'
          match hold : h.minTag with
          | none =>
            exfalso
            have hnil := hwf.minNone hold
            rw [hnil] at hff
            cases hff
          | some mt0 =>
            obtain ⟨m, hm, hmt0, hmmin⟩ := hwf.minOK mt0 hold
            simp only [hold] at hmt'
            by_cases hroot : isRootTag (rs ++ cuts) tag = true
            · rw [if_pos hroot] at hmt'
              obtain ⟨broot, hbroot, hbtag⟩ := (isRootTag_iff _ _).1 hroot
              have hbtriple : (broot.tag, broot.key, broot.value)
                  ∈ forestNodes (rs ++ cuts) := mem_forestNodes_of_root hbroot
              have hbeq := nodes_inj hnd1 hbtriple hmemk (by rw [hbtag])
              have hbkey : broot.key = k :=
                congrArg (fun y : Tag × Key × Option GoValue => y.2.1) hbeq
              by_cases hmt0tag : mt0 = tag
              · -- the old min is the decreased node itself
                have hmk1 : findKey (rs ++ cuts) mt0 = some k := by
                  rw [hmt0tag, findKey, hfind1]
                  rfl
                simp only [hmk1] at hmt'
                rw [if_neg (lt_irrefl k)] at hmt'
                have hmm := Option.some.inj hmt'
                have hmcur : m.key = cur := by
                  have hmtriple : (m.tag, m.key, m.value) ∈ forestNodes h.roots :=
                    mem_forestNodes_of_root hm
                  have htag2 : (tag, cur, cuv0) ∈ forestNodes h.roots :=
                    find_eq_some_mem.2 h.roots tag (cur, cuv0) hff
                  have hxx := nodes_inj hwf.nd hmtriple htag2 (by rw [hmt0, hmt0tag])
                  exact congrArg (fun y : Tag × Key × Option GoValue => y.2.1) hxx
                refine ⟨broot, hbroot, by rw [hbtag, ← hmt0tag]; exact hmm, ?_⟩
                intro q hq
                rw [hbkey]
                rcases hkmem q hq with hq2 | rfl
                · have hq3 := hmmin q hq2
                  rw [hmcur] at hq3
                  exact le_trans (le_of_lt hklt) hq3
                · exact le_refl _
              · -- the old min is elsewhere: its key is preserved
                obtain ⟨b0, hb0, hb0t, hb0p, hb0k⟩ :
                    ∃ b0 ∈ rs, b0.tag = m.tag ∧ b0.position = m.position
                      ∧ b0.key = m.key := by
                  obtain ⟨b0, hb0, hrel⟩ := forall₂_mem_left hshape hm
                  exact ⟨b0, hb0, hrel.1, hrel.2.1,
                    hrel.2.2 (by rw [hmt0]; exact hmt0tag)⟩
                have hmk2 : findKey (rs ++ cuts) mt0 = some m.key := by
                  rw [findKey]
                  rw [mem_find_eq_some.2 _ mt0 b0.key b0.value hnd1
                    (by rw [← hmt0, ← hb0t]
                        exact mem_forestNodes_of_root (List.mem_append_left _ hb0))]
                  rw [hb0k]
                  rfl
                simp only [hmk2] at hmt'
                by_cases hkmk : k < m.key
                · rw [if_pos hkmk] at hmt'
                  cases hmt'
                  refine ⟨broot, hbroot, hbtag, ?_⟩
                  intro q hq
                  rw [hbkey]
                  rcases hkmem q hq with hq2 | rfl
                  · exact le_trans (le_of_lt hkmk) (hmmin q hq2)
                  · exact le_refl _
                · rw [if_neg hkmk] at hmt'
                  cases hmt'
                  refine ⟨b0, List.mem_append_left _ hb0, by rw [hb0t, hmt0], ?_⟩
                  intro q hq
                  rw [hb0k]
                  rcases hkmem q hq with hq2 | rfl
                  · exact hmmin q hq2
                  · exact le_of_not_lt hkmk
            · rw [if_neg hroot] at hmt'
              cases hmt'
              have hmt0tag : m.tag ≠ tag := by
                intro heq
                obtain ⟨b0, hb0, hrel⟩ := forall₂_mem_left hshape hm
                refine hroot ((isRootTag_iff _ _).2 ⟨b0, List.mem_append_left _ hb0, ?_⟩)
                rw [hrel.1, heq]
              obtain ⟨b0, hb0, hrel⟩ := forall₂_mem_left hshape hm
              have hb0k := hrel.2.2 hmt0tag
              refine ⟨b0, List.mem_append_left _ hb0, by rw [hrel.1, hmt0], ?_⟩
              intro q hq
              rw [hb0k]
              rcases hkmem q hq with hq2 | rfl
              · exact hmmin q hq2
              · rcases hdisj with ⟨xx, hxx, hxxt, _⟩ | ⟨bb, hbb, hbbt, _⟩ | ⟨q0, hq0, hq0k⟩
                · exact absurd ((isRootTag_iff _ _).2
                    ⟨xx, List.mem_append_right _ hxx, hxxt⟩) hroot
                · exact absurd ((isRootTag_iff _ _).2
                    ⟨bb, List.mem_append_left _ hbb, hbbt⟩) hroot
                · exact le_trans (hmmin q0 hq0) hq0k
        · -- minNone
          intro hmn
          simp only at hmn
          exfalso
          match hold : h.minTag with
          | none =>
            have hnil := hwf.minNone hold
            rw [hnil] at hff
            cases hff
          | some mt0 =>
            simp only [hold] at hmn
            by_cases hroot : isRootTag (rs ++ cuts) tag = true
            · rw [if_pos hroot] at hmn
              match hmk : findKey (rs ++ cuts) mt0 with
              | some mk =>
                simp only [hmk] at hmn
                by_cases hkmk : k < mk
                · rw [if_pos hkmk] at hmn
                  cases hmn
                · rw [if_neg hkmk] at hmn
                  cases hmn
              | none =>
                simp only [hmk] at hmn
                cases hmn
            · rw [if_neg hroot] at hmn
              cases hmn
        · -- tdOK
          intro p hp
          obtain ⟨r, hr, hrp⟩ := hwf.tdOK p hp
          obtain ⟨b0, hb0, hrel⟩ := forall₂_mem_left hshape hr
          exact ⟨b0, List.mem_append_left _ hb0, by rw [hrel.2.1, hrp]⟩
        · intro _
          exact ⟨hfind1, rfl⟩

/-- The fast error paths of increaseKey leave the heap untouched; a successful
call rewrites exactly the target node, cuts its too-small children to the root
list, and keeps the heap well formed. -/
theorem increaseKeyInternal_spec {h : Heap} (hwf : WF h) (tag : Tag)
    (v : Option GoValue) (k : Key) :
    WF (increaseKeyInternal h tag v k).1 := by
  match hf : findKey h.roots tag with
  | none =>
    have hE : increaseKeyInternal h tag v k = (h, some Err.notFound) := by
      simp only [increaseKeyInternal, hf]
    rw [hE]
    exact hwf
  | some cur =>
    by_cases hge : k ≤ cur
    · have hE : increaseKeyInternal h tag v k = (h, some Err.keyNotLarger) := by
        simp only [increaseKeyInternal, hf, if_pos hge]
      rw [hE]
      exact hwf
    · have hklt : cur < k := lt_of_not_ge hge
      obtain ⟨cuv0, hff⟩ : ∃ cuv0, forestFind h.roots tag = some (cur, cuv0) := by
        rw [findKey] at hf
        match hffm : forestFind h.roots tag with
        | none => rw [hffm] at hf; cases hf
        | some (ck, cv) =>
          rw [hffm] at hf
          simp at hf
          exact ⟨cv, by rw [hf]⟩
      match hik : ikRoots tag k v h.roots with
      | none =>
        exfalso
        have := ikRoots_none tag k v h.roots hik
        rw [this] at hff
        cases hff
      | some (rs, pre, post) =>
        obtain ⟨cur', cuv', hfind', hcont, hshape, hhoimp⟩ :=
          ikRoots_spec tag k v h.roots rs pre post hik
        rw [hff] at hfind'
        have hcurq := Option.some.inj hfind'
        have hcur : cur' = cur := (congrArg Prod.fst hcurq).symm
        have hcuv : cuv' = cuv0 := (congrArg Prod.snd hcurq).symm
        rw [hcur, hcuv] at hcont
        rw [hcur] at hhoimp
        obtain ⟨hhors, hhopre, hhopost⟩ := hhoimp hwf.ho hklt
        have hforest : ikForest h.roots tag k v = rs ++ pre ++ post := by
          rw [ikForest, hik]
        have hE : increaseKeyInternal h tag v k
            = ({ roots := rs ++ pre ++ post, index := h.index, td := h.td,
                 minTag := if h.minTag = some tag then resetMinGo (rs ++ pre ++ post)
                   else h.minTag,
                 num := h.num }, none) := by
          simp only [increaseKeyInternal, hf, if_neg hge, hforest]
        have hcontm : nodesM (rs ++ pre ++ post) + {(tag, cur, cuv0)}
            = nodesM h.roots + {(tag, k, v)} := by
          rw [nodesM_append, nodesM_append]
          exact hcont
        have htagsm : ((forestTags (rs ++ pre ++ post) : List Tag) : Multiset Tag)
            = ((forestTags h.roots : List Tag) : Multiset Tag) := by
          have hmap := congrArg (Multiset.map (fun y : Tag × Key × Option GoValue => y.1))
            hcontm
          simp only [Multiset.map_add, Multiset.map_singleton] at hmap
          rw [← tagsM_eq_map, ← tagsM_eq_map] at hmap
          exact add_right_cancel hmap
        have hkeysm : ((forestKeys (rs ++ pre ++ post) : List Key) : Multiset Key) + {cur}
            = ((forestKeys h.roots : List Key) : Multiset Key) + {k} := by
          have hmap := congrArg (Multiset.map (fun y : Tag × Key × Option GoValue => y.2.1))
            hcontm
          simp only [Multiset.map_add, Multiset.map_singleton] at hmap
          rw [← keysM_eq_map, ← keysM_eq_map] at hmap
          exact hmap
        have hcntm : forestCount (rs ++ pre ++ post) = forestCount h.roots := by
          have hmap := congrArg Multiset.card hcontm
          simp only [Multiset.card_add, Multiset.card_singleton] at hmap
          rw [← countM_eq_card, ← countM_eq_card] at hmap
          omega
        have hnd1 : (forestTags (rs ++ pre ++ post)).Nodup := by
          rw [← Multiset.coe_nodup, htagsm, Multiset.coe_nodup]
          exact hwf.nd
        have hho1 : hoForest (rs ++ pre ++ post) = true := by
          simp only [hoForest_append, Bool.and_eq_true]
          exact ⟨⟨hhors, (hoForest_iff _).2 hhopre⟩, (hoForest_iff _).2 hhopost⟩
        have hkmem : ∀ q ∈ forestKeys (rs ++ pre ++ post),
            q ∈ forestKeys h.roots ∨ q = k := by
          intro q hq
          have h1 : q ∈ ((forestKeys (rs ++ pre ++ post) : List Key) : Multiset Key)
              + {cur} := Multiset.mem_add.2 (Or.inl (Multiset.mem_coe.2 hq))
          rw [hkeysm] at h1
          rcases Multiset.mem_add.1 h1 with h2 | h2
          · exact Or.inl (Multiset.mem_coe.1 h2)
          · exact Or.inr (Multiset.mem_singleton.1 h2)
        have hcurmem : cur ∈ forestKeys h.roots := by
          have h1 : (tag, cur, cuv0) ∈ forestNodes h.roots :=
            find_eq_some_mem.2 h.roots tag (cur, cuv0) hff
          rw [keys_eq_map_nodes.2 h.roots]
          exact List.mem_map_of_mem _ h1
        have hrsne : rs ≠ [] := by
          intro hnil
          have hlen := hshape.length_eq
          rw [hnil] at hlen
          simp at hlen
          rw [hlen] at hff
          cases hff
        have hne1 : rs ++ pre ++ post ≠ [] := by
          intro hnil
          rcases List.append_eq_nil.1 (List.append_eq_nil.1 hnil).1 with ⟨h1, _⟩
          exact hrsne h1
        rw [hE]
        refine ⟨hho1, hnd1, ?_, ?_, ?_, ?_, ?_⟩
        · show ((h.index : List Tag) : Multiset Tag) = _
          rw [hwf.idx, htagsm]
        · show h.num = forestCount (rs ++ pre ++ post)
          rw [hcntm]
          exact hwf.cnt
        · -- minOK
          intro mt' hmt'
          simp only at hmt'
          by_cases hc : h.minTag = some tag
          · rw [if_pos hc] at hmt'
            obtain ⟨mt2, hmt2, r2, hr2, hrt2, hrmin2⟩ := resetMin_minOK hho1 hne1
            rw [hmt2] at hmt'
            cases hmt'
            exact ⟨r2, hr2, hrt2, hrmin2⟩
          · rw [if_neg hc] at hmt'
            match hold : h.minTag with
            | none =>
              exfalso
              have hnil := hwf.minNone hold
              rw [hnil] at hff
              cases hff
            | some mt0 =>
              rw [hold] at hmt'
              have hmm := Option.some.inj hmt'
              obtain ⟨m, hm, hmt0, hmmin⟩ := hwf.minOK mt0 hold
              have hmt0tag : m.tag ≠ tag := by
                intro heq
                refine hc ?_
                rw [hold, ← hmt0, heq]
              obtain ⟨b0, hb0, hrel⟩ := forall₂_mem_left hshape hm
              have hb0k := hrel.2.2 hmt0tag
              refine ⟨b0, List.mem_append_left _ (List.mem_append_left _ hb0),
                by rw [hrel.1, hmt0]; exact hmm, ?_⟩
              intro q hq
              rw [hb0k]
              rcases hkmem q hq with hq2 | rfl
              · exact hmmin q hq2
              · exact le_trans (hmmin cur hcurmem) (le_of_lt hklt)
        · -- minNone
          intro hmn
          simp only at hmn
          exfalso
          by_cases hc : h.minTag = some tag
          · rw [if_pos hc] at hmn
            obtain ⟨mt2, hmt2, _⟩ := resetMin_minOK hho1 hne1
            rw [hmt2] at hmn
            cases hmn
          · rw [if_neg hc] at hmn
            match hold : h.minTag with
            | none =>
              have hnil := hwf.minNone hold
              rw [hnil] at hff
              cases hff
            | some mt0 =>
              rw [hold] at hmn
              cases hmn
        · -- tdOK
          intro p hp
          obtain ⟨r, hr, hrp⟩ := hwf.tdOK p hp
          obtain ⟨b0, hb0, hrel⟩ := forall₂_mem_left hshape hr
          exact ⟨b0, List.mem_append_left _ (List.mem_append_left _ hb0),
            by rw [hrel.2.1, hrp]⟩

theorem DecreaseKeyGo_wf {h : Heap} (hwf : WF h) (tag : Tag) (k : Key) :
    WF (DecreaseKeyGo h tag k).1 := by
  rw [DecreaseKeyGo]
  by_cases hb : k = ⊥
  · rw [if_pos hb]
    exact hwf
  rw [if_neg hb]
  by_cases hc : h.index.contains tag = true
  · rw [if_pos hc]
    exact (decreaseKeyInternal_spec hwf tag none k).1
  · rw [if_neg hc]
    exact hwf

theorem DecreaseKeyValueGo_wf {h : Heap} (hwf : WF h) (v : Option GoValue) :
    WF (DecreaseKeyValueGo h v).1 := by
  match v with
  | none => exact hwf
  | some v =>
    rw [DecreaseKeyValueGo]
    by_cases hb : v.key = ⊥
    · rw [if_pos hb]
      exact hwf
    rw [if_neg hb]
    by_cases hc : h.index.contains v.tag = true
    · rw [if_pos hc]
      exact (decreaseKeyInternal_spec hwf v.tag (some v) v.key).1
    · rw [if_neg hc]
      exact hwf

theorem IncreaseKeyGo_wf {h : Heap} (hwf : WF h) (tag : Tag) (k : Key) :
    WF (IncreaseKeyGo h tag k).1 := by
  rw [IncreaseKeyGo]
  by_cases hb : k = ⊥
  · rw [if_pos hb]
    exact hwf
  rw [if_neg hb]
  by_cases hc : h.index.contains tag = true
  · rw [if_pos hc]
    exact increaseKeyInternal_spec hwf tag none k
  · rw [if_neg hc]
    exact hwf

theorem IncreaseKeyValueGo_wf {h : Heap} (hwf : WF h) (v : Option GoValue) :
    WF (IncreaseKeyValueGo h v).1 := by
  match v with
  | none => exact hwf
  | some v =>
    rw [IncreaseKeyValueGo]
    by_cases hb : v.key = ⊥
    · rw [if_pos hb]
      exact hwf
    rw [if_neg hb]
    by_cases hc : h.index.contains v.tag = true
    · rw [if_pos hc]
      exact increaseKeyInternal_spec hwf v.tag (some v) v.key
    · rw [if_neg hc]
      exact hwf

theorem deleteNodeGo_wf {h : Heap} (hwf : WF h) (tag : Tag) :
    WF (deleteNodeGo h tag) := by
  rw [deleteNodeGo]
  exact ExtractMinValueGo_wf (decreaseKeyInternal_spec hwf tag _ ⊥).1

theorem ExtractValueGo_wf {h : Heap} (hwf : WF h) (tag : Tag) :
    WF (ExtractValueGo h tag).1 := by
  rw [ExtractValueGo]
  by_cases hc : h.index.contains tag = true
  · rw [if_pos hc]
    match findVal h.roots tag with
    | some v => exact deleteNodeGo_wf hwf tag
    | none => exact hwf
  · rw [if_neg hc]
    exact hwf

theorem ExtractTagGo_wf {h : Heap} (hwf : WF h) (tag : Tag) :
    WF (ExtractTagGo h tag).1 := by
  rw [ExtractTagGo]
  by_cases hc : h.index.contains tag = true
  · rw [if_pos hc]
    match findKey h.roots tag with
    | some k => exact deleteNodeGo_wf hwf tag
    | none => exact hwf
  · rw [if_neg hc]
    exact hwf

theorem DeleteGo_wf {h : Heap} (hwf : WF h) (tag : Tag) :
    WF (DeleteGo h tag).1 := by
  rw [DeleteGo]
  by_cases hc : h.index.contains tag = true
  · rw [if_pos hc]
    exact ExtractValueGo_wf hwf tag
  · rw [if_neg hc]
    exact hwf

theorem DeleteValueGo_wf {h : Heap} (hwf : WF h) (v : Option GoValue) :
    WF (DeleteValueGo h v).1 := by
  match v with
  | none => exact hwf
  | some v =>
    rw [DeleteValueGo]
    by_cases hc : h.index.contains v.tag = true
    · rw [if_pos hc]
      exact ExtractValueGo_wf hwf v.tag
    · rw [if_neg hc]
      exact hwf

theorem foldl_insert_wf (src : Heap) (l : List Tag) :
    ∀ (d : Heap), WF d → WF (l.foldl (fun d tg =>
      match findVal src.roots tg with
      | some v => (InsertValueGo d v).1
      | none => d) d) := by
  induction l with
  | nil => intro d hd; exact hd
  | cons tg tl ih =>
    intro d hd
    rw [List.foldl_cons]
    refine ih _ ?_
    match findVal src.roots tg with
    | some v => exact InsertValueGo_wf hd v
    | none => exact hd

theorem unionGo_wf {d s : Heap} (hd : WF d) : WF (unionGo d s).1 := by
  rw [unionGo]
  by_cases hdup : s.index.any (fun tg => d.index.contains tg) = true
  · rw [if_pos hdup]
    exact hd
  · rw [if_neg hdup]
    exact foldl_insert_wf s s.index d hd

/-- Every heap reachable through the public API is well formed. -/
theorem reachable_wf {h : Heap} (hr : Reachable h) : WF h := by
  induction hr with
  | new => exact newFibHeap_wf
  | ins h tag k _ ih => exact InsertGo_wf ih tag k
  | insVal h v _ ih => exact InsertValueGo_wf ih v
  | extMin h _ ih => exact ExtractMinGo_wf ih
  | extMinVal h _ ih => exact ExtractMinValueGo_wf ih
  | decKey h tag k _ ih => exact DecreaseKeyGo_wf ih tag k
  | decKeyVal h v _ ih => exact DecreaseKeyValueGo_wf ih v
  | incKey h tag k _ ih => exact IncreaseKeyGo_wf ih tag k
  | incKeyVal h v _ ih => exact IncreaseKeyValueGo_wf ih v
  | del h tag _ ih => exact DeleteGo_wf ih tag
  | delVal h v _ ih => exact DeleteValueGo_wf ih v
  | extTag h tag _ ih => exact ExtractTagGo_wf ih tag
  | extVal h tag _ ih => exact ExtractValueGo_wf ih tag
  | union d s _ _ ihd ihs => exact unionGo_wf ihd

theorem extractKeys_sorted {h : Heap} (hwf : WF h) (n : Nat) :
    List.Sorted (· ≤ ·) (extractKeysGo h n) ∧
    ∀ q ∈ extractKeysGo h n, q ∈ forestKeys h.roots := by
  induction n generalizing h with
  | zero =>
    rw [extractKeysGo]
    simp
  | succ n ih =>
    rw [extractKeysGo]
    by_cases h0 : h.num = 0
    · have hE : ExtractMinGo h = (h, none) := by
        rw [ExtractMinGo, if_pos h0]
      rw [hE]
      simp
    · obtain ⟨mt, mk, hsome, hwf1, hmin, hkeys, hnum, _⟩ := extractMin_spec hwf h0
      have hE : ExtractMinGo h = ((extractMinGo h).1, some (mt, mk)) := by
        rw [ExtractMinGo, if_neg h0, ← hsome]
      rw [hE]
      obtain ⟨hsort1, hmem1⟩ := ih hwf1
      have hsub : ∀ q ∈ forestKeys (extractMinGo h).1.roots, q ∈ forestKeys h.roots := by
        intro q hq
        have h1 : q ∈ ((forestKeys (extractMinGo h).1.roots : List Key) : Multiset Key)
            + {mk} := Multiset.mem_add.2 (Or.inl (Multiset.mem_coe.2 hq))
        rw [hkeys] at h1
        exact Multiset.mem_coe.1 h1
      refine ⟨List.sorted_cons.2 ⟨?_, hsort1⟩, ?_⟩
      · intro q hq
        exact hmin q (hsub q (hmem1 q hq))
      · intro q hq
        rcases List.mem_cons.1 hq with rfl | hq
        · have h1 : q ∈ ((forestKeys (extractMinGo h).1.roots : List Key) : Multiset Key)
              + {q} := Multiset.mem_add.2 (Or.inr (Multiset.mem_singleton.2 rfl))
          rw [hkeys] at h1
          exact Multiset.mem_coe.1 h1
        · exact hsub q (hmem1 q hq)

theorem extractKeys_length {h : Heap} (hwf : WF h) (n : Nat) :
    (extractKeysGo h n).length = min n h.num := by
  induction n generalizing h with
  | zero =>
    rw [extractKeysGo]
    simp
  | succ n ih =>
    rw [extractKeysGo]
    by_cases h0 : h.num = 0
    · have hE : ExtractMinGo h = (h, none) := by
        rw [ExtractMinGo, if_pos h0]
      rw [hE]
      simp [h0]
    · obtain ⟨mt, mk, hsome, hwf1, hmin, hkeys, hnum, _⟩ := extractMin_spec hwf h0
      have hE : ExtractMinGo h = ((extractMinGo h).1, some (mt, mk)) := by
        rw [ExtractMinGo, if_neg h0, ← hsome]
      rw [hE]
      rw [List.length_cons, ih hwf1, hnum]
      omega

theorem insertAll_spec : ∀ (l : List (Tag × Key)) (d : Heap), WF d →
    (∀ p ∈ l, p.2 ≠ ⊥) → (l.map Prod.fst).Nodup →
    (∀ p ∈ l, ¬d.index.contains p.1 = true) →
    WF (l.foldl (fun d p => (InsertGo d p.1 p.2).1) d) ∧
    (l.foldl (fun d p => (InsertGo d p.1 p.2).1) d).num = d.num + l.length := by
  intro l
  induction l with
  | nil =>
    intro d hwf _ _ _
    exact ⟨hwf, by simp⟩
  | cons p tl ih =>
    intro d hwf hkeys hnd hcon
    have hb : ¬p.2 = ⊥ := hkeys p (by simp)
    have hc : ¬d.index.contains p.1 = true := hcon p (by simp)
    have hE : (InsertGo d p.1 p.2).1
        = { roots := d.roots ++ [NTree.node p.1 p.2 none false 0 0 []],
            index := d.index ++ [p.1], td := d.td,
            minTag := match d.minTag with
              | none => some p.1
              | some mt =>
                match findKey d.roots mt with
                | some mk => if mk > p.2 then some p.1 else some mt
                | none => some mt,
            num := d.num + 1 } := by
      simp only [InsertGo, insertGo, if_neg hb, if_neg hc]
    rw [List.foldl_cons]
    have hwf1 : WF (InsertGo d p.1 p.2).1 := InsertGo_wf hwf p.1 p.2
    have hnd1 : (tl.map Prod.fst).Nodup := by
      rw [List.map_cons] at hnd
      exact hnd.of_cons
    have hcon1 : ∀ q ∈ tl, ¬(InsertGo d p.1 p.2).1.index.contains q.1 = true := by
      intro q hq
      rw [hE]
      simp only [List.elem_iff]
      intro hmem
      rcases List.mem_append.1 hmem with hmem | hmem
      · exact hcon q (by simp [hq]) (List.elem_iff.2 hmem)
      · simp at hmem
        rw [List.map_cons] at hnd
        have := List.nodup_cons.1 hnd
        exact this.1 (by rw [← hmem]; exact List.mem_map_of_mem Prod.fst hq)
    obtain ⟨hwf2, hnum2⟩ := ih (InsertGo d p.1 p.2).1 hwf1
      (fun q hq => hkeys q (by simp [hq])) hnd1 hcon1
    refine ⟨hwf2, ?_⟩
    rw [hnum2, hE]
    simp
    omega

/-- Enough fuel always exists for the consolidate walk: the loop terminates. -/
theorem consLoopF_agree : ∀ (td : TD) (p v : List NTree),
    ∃ n, consLoopF n td p v = some (consLoop td p v) := by
  intro td p v
  induction td, p, v using consLoop.induct with
  | case1 td p =>
    refine ⟨1, ?_⟩
    rw [consLoopF]
    rw [show consLoop td p [] = (td, p) from by rw [consLoop]]
  | case2 td p t ts h1 ih =>
    obtain ⟨n, hn⟩ := ih
    refine ⟨n + 1, ?_⟩
    rw [consLoopF]
    simp only [h1]
    rw [consLoop_step_none td p t ts h1]
    exact hn
  | case3 td p t ts h1 ih =>
    obtain ⟨n, hn⟩ := ih
    refine ⟨n + 1, ?_⟩
    rw [consLoopF]
    simp only [h1, if_pos rfl]
    rw [consLoop_step_self td p t ts h1]
    exact hn
  | case4 td p t ts tg h1 hne b x a h2 hk ih =>
    obtain ⟨n, hn⟩ := ih
    refine ⟨n + 1, ?_⟩
    rw [consLoopF]
    simp only [h1, if_neg hne, h2, if_pos hk]
    rw [consLoop_step_b1p td p t ts tg b x a h1 hne h2 hk]
    exact hn
  | case5 td p t ts tg h1 hne b x a h2 hk ih =>
    obtain ⟨n, hn⟩ := ih
    refine ⟨n + 1, ?_⟩
    rw [consLoopF]
    simp only [h1, if_neg hne, h2, if_neg hk]
    rw [consLoop_step_b2p td p t ts tg b x a h1 hne h2 hk]
    exact hn
  | case6 td p t ts tg h1 hne h2 r1 x r2 h3 hk ih =>
    obtain ⟨n, hn⟩ := ih
    refine ⟨n + 1, ?_⟩
    rw [consLoopF]
    simp only [h1, if_neg hne, h2, h3, if_pos hk]
    rw [consLoop_step_b1r td p t ts tg r1 x r2 h1 hne h2 h3 hk]
    exact hn
  | case7 td p t ts tg h1 hne h2 r1 x r2 h3 hk ih =>
    obtain ⟨n, hn⟩ := ih
    refine ⟨n + 1, ?_⟩
    rw [consLoopF]
    simp only [h1, if_neg hne, h2, h3, if_neg hk]
    rw [consLoop_step_b2r td p t ts tg r1 x r2 h1 hne h2 h3 hk]
    exact hn
  | case8 td p t ts tg h1 hne h2 h3 ih =>
    obtain ⟨n, hn⟩ := ih
    refine ⟨n + 1, ?_⟩
    rw [consLoopF]
    simp only [h1, if_neg hne, h2, h3]
    rw [consLoop_step_ghost td p t ts tg h1 hne h2 h3]
    exact hn

theorem dkChildrenF_mono : ∀ (m n : Nat), m ≤ n → ∀ (tag : Tag) (k : Key)
    (v : Option GoValue) (pk : Key) (cs : List NTree)
    (r : Option (List NTree × List NTree × Bool)),
    dkChildrenF m tag k v pk cs = some r → dkChildrenF n tag k v pk cs = some r := by
  intro m
  induction m with
  | zero =>
    intro n _ tag k v pk cs r h
    rw [dkChildrenF] at h
    cases h
  | succ m ih =>
    intro n hle tag k v pk cs r h
    match n with
    | 0 => omega
    | n + 1 =>
      have hle2 : m ≤ n := by omega
      match cs with
      | [] =>
        rw [dkChildrenF] at h ⊢
        exact h
      | c :: cs' =>
        rw [dkChildrenF] at h ⊢
        by_cases hct : c.tag = tag
        · simp only [if_pos hct] at h ⊢
          exact h
        · simp only [if_neg hct] at h ⊢
          match hin : dkChildrenF m tag k v c.key c.children with
          | none =>
            rw [hin] at h
            cases h
          | some (some (ccs, cuts, sig)) =>
            rw [hin] at h
            rw [ih n hle2 tag k v c.key c.children (some (ccs, cuts, sig)) hin]
            exact h
          | some none =>
            rw [hin] at h
            rw [ih n hle2 tag k v c.key c.children none hin]
            match htl : dkChildrenF m tag k v pk cs' with
            | none =>
              rw [htl] at h
              cases h
            | some (some (cs2, cuts, sig)) =>
              rw [htl] at h
              rw [ih n hle2 tag k v pk cs' (some (cs2, cuts, sig)) htl]
              exact h
            | some none =>
              rw [htl] at h
              rw [ih n hle2 tag k v pk cs' none htl]
              exact h

/-- Enough fuel always exists for the decreaseKey walk: cut and cascadingCut
terminate on every finite tree. -/
theorem dkChildrenF_agree (tag : Tag) (k : Key) (v : Option GoValue) :
    ∀ (pk : Key) (cs : List NTree),
    ∃ n, dkChildrenF n tag k v pk cs = some (dkChildren tag k v pk cs) := by
  intro pk cs
  induction pk, cs using dkChildren.induct tag k v with
  | case1 pk =>
    refine ⟨0 + 1, ?_⟩
    rw [dkChildren_nil]
    simp [dkChildrenF]
  | case2 pk t ts ht hk =>
    refine ⟨0 + 1, ?_⟩
    rw [dkChildrenF, dkChildren_found_cut ht hk]
    simp only [if_pos ht, if_pos hk]
  | case3 pk t ts ht hk =>
    refine ⟨0 + 1, ?_⟩
    rw [dkChildrenF, dkChildren_found_keep ht hk]
    simp only [if_pos ht, if_neg hk]
  | case4 pk t ts ht cs2 cuts c1 hm hin ih =>
    obtain ⟨n, hn⟩ := ih
    refine ⟨n + 1, ?_⟩
    rw [dkChildrenF, dkChildren_casc_cut ht hin hm]
    simp only [if_neg ht]
    rw [hin] at hn
    rw [hn]
    simp only [if_pos rfl, hm, if_true]
  | case5 pk t ts ht cs2 cuts c1 hm hin ih =>
    obtain ⟨n, hn⟩ := ih
    refine ⟨n + 1, ?_⟩
    rw [dkChildrenF, dkChildren_casc_mark ht hin hm]
    simp only [if_neg ht]
    rw [hin] at hn
    rw [hn]
    simp [hm]
  | case6 pk t ts ht cs2 cuts sig hin hs ih =>
    obtain ⟨n, hn⟩ := ih
    have hsf : sig = false := by
      cases sig
      · rfl
      · exact absurd rfl hs
    subst hsf
    refine ⟨n + 1, ?_⟩
    rw [dkChildrenF, dkChildren_nosig ht hin]
    simp only [if_neg ht]
    rw [hin] at hn
    rw [hn]
    simp
  | case7 pk t ts ht hnone cs2 cuts sig htl ih1 ih2 =>
    obtain ⟨n1, hn1⟩ := ih1
    obtain ⟨n2, hn2⟩ := ih2
    refine ⟨max n1 n2 + 1, ?_⟩
    rw [dkChildrenF, dkChildren_tail_some ht hnone htl]
    simp only [if_neg ht]
    rw [hnone] at hn1
    rw [htl] at hn2
    rw [dkChildrenF_mono n1 (max n1 n2) (le_max_left _ _) tag k v t.key t.children
      none hn1]
    rw [dkChildrenF_mono n2 (max n1 n2) (le_max_right _ _) tag k v pk ts
      (some (cs2, cuts, sig)) hn2]
  | case8 pk t ts ht hnone htl ih1 ih2 =>
    obtain ⟨n1, hn1⟩ := ih1
    obtain ⟨n2, hn2⟩ := ih2
    refine ⟨max n1 n2 + 1, ?_⟩
    rw [dkChildrenF, dkChildren_tail_none ht hnone htl]
    simp only [if_neg ht]
    rw [hnone] at hn1
    rw [htl] at hn2
    rw [dkChildrenF_mono n1 (max n1 n2) (le_max_left _ _) tag k v t.key t.children
      none hn1]
    rw [dkChildrenF_mono n2 (max n1 n2) (le_max_right _ _) tag k v pk ts none hn2]

/-- Consolidating exactly two roots of equal degree and distinct tags: the walk
buckets the first root, then the cursor (the second, later-seen root) collides
with it; when the cursor key is less than or equal to the bucketed key the cursor
becomes the parent, otherwise the bucketed root does. -/
theorem consolidate_pair (t x : NTree) (hne : ¬x.tag = t.tag)
    (hdeg : t.degree = x.degree) :
    (consolidateGo [] [t, x]).2
      = if x.key ≤ t.key then [(linkT x (t.setPos t.degree)).setPos (x.degree + 1)]
        else [(linkT (t.setPos t.degree) x).setPos (t.degree + 1)] := by
  have hclear : clearLoop [] [t, x] = [] := rfl
  rw [consolidateGo, hclear]
  rw [consLoop_step_none [] [] t [x] (tdGet_nil _)]
  simp only [List.nil_append]
  have hget : tdGet (tdPut [] t.degree t.tag) x.degree = some t.tag := by
    rw [← hdeg]
    exact tdGet_put_self [] t.degree t.tag
  have hsplit : splitFirst [t.setPos t.degree] t.tag
      = some ([], t.setPos t.degree, []) := by
    rw [splitFirst, if_pos (tag_setPos t t.degree)]
  have herase : tdErase (tdPut [] t.degree t.tag) x.degree = [] := by
    rw [← hdeg]
    simp [tdPut, tdErase]
  by_cases hk : x.key ≤ t.key
  · rw [if_pos hk]
    have hk2 : x.key ≤ (t.setPos t.degree).key := by
      rw [key_setPos]
      exact hk
    rw [consLoop_step_b1p (tdPut [] t.degree t.tag) [t.setPos t.degree] x []
      t.tag [] (t.setPos t.degree) [] hget hne hsplit hk2]
    rw [herase]
    simp only [List.nil_append]
    rw [consLoop_step_none [] [] (linkT x (t.setPos t.degree)) [] (tdGet_nil _)]
    simp only [List.nil_append]
    rw [show consLoop (tdPut [] (linkT x (t.setPos t.degree)).degree
        (linkT x (t.setPos t.degree)).tag)
        [(linkT x (t.setPos t.degree)).setPos (linkT x (t.setPos t.degree)).degree] []
      = (tdPut [] (linkT x (t.setPos t.degree)).degree (linkT x (t.setPos t.degree)).tag,
        [(linkT x (t.setPos t.degree)).setPos (linkT x (t.setPos t.degree)).degree])
      from by rw [consLoop]]
    rw [degree_linkT]
  · rw [if_neg hk]
    have hk2 : ¬x.key ≤ (t.setPos t.degree).key := by
      rw [key_setPos]
      exact hk
    rw [consLoop_step_b2p (tdPut [] t.degree t.tag) [t.setPos t.degree] x []
      t.tag [] (t.setPos t.degree) [] hget hne hsplit hk2]
    rw [herase]
    simp only [List.nil_append]
    rw [consLoop_step_none [] [] (linkT (t.setPos t.degree) x) [] (tdGet_nil _)]
    simp only [List.nil_append]
    rw [show consLoop (tdPut [] (linkT (t.setPos t.degree) x).degree
        (linkT (t.setPos t.degree) x).tag)
        [(linkT (t.setPos t.degree) x).setPos (linkT (t.setPos t.degree) x).degree] []
      = (tdPut [] (linkT (t.setPos t.degree) x).degree (linkT (t.setPos t.degree) x).tag,
        [(linkT (t.setPos t.degree) x).setPos (linkT (t.setPos t.degree) x).degree])
      from by rw [consLoop]]
    rw [degree_linkT, degree_setPos]

theorem decreaseKeyInternal_index (h : Heap) (tag : Tag) (v : Option GoValue)
    (k : Key) : (decreaseKeyInternal h tag v k).1.index = h.index := by
  match hf : findKey h.roots tag with
  | none => simp only [decreaseKeyInternal, hf]
  | some cur =>
    by_cases hge : k ≥ cur
    · simp only [decreaseKeyInternal, hf, if_pos hge]
    · simp only [decreaseKeyInternal, hf, if_neg hge]

/-- Claim C1: for every sequence of N successful Inserts (distinct tags, keys
above negative infinity) into a fresh heap followed by N ExtractMin calls, all N
extractions succeed and the returned keys are non-decreasing. -/
theorem C1_sorted_extraction (l : List (Tag × Key))
    (hnd : (l.map Prod.fst).Nodup) (hk : ∀ p ∈ l, p.2 ≠ ⊥) :
    List.Sorted (· ≤ ·) (extractKeysGo (insertAllGo l) l.length) ∧
    (extractKeysGo (insertAllGo l) l.length).length = l.length := by
  obtain ⟨hwf, hnum⟩ := insertAll_spec l newFibHeap newFibHeap_wf hk hnd
    (by intro p _; simp [newFibHeap])
  rw [insertAllGo]
  refine ⟨(extractKeys_sorted hwf l.length).1, ?_⟩
  rw [extractKeys_length hwf, hnum]
  simp [newFibHeap]

theorem C1_sorted_extraction_witness :
    List.Sorted (· ≤ ·)
      (extractKeysGo (insertAllGo [(1, ((5 : Int) : Key)), (2, ((3 : Int) : Key))]) 2) ∧
    (extractKeysGo (insertAllGo [(1, ((5 : Int) : Key)), (2, ((3 : Int) : Key))]) 2).length
      = 2 :=
  C1_sorted_extraction [(1, ((5 : Int) : Key)), (2, ((3 : Int) : Key))]
    (by decide) (by decide)

/-- Claim C2: the claimed Union behaviour fails on the code. With a destination
holding one value node (tag 1, key 10) and a source holding one tag-only node
(tag 2, key 5), the tag sets are disjoint and Union succeeds (nil error), but the
destination ends with one node and minimum (1, 10): Union re-inserts node.value
through InsertValue and silently discards its error, so the source's node, whose
stored value is nil, is dropped instead of merged (the claim requires two nodes
and minimum key 5). -/
theorem C2_union_drops_tag_only_nodes :
    (unionGo (InsertValueGo newFibHeap (some ⟨1, ((10 : Int) : Key)⟩)).1
      (InsertGo newFibHeap 2 ((5 : Int) : Key)).1).2.2 = none ∧
    NumGo (InsertValueGo newFibHeap (some ⟨1, ((10 : Int) : Key)⟩)).1 = 1 ∧
    NumGo (InsertGo newFibHeap 2 ((5 : Int) : Key)).1 = 1 ∧
    (∀ tg ∈ (InsertGo newFibHeap 2 ((5 : Int) : Key)).1.index,
      tg ∉ (InsertValueGo newFibHeap (some ⟨1, ((10 : Int) : Key)⟩)).1.index) ∧
    NumGo (unionGo (InsertValueGo newFibHeap (some ⟨1, ((10 : Int) : Key)⟩)).1
      (InsertGo newFibHeap 2 ((5 : Int) : Key)).1).1 = 1 ∧
    MinimumGo (unionGo (InsertValueGo newFibHeap (some ⟨1, ((10 : Int) : Key)⟩)).1
      (InsertGo newFibHeap 2 ((5 : Int) : Key)).1).1 = some (1, ((10 : Int) : Key)) := by
  decide

/-- Claim C3: on a live tag, DecreaseKey (tag-only or with a value) with a new
key at least the current key returns an error and leaves the heap state exactly
unchanged. -/
theorem C3_decrease_key_not_smaller (h : Heap) (tag : Tag) (k cur : Key)
    (hc : h.index.contains tag = true) (hf : findKey h.roots tag = some cur)
    (hk : cur ≤ k) :
    (∃ e, DecreaseKeyGo h tag k = (h, some e)) ∧
    (∀ v : GoValue, v.tag = tag → v.key = k →
      ∃ e, DecreaseKeyValueGo h (some v) = (h, some e)) := by
  constructor
  · rw [DecreaseKeyGo]
    by_cases hb : k = ⊥
    · rw [if_pos hb]
      exact ⟨Err.reservedKey, rfl⟩
    · rw [if_neg hb, if_pos hc]
      refine ⟨Err.keyNotSmaller, ?_⟩
      simp only [decreaseKeyInternal, hf, if_pos (ge_iff_le.2 hk)]
  · intro v hvt hvk
    rw [DecreaseKeyValueGo]
    by_cases hb : v.key = ⊥
    · rw [if_pos hb]
      exact ⟨Err.reservedKey, rfl⟩
    · rw [if_neg hb, hvt, if_pos hc]
      refine ⟨Err.keyNotSmaller, ?_⟩
      simp only [decreaseKeyInternal, hf, hvk, if_pos (ge_iff_le.2 hk)]

theorem C3_decrease_key_not_smaller_witness :
    (∃ e, DecreaseKeyGo (InsertGo newFibHeap 1 ((5 : Int) : Key)).1 1 ((5 : Int) : Key)
      = ((InsertGo newFibHeap 1 ((5 : Int) : Key)).1, some e)) ∧
    (∀ v : GoValue, v.tag = 1 → v.key = ((5 : Int) : Key) →
      ∃ e, DecreaseKeyValueGo (InsertGo newFibHeap 1 ((5 : Int) : Key)).1 (some v)
        = ((InsertGo newFibHeap 1 ((5 : Int) : Key)).1, some e)) :=
  C3_decrease_key_not_smaller (InsertGo newFibHeap 1 ((5 : Int) : Key)).1 1
    ((5 : Int) : Key) ((5 : Int) : Key) (by decide) (by decide) (by decide)

/-- Claim C4: heap order is an invariant of every heap reachable through the
public operations: every node's key is at most every descendant's key. -/
theorem C4_heap_order_invariant (h : Heap) (hr : Reachable h) :
    hoForest h.roots = true :=
  (reachable_wf hr).ho

theorem C4_heap_order_invariant_witness :
    hoForest (InsertGo newFibHeap 1 ((5 : Int) : Key)).1.roots = true :=
  C4_heap_order_invariant (InsertGo newFibHeap 1 ((5 : Int) : Key)).1
    (Reachable.ins newFibHeap 1 ((5 : Int) : Key) Reachable.new)

/-- Claim C5: every operation that returns an error leaves the heap exactly as it
was: Insert, InsertValue, DecreaseKey(Value), IncreaseKey(Value), Delete(Value)
and Union never expose a partial mutation on an error return. -/
theorem C5_errors_leave_heap_unchanged :
    (∀ (h : Heap) (tag : Tag) (k : Key) (e : Err),
      (InsertGo h tag k).2 = some e → (InsertGo h tag k).1 = h) ∧
    (∀ (h : Heap) (v : Option GoValue) (e : Err),
      (InsertValueGo h v).2 = some e → (InsertValueGo h v).1 = h) ∧
    (∀ (h : Heap) (tag : Tag) (k : Key) (e : Err),
      (DecreaseKeyGo h tag k).2 = some e → (DecreaseKeyGo h tag k).1 = h) ∧
    (∀ (h : Heap) (v : Option GoValue) (e : Err),
      (DecreaseKeyValueGo h v).2 = some e → (DecreaseKeyValueGo h v).1 = h) ∧
    (∀ (h : Heap) (tag : Tag) (k : Key) (e : Err),
      (IncreaseKeyGo h tag k).2 = some e → (IncreaseKeyGo h tag k).1 = h) ∧
    (∀ (h : Heap) (v : Option GoValue) (e : Err),
      (IncreaseKeyValueGo h v).2 = some e → (IncreaseKeyValueGo h v).1 = h) ∧
    (∀ (h : Heap) (tag : Tag) (e : Err),
      (DeleteGo h tag).2 = some e → (DeleteGo h tag).1 = h) ∧
    (∀ (h : Heap) (v : Option GoValue) (e : Err),
      (DeleteValueGo h v).2 = some e → (DeleteValueGo h v).1 = h) ∧
    (∀ (d s : Heap) (e : Err),
      (unionGo d s).2.2 = some e → (unionGo d s).1 = d ∧ (unionGo d s).2.1 = s) := by
  have hins : ∀ (h : Heap) (tag : Tag) (k : Key) (v : Option GoValue) (e : Err),
      (insertGo h tag k v).2 = some e → (insertGo h tag k v).1 = h := by
    intro h tag k v e he
    rw [insertGo] at he ⊢
    by_cases hb : k = ⊥
    · rw [if_pos hb]
    · rw [if_neg hb] at he ⊢
      by_cases hcon : h.index.contains tag = true
      · rw [if_pos hcon]
      · rw [if_neg hcon] at he
        simp at he
  have hdki : ∀ (h : Heap) (tag : Tag) (v : Option GoValue) (k : Key) (e : Err),
      (decreaseKeyInternal h tag v k).2 = some e → (decreaseKeyInternal h tag v k).1 = h := by
    intro h tag v k e he
    match hf : findKey h.roots tag with
    | none => simp only [decreaseKeyInternal, hf]
    | some cur =>
      by_cases hge : k ≥ cur
      · simp only [decreaseKeyInternal, hf, if_pos hge]
      · simp only [decreaseKeyInternal, hf, if_neg hge] at he
        simp at he
  have hiki : ∀ (h : Heap) (tag : Tag) (v : Option GoValue) (k : Key) (e : Err),
      (increaseKeyInternal h tag v k).2 = some e → (increaseKeyInternal h tag v k).1 = h := by
    intro h tag v k e he
    match hf : findKey h.roots tag with
    | none => simp only [increaseKeyInternal, hf]
    | some cur =>
      by_cases hge : k ≤ cur
      · simp only [increaseKeyInternal, hf, if_pos hge]
      · simp only [increaseKeyInternal, hf, if_neg hge] at he
        simp at he
  refine ⟨?_, ?_, ?_, ?_, ?_, ?_, ?_, ?_, ?_⟩
  · intro h tag k e he
    exact hins h tag k none e he
  · intro h v e he
    match v with
    | none => rfl
    | some v => exact hins h v.tag v.key (some v) e he
  · intro h tag k e he
    rw [DecreaseKeyGo] at he ⊢
    by_cases hb : k = ⊥
    · rw [if_pos hb]
    · rw [if_neg hb] at he ⊢
      by_cases hcon : h.index.contains tag = true
      · rw [if_pos hcon] at he ⊢
        exact hdki h tag none k e he
      · rw [if_neg hcon]
  · intro h v e he
    match v with
    | none => rfl
    | some v =>
      rw [DecreaseKeyValueGo] at he ⊢
      by_cases hb : v.key = ⊥
      · rw [if_pos hb]
      · rw [if_neg hb] at he ⊢
        by_cases hcon : h.index.contains v.tag = true
        · rw [if_pos hcon] at he ⊢
          exact hdki h v.tag (some v) v.key e he
        · rw [if_neg hcon]
  · intro h tag k e he
    rw [IncreaseKeyGo] at he ⊢
    by_cases hb : k = ⊥
    · rw [if_pos hb]
    · rw [if_neg hb] at he ⊢
      by_cases hcon : h.index.contains tag = true
      · rw [if_pos hcon] at he ⊢
        exact hiki h tag none k e he
      · rw [if_neg hcon]
  · intro h v e he
    match v with
    | none => rfl
    | some v =>
      rw [IncreaseKeyValueGo] at he ⊢
      by_cases hb : v.key = ⊥
      · rw [if_pos hb]
      · rw [if_neg hb] at he ⊢
        by_cases hcon : h.index.contains v.tag = true
        · rw [if_pos hcon] at he ⊢
          exact hiki h v.tag (some v) v.key e he
        · rw [if_neg hcon]
  · intro h tag e he
    rw [DeleteGo] at he ⊢
    by_cases hcon : h.index.contains tag = true
    · rw [if_pos hcon] at he
      simp at he
    · rw [if_neg hcon]
  · intro h v e he
    match v with
    | none => rfl
    | some v =>
      rw [DeleteValueGo] at he ⊢
      by_cases hcon : h.index.contains v.tag = true
      · rw [if_pos hcon] at he
        simp at he
      · rw [if_neg hcon]
  · intro d s e he
    rw [unionGo] at he ⊢
    by_cases hdup : s.index.any (fun tg => d.index.contains tg) = true
    · rw [if_pos hdup]
      exact ⟨rfl, rfl⟩
    · rw [if_neg hdup] at he
      simp at he

theorem C5_errors_leave_heap_unchanged_witness :
    (InsertValueGo newFibHeap none).1 = newFibHeap :=
  C5_errors_leave_heap_unchanged.2.1 newFibHeap none Err.nilInput (by decide)

/-- Claim C6: at the return of every ExtractMin that leaves a reachable heap
non-empty (so consolidation has just run), the root degrees are pairwise
distinct. -/
theorem C6_distinct_root_degrees (h : Heap) (hr : Reachable h)
    (hne : (ExtractMinGo h).1.num ≠ 0) :
    ((ExtractMinGo h).1.roots.map NTree.degree).Nodup := by
  have hwf := reachable_wf hr
  by_cases h0 : h.num = 0
  · exfalso
    rw [ExtractMinGo, if_pos h0] at hne
    exact hne h0
  · obtain ⟨mt, mk, hsome, hwf1, hmin, hkeys, hnum, hdeg⟩ := extractMin_spec hwf h0
    rw [ExtractMinGo, if_neg h0] at hne ⊢
    exact hdeg hne

theorem C6_distinct_root_degrees_witness :
    ((ExtractMinGo (InsertGo (InsertGo newFibHeap 1 ((5 : Int) : Key)).1 2
      ((3 : Int) : Key)).1).1.roots.map NTree.degree).Nodup :=
  C6_distinct_root_degrees
    (InsertGo (InsertGo newFibHeap 1 ((5 : Int) : Key)).1 2 ((3 : Int) : Key)).1
    (Reachable.ins (InsertGo newFibHeap 1 ((5 : Int) : Key)).1 2 ((3 : Int) : Key)
      (Reachable.ins newFibHeap 1 ((5 : Int) : Key) Reachable.new))
    (by decide)

/-- Claim C7 (amended): when two equal-degree roots with distinct tags are
linked by consolidation, the root with the strictly larger key becomes the child;
on a key tie the cursor side wins, that is the later-seen root becomes the parent
and the earlier-seen root (the one already in the degree bucket) becomes its
child — not the other way around as the original claim states. -/
theorem C7_link_direction (t x : NTree) (hne : ¬x.tag = t.tag)
    (hdeg : t.degree = x.degree) :
    (consolidateGo [] [t, x]).2
      = if x.key ≤ t.key then [(linkT x (t.setPos t.degree)).setPos (x.degree + 1)]
        else [(linkT (t.setPos t.degree) x).setPos (t.degree + 1)] :=
  consolidate_pair t x hne hdeg

theorem C7_link_direction_witness :
    (consolidateGo [] [NTree.node 1 ((5 : Int) : Key) none false 0 0 [],
        NTree.node 2 ((5 : Int) : Key) none false 0 0 []]).2
      = if ((5 : Int) : Key) ≤ ((5 : Int) : Key) then
          [(linkT (NTree.node 2 ((5 : Int) : Key) none false 0 0 [])
            ((NTree.node 1 ((5 : Int) : Key) none false 0 0 []).setPos 0)).setPos 1]
        else
          [(linkT ((NTree.node 1 ((5 : Int) : Key) none false 0 0 []).setPos 0)
            (NTree.node 2 ((5 : Int) : Key) none false 0 0 [])).setPos 1] :=
  C7_link_direction (NTree.node 1 ((5 : Int) : Key) none false 0 0 [])
    (NTree.node 2 ((5 : Int) : Key) none false 0 0 []) (by decide) rfl

/-- On a key tie between two equal-degree roots, consolidation makes the
later-seen root the parent: with roots (tag 1, key 5) then (tag 2, key 5), the
surviving root carries tag 2 and its child carries tag 1, refuting the original
claim that the earlier-seen root remains the parent. -/
theorem C7_tie_counterexample :
    ((consolidateGo [] [NTree.node 1 ((5 : Int) : Key) none false 0 0 [],
        NTree.node 2 ((5 : Int) : Key) none false 0 0 []]).2.map NTree.tag = [2]) ∧
    ((consolidateGo [] [NTree.node 1 ((5 : Int) : Key) none false 0 0 [],
        NTree.node 2 ((5 : Int) : Key) none false 0 0 []]).2.map
          (fun r => r.children.map NTree.tag) = [[1]]) := by
  rw [consolidate_pair (NTree.node 1 ((5 : Int) : Key) none false 0 0 [])
    (NTree.node 2 ((5 : Int) : Key) none false 0 0 []) (by decide) rfl]
  rw [if_pos (by decide : (NTree.node 2 ((5 : Int) : Key) none false 0 0 []).key
    ≤ (NTree.node 1 ((5 : Int) : Key) none false 0 0 []).key)]
  exact ⟨rfl, rfl⟩

/-- Claim C8: the two genuinely looping computations terminate on every input:
the consolidate cursor walk (with its inner linking loop) and the decreaseKey
cut plus cascadingCut recursion always reach their result with some finite
fuel. -/
theorem C8_termination :
    (∀ (td : TD) (p v : List NTree),
      ∃ n, consLoopF n td p v = some (consLoop td p v)) ∧
    (∀ (tag : Tag) (k : Key) (v : Option GoValue) (pk : Key) (cs : List NTree),
      ∃ n, dkChildrenF n tag k v pk cs = some (dkChildren tag k v pk cs)) :=
  ⟨consLoopF_agree, fun tag k v pk cs => dkChildrenF_agree tag k v pk cs⟩

/-- Claim C9: a successful tag-only DecreaseKey overwrites the node's stored
value with nil, so a following GetValue on that tag returns nil, and when the
node is the cached minimum, MinimumValue returns nil as well. -/
theorem C9_tag_only_decrease_nils_value (h : Heap) (hr : Reachable h)
    (tag : Tag) (k : Key) (hsucc : (DecreaseKeyGo h tag k).2 = none) :
    GetValueGo (DecreaseKeyGo h tag k).1 tag = none ∧
    ((DecreaseKeyGo h tag k).1.minTag = some tag →
      MinimumValueGo (DecreaseKeyGo h tag k).1 = none) := by
  have hwf := reachable_wf hr
  rw [DecreaseKeyGo] at hsucc ⊢
  by_cases hb : k = ⊥
  · rw [if_pos hb] at hsucc
    simp at hsucc
  rw [if_neg hb] at hsucc ⊢
  by_cases hc : h.index.contains tag = true
  · rw [if_pos hc] at hsucc ⊢
    obtain ⟨hwf1, hfact⟩ := decreaseKeyInternal_spec hwf tag none k
    obtain ⟨hfind, hnum⟩ := hfact hsucc
    have hidx := decreaseKeyInternal_index h tag none k
    constructor
    · rw [GetValueGo, hidx]
      simp only [hc, if_true]
      rw [findVal, hfind]
      rfl
    · intro hmt
      rw [MinimumValueGo]
      have hnum1 : ¬(decreaseKeyInternal h tag none k).1.num = 0 := by
        intro h0
        have hcnt := hwf1.cnt
        rw [h0] at hcnt
        have hnil := forestCount_eq_zero hcnt.symm
        rw [hnil] at hfind
        cases hfind
      rw [if_neg hnum1, hmt]
      show (findVal (decreaseKeyInternal h tag none k).1.roots tag).bind id = none
      rw [findVal, hfind]
      rfl
  · rw [if_neg hc] at hsucc
    simp at hsucc

theorem C9_tag_only_decrease_nils_value_witness :
    GetValueGo (DecreaseKeyGo
      (InsertValueGo newFibHeap (some ⟨1, ((7 : Int) : Key)⟩)).1 1
      ((3 : Int) : Key)).1 1 = none ∧
    ((DecreaseKeyGo (InsertValueGo newFibHeap (some ⟨1, ((7 : Int) : Key)⟩)).1 1
        ((3 : Int) : Key)).1.minTag = some 1 →
      MinimumValueGo (DecreaseKeyGo
        (InsertValueGo newFibHeap (some ⟨1, ((7 : Int) : Key)⟩)).1 1
        ((3 : Int) : Key)).1 = none) :=
  C9_tag_only_decrease_nils_value
    (InsertValueGo newFibHeap (some ⟨1, ((7 : Int) : Key)⟩)).1
    (Reachable.insVal newFibHeap (some ⟨1, ((7 : Int) : Key)⟩) Reachable.new)
    1 ((3 : Int) : Key) (by decide)

/-- Claim C10: on disjoint tag sets Union succeeds and returns the source heap
completely unchanged: count, minimum, index and tree structure are all identical
because the whole source state is identical; only the destination is rebuilt. -/
theorem C10_union_preserves_source (d s : Heap)
    (hdisj : ∀ tg ∈ s.index, tg ∉ d.index) :
    (unionGo d s).2.1 = s ∧ (unionGo d s).2.2 = none := by
  have hany : ¬s.index.any (fun tg => d.index.contains tg) = true := by
    rw [List.any_eq_true]
    rintro ⟨tg, htg, hcon⟩
    exact hdisj tg htg (List.elem_iff.1 hcon)
  rw [unionGo, if_neg hany]
  exact ⟨rfl, rfl⟩

theorem C10_union_preserves_source_witness :
    (unionGo (InsertGo newFibHeap 1 ((5 : Int) : Key)).1
      (InsertGo newFibHeap 2 ((3 : Int) : Key)).1).2.1
      = (InsertGo newFibHeap 2 ((3 : Int) : Key)).1 ∧
    (unionGo (InsertGo newFibHeap 1 ((5 : Int) : Key)).1
      (InsertGo newFibHeap 2 ((3 : Int) : Key)).1).2.2 = none :=
  C10_union_preserves_source (InsertGo newFibHeap 1 ((5 : Int) : Key)).1
    (InsertGo newFibHeap 2 ((3 : Int) : Key)).1 (by decide)
